import Mathlib

/-!
# xmlcursor: cursor navigation and mutation over a flat token document

Shallow embedding of `parser/parser.go` and `cursor/cursor.go`.

* Go `int` values (cursor index, stored bookmark indices, nesting level) are
  modelled as `Int`: every index the program stores is bounded by the length
  of a slice, so no addition performed here wraps.
* A Go slice is a `List`; a run-time panic (index or slice bound out of range)
  is the result `Res.panic`.
* A loop without a syntactic bound takes a fuel argument and yields
  `Res.fuel` when the fuel is used up before the loop exits.
* The map `Bookmarks` is an association list read with `mapGet` and written
  with `mapSet`; `range` over the map visits every entry.
* `encoding/xml` is external: its token values are the type `XmlToken`, its
  encoder is a parameter of `Xml`.
-/

namespace XmlCursor

/-! ## parser/parser.go -/

/-- The constants `Start .. None` of `parser.TokenType`. -/
inductive TokenType where
  | Start
  | End
  | Text
  | Comment
  | ProcInst
  | Directive
  | None
deriving DecidableEq, Repr

/-- The struct `xml.Name`. -/
structure Name where
  Space : String
  Local : String
deriving DecidableEq, Repr

/-- The struct `xml.Attr`. -/
structure Attr where
  Name : Name
  Value : String
deriving DecidableEq, Repr

/-- The dynamic values an `xml.Token` interface holds in this program:
the six token structs of `encoding/xml`, the value `struct{}{}` carried by
the sentinel, and the nil interface of the zero `parser.Token{}`. -/
inductive XmlToken where
  | StartElement (Name : Name) (Attr : List Attr)
  | EndElement (Name : Name)
  | CharData (s : String)
  | Comment (s : String)
  | ProcInst (Target : String) (Inst : String)
  | Directive (s : String)
  | unit
  | nil
deriving DecidableEq, Repr

/-- The struct `parser.Token`: the embedded `xml.Token` (field `Tok`) and the
field `Type` (written `Typ`, `Type` being reserved). -/
structure Token where
  Tok : XmlToken
  Typ : TokenType
deriving DecidableEq, Repr

/-- The struct `parser.Document`, over bookmark keys of type `K`. -/
structure Document (K : Type) where
  Tokens : List Token
  Bookmarks : List (K × List Int)
deriving DecidableEq

def Token.IsStart (t : Token) : Bool := t.Typ == TokenType.Start

def Token.IsEnd (t : Token) : Bool := t.Typ == TokenType.End

def Token.IsText (t : Token) : Bool := t.Typ == TokenType.Text

def Token.IsComment (t : Token) : Bool := t.Typ == TokenType.Comment

def Token.IsProcessingInstruction (t : Token) : Bool := t.Typ == TokenType.ProcInst

def Token.IsDirective (t : Token) : Bool := t.Typ == TokenType.Directive

def Token.IsNone (t : Token) : Bool := t.Typ == TokenType.None

/-- The method `Token.Name`: a type switch on the embedded `xml.Token`. -/
def Token.Name (t : Token) : Name :=
  match t.Tok with
  | XmlToken.StartElement n _ => n
  | XmlToken.EndElement n => n
  | _ => ⟨"", ""⟩

/-- The method `Token.Text`. -/
def Token.Text (t : Token) : String :=
  match t.Tok with
  | XmlToken.CharData s => s
  | XmlToken.Comment s => s
  | XmlToken.Directive s => s
  | _ => ""

/-! ## Results, slices and maps -/

/-- Outcome of a call: a value, a run-time panic, or fuel used up. -/
inductive Res (α : Type) where
  | ok (val : α)
  | panic
  | fuel
deriving DecidableEq, Repr

/-- Sequencing of calls: a panic or a fuel failure ends the run. -/
def Res.bind {α β : Type} (r : Res α) (f : α → Res β) : Res β :=
  match r with
  | Res.ok a => f a
  | Res.panic => Res.panic
  | Res.fuel => Res.fuel

instance : Monad Res where
  pure := Res.ok
  bind := Res.bind

/-- The sentinel `parser.Token{Token: struct{}{}, Type: parser.None}`. -/
def noneToken : Token := ⟨XmlToken.unit, TokenType.None⟩

/-- The zero value `parser.Token{}`: nil interface, `Type` 0, which is `Start`. -/
def zeroToken : Token := ⟨XmlToken.nil, TokenType.Start⟩

/-- The index expression `s[i]`: panics unless `0 <= i < len(s)`. -/
def sliceIndex {α : Type} (s : List α) (i : Int) : Res α :=
  if 0 ≤ i ∧ i < s.length then
    match s[i.toNat]? with
    | some a => Res.ok a
    | none => Res.panic
  else Res.panic

/-- The assignment `s[i] = v`: panics unless `0 <= i < len(s)`. -/
def sliceSet {α : Type} (s : List α) (i : Int) (v : α) : Res (List α) :=
  if 0 ≤ i ∧ i < s.length then Res.ok (s.set i.toNat v) else Res.panic

/-- The slice expression `s[lo:hi]` with `hi <= len(s)`: panics unless
`0 <= lo <= hi`. -/
def sliceRange {α : Type} (s : List α) (lo hi : Int) : Res (List α) :=
  if 0 ≤ lo ∧ lo ≤ hi ∧ hi ≤ s.length then
    Res.ok ((s.take hi.toNat).drop lo.toNat)
  else Res.panic

/-- The statement `copy(s[lo:], src)`: the first `min(len(s)-lo, len(src))`
elements of `src` overwrite `s` from `lo` on (with the semantics of a move,
`src` being read before anything is written); panics unless
`0 <= lo <= len(s)`. -/
def copyInto {α : Type} (s : List α) (lo : Int) (src : List α) : Res (List α) :=
  if 0 ≤ lo ∧ lo ≤ s.length then
    let n := min (s.length - lo.toNat) src.length
    Res.ok (s.take lo.toNat ++ src.take n ++ s.drop (lo.toNat + n))
  else Res.panic

/-- The map read `m[k]` with its presence flag. -/
def mapGet {K V : Type} [DecidableEq K] (m : List (K × V)) (k : K) : Option V :=
  match m with
  | [] => none
  | e :: r => if e.1 = k then some e.2 else mapGet r k

/-- The map write `m[k] = v`. -/
def mapSet {K V : Type} [DecidableEq K] (m : List (K × V)) (k : K) (v : V) : List (K × V) :=
  match m with
  | [] => [(k, v)]
  | e :: r => if e.1 = k then (k, v) :: r else e :: mapSet r k v

/-! ## cursor/cursor.go -/

/-- The struct `cursor.Cursor`. -/
structure Cursor (K : Type) where
  document : Document K
  index : Int
  stack : List Int
deriving DecidableEq

variable {K : Type}

/-- The function `NewCursor(doc)`. -/
def NewCursor (doc : Document K) : Cursor K := ⟨doc, -1, []⟩

/-- The method `updateBookmarks`: every stored index `>= index` of every key
grows by `offset`. -/
def updateBookmarks (c : Cursor K) (index offset : Int) : Cursor K :=
  { c with document := { c.document with
      Bookmarks := c.document.Bookmarks.map fun e =>
        (e.1, e.2.map fun b => if b ≥ index then b + offset else b) } }

/-- The method `Push`. -/
def Push (c : Cursor K) : Cursor K := { c with stack := c.stack ++ [c.index] }

/-- The method `Pop`: `c.stack = c.stack[:len(c.stack)-1]`. -/
def Pop (c : Cursor K) : Res (Cursor K) :=
  match sliceRange c.stack 0 ((c.stack.length : Int) - 1) with
  | Res.ok s => Res.ok { c with stack := s }
  | Res.panic => Res.panic
  | Res.fuel => Res.fuel

/-- The method `CurrentToken`. -/
def CurrentToken (c : Cursor K) : Res Token :=
  if c.index < 0 ∨ c.index > c.document.Tokens.length then Res.ok noneToken
  else sliceIndex c.document.Tokens c.index

/-- The method `ToNextToken`. -/
def ToNextToken (c : Cursor K) : Res (Token × Cursor K) :=
  let c1 := { c with index := c.index + 1 }
  if c1.index ≥ c1.document.Tokens.length then
    Res.ok (noneToken, { c1 with index := c1.index - 1 })
  else
    match sliceIndex c1.document.Tokens c1.index with
    | Res.ok t => Res.ok (t, c1)
    | Res.panic => Res.panic
    | Res.fuel => Res.fuel

/-- The method `ToPreviousToken`. -/
def ToPreviousToken (c : Cursor K) : Res (Token × Cursor K) :=
  let c1 := { c with index := c.index - 1 }
  if c1.index < 0 then
    Res.ok (noneToken, { c1 with index := c1.index + 1 })
  else
    match sliceIndex c1.document.Tokens c1.index with
    | Res.ok t => Res.ok (t, c1)
    | Res.panic => Res.panic
    | Res.fuel => Res.fuel

/-- The loop of `ToStartToken`, run while `c.index >= 0`. -/
def ToStartToken.loop : Nat → Cursor K → Res (Token × Cursor K)
  | 0, _ => Res.fuel
  | n + 1, c =>
    if c.index ≥ 0 then
      match sliceIndex c.document.Tokens c.index with
      | Res.ok t =>
        if t.IsStart then Res.ok (t, c)
        else ToStartToken.loop n { c with index := c.index - 1 }
      | Res.panic => Res.panic
      | Res.fuel => Res.fuel
    else Res.ok (noneToken, c)

/-- The method `ToStartToken`: `Push`, the backward loop, and the deferred
`Pop` run once the returned token is fixed. -/
def ToStartToken (fuel : Nat) (c : Cursor K) : Res (Token × Cursor K) := do
  let c := Push c
  let r ← ToStartToken.loop fuel c
  let c ← Pop r.2
  pure (r.1, c)

/-- The loop of `ToEndToken`, with the local `level`. -/
def ToEndToken.loop : Nat → Cursor K → Int → Res (Token × Cursor K)
  | 0, _, _ => Res.fuel
  | n + 1, c, level =>
    match ToNextToken c with
    | Res.ok (nt, c) =>
      match nt.Typ with
      | TokenType.None => Res.ok (nt, c)
      | TokenType.Start => ToEndToken.loop n c (level + 1)
      | TokenType.End =>
        if level - 1 = 0 then Res.ok (nt, c) else ToEndToken.loop n c (level - 1)
      | _ => ToEndToken.loop n c level
    | Res.panic => Res.panic
    | Res.fuel => Res.fuel

/-- The method `ToEndToken`. -/
def ToEndToken (fuel : Nat) (c : Cursor K) : Res (Token × Cursor K) := do
  let t ← sliceIndex c.document.Tokens c.index
  if !t.IsStart then pure (noneToken, c)
  else ToEndToken.loop fuel c 1

/-- The loop of `ToNextSibling`: skip while the current token is neither a
start nor an end (`CurrentToken` is pure, its two calls in the condition are
one here). -/
def ToNextSibling.loop : Nat → Cursor K → Res (Cursor K)
  | 0, _ => Res.fuel
  | n + 1, c =>
    match CurrentToken c with
    | Res.ok t =>
      if !t.IsStart && !t.IsEnd then
        match ToNextToken c with
        | Res.ok r => ToNextSibling.loop n r.2
        | Res.panic => Res.panic
        | Res.fuel => Res.fuel
      else Res.ok c
    | Res.panic => Res.panic
    | Res.fuel => Res.fuel

/-- The method `ToNextSibling`. -/
def ToNextSibling (fuel : Nat) (c : Cursor K) : Res (Bool × Cursor K) := do
  let idx := c.index
  let t ← CurrentToken c
  if !t.IsStart then pure (false, c)
  else do
    let r ← ToEndToken fuel c
    let r ← ToNextToken r.2
    let c ← ToNextSibling.loop fuel r.2
    let t ← CurrentToken c
    if t.IsNone || t.IsEnd then pure (false, { c with index := idx })
    else pure (true, c)

/-- The loop of `ToNextSiblingByName`; `inner` is the fuel handed to each call
of `ToNextSibling`, `idx` the index saved on entry. -/
def ToNextSiblingByName.loop (inner : Nat) (name : Name) (idx : Int) :
    Nat → Cursor K → Res (Bool × Cursor K)
  | 0, _ => Res.fuel
  | n + 1, c =>
    match ToNextSibling inner c with
    | Res.ok r =>
      if !r.1 then Res.ok (false, { r.2 with index := idx })
      else
        match CurrentToken r.2 with
        | Res.ok t =>
          if t.Name.Local = name.Local ∧ t.Name.Space = name.Space then Res.ok (true, r.2)
          else ToNextSiblingByName.loop inner name idx n r.2
        | Res.panic => Res.panic
        | Res.fuel => Res.fuel
    | Res.panic => Res.panic
    | Res.fuel => Res.fuel

/-- The method `ToNextSiblingByName`. -/
def ToNextSiblingByName (fuel : Nat) (name : Name) (c : Cursor K) : Res (Bool × Cursor K) :=
  ToNextSiblingByName.loop fuel name c.index fuel c

/-- The loop of `ToFirstChild`: skip while the current token is neither the
sentinel, nor an end, nor a start. -/
def ToFirstChild.loop : Nat → Cursor K → Res (Cursor K)
  | 0, _ => Res.fuel
  | n + 1, c =>
    match CurrentToken c with
    | Res.ok t =>
      if !t.IsNone && !t.IsEnd && !t.IsStart then
        match ToNextToken c with
        | Res.ok r => ToFirstChild.loop n r.2
        | Res.panic => Res.panic
        | Res.fuel => Res.fuel
      else Res.ok c
    | Res.panic => Res.panic
    | Res.fuel => Res.fuel

/-- The method `ToFirstChild`. -/
def ToFirstChild (fuel : Nat) (c : Cursor K) : Res (Bool × Cursor K) := do
  let idx := c.index
  let r ← ToNextToken c
  let c ← ToFirstChild.loop fuel r.2
  let t ← CurrentToken c
  if !t.IsStart then pure (false, { c with index := idx })
  else pure (true, c)

/-- The method `ToFirstChildByName`. -/
def ToFirstChildByName (fuel : Nat) (name : Name) (c : Cursor K) : Res (Bool × Cursor K) := do
  let r ← ToFirstChild fuel c
  if !r.1 then pure (false, r.2)
  else do
    let t ← CurrentToken r.2
    if t.Name.Local = name.Local ∧ t.Name.Space = name.Space then pure (true, r.2)
    else do
      let r ← ToNextSiblingByName fuel name r.2
      if !r.1 then pure (false, r.2)
      else pure (true, r.2)

/-- The method `Cursor.NewCursor`: same document value, same index, fresh stack. -/
def Cursor.NewCursor (c : Cursor K) : Cursor K := ⟨c.document, c.index, []⟩

/-- The method `ToStartDoc`. -/
def ToStartDoc (c : Cursor K) : Cursor K := { c with index := 0 }

/-- Replaces the token slice of the cursor's document. -/
def setTokens (c : Cursor K) (ts : List Token) : Cursor K :=
  { c with document := { c.document with Tokens := ts } }

/-- The method `BeginElement`. -/
def BeginElement (name : Name) (c : Cursor K) : Res (Cursor K) := do
  let c := updateBookmarks c c.index 2
  let newStartElement := XmlToken.StartElement name []
  let newEndElement := XmlToken.EndElement name
  let c := setTokens c (c.document.Tokens ++ [zeroToken, zeroToken])
  let src ← sliceRange c.document.Tokens c.index ((c.document.Tokens.length : Int) - 2)
  let ts ← copyInto c.document.Tokens (c.index + 2) src
  let ts ← sliceSet ts c.index ⟨newStartElement, TokenType.Start⟩
  let ts ← sliceSet ts (c.index + 1) ⟨newEndElement, TokenType.End⟩
  let c := setTokens c ts
  let r ← ToNextToken c
  pure r.2

/-- The method `InsertElement`. -/
def InsertElement (name : Name) (c : Cursor K) : Res (Cursor K) := do
  let c ← BeginElement name c
  let r ← ToNextToken c
  pure r.2

/-- The method `InsertText`. -/
def InsertText (text : String) (c : Cursor K) : Res (Cursor K) := do
  let c := updateBookmarks c c.index 1
  let c := setTokens c (c.document.Tokens ++ [zeroToken])
  let src ← sliceRange c.document.Tokens c.index ((c.document.Tokens.length : Int) - 1)
  let ts ← copyInto c.document.Tokens (c.index + 1) src
  let ts ← sliceSet ts c.index ⟨XmlToken.CharData text, TokenType.Text⟩
  let c := setTokens c ts
  let r ← ToNextToken c
  pure r.2

/-- The method `InsertElementWithText`. -/
def InsertElementWithText (name : Name) (text : String) (c : Cursor K) : Res (Cursor K) := do
  let c := updateBookmarks c c.index 3
  let newStartElement := XmlToken.StartElement name []
  let newEndElement := XmlToken.EndElement name
  let c := setTokens c (c.document.Tokens ++ [zeroToken, zeroToken, zeroToken])
  let src ← sliceRange c.document.Tokens c.index ((c.document.Tokens.length : Int) - 3)
  let ts ← copyInto c.document.Tokens (c.index + 3) src
  let ts ← sliceSet ts c.index ⟨newStartElement, TokenType.Start⟩
  let ts ← sliceSet ts (c.index + 1) ⟨XmlToken.CharData text, TokenType.Text⟩
  let ts ← sliceSet ts (c.index + 2) ⟨newEndElement, TokenType.End⟩
  let c := setTokens c ts
  pure { c with index := c.index + 3 }


/-! ### Bookmarks -/

/-- The loop of `sort.Search(n, f)`: `i, j := 0, n`, then while `i < j` the
midpoint `h := int(uint(i+j) >> 1)` replaces `i` by `h + 1` when `f(h)` is
false and `j` by `h` otherwise. -/
def Search.loop (f : Nat → Bool) : Nat → Nat → Nat → Nat
  | 0, i, _ => i
  | n + 1, i, j =>
    if i < j then
      let h := (i + j) / 2
      if !f h then Search.loop f n (h + 1) j else Search.loop f n i h
    else i

/-- The library function `sort.Search`; the interval halves at every turn, so
`n` turns are never used up. -/
def Search (n : Nat) (f : Nat → Bool) : Nat := Search.loop f n 0 n

/-- The library function `sort.SearchInts(a, x)`, which is
`Search(len(a), func(i) bool { return a[i] >= x })`. -/
def SearchInts (a : List Int) (x : Int) : Nat :=
  Search a.length fun i => decide (a.getD i 0 ≥ x)

/-- The library function `slices.Insert(s, i, v)`: panics unless `i <= len(s)`. -/
def slicesInsert {α : Type} (s : List α) (i : Nat) (v : α) : Res (List α) :=
  if i ≤ s.length then Res.ok (s.take i ++ [v] ++ s.drop i) else Res.panic

/-- The library function `slices.Delete(s, i, j)`: panics unless
`i <= j <= len(s)`. -/
def slicesDelete {α : Type} (s : List α) (i j : Nat) : Res (List α) :=
  if i ≤ j ∧ j ≤ s.length then Res.ok (s.take i ++ s.drop j) else Res.panic

/-- The read `c.document.Bookmarks[bookmark]` followed by the replacement of a
nil slice by `make([]int, 0)`. -/
def bookmarkList [DecidableEq K] (c : Cursor K) (bookmark : K) : List Int :=
  match mapGet c.document.Bookmarks bookmark with
  | some l => l
  | none => []

/-- Stores a list under a key of the bookmark map. -/
def storeBookmarks [DecidableEq K] (c : Cursor K) (bookmark : K) (l : List Int) : Cursor K :=
  { c with document := { c.document with Bookmarks := mapSet c.document.Bookmarks bookmark l } }

/-- The method `SetBookmark`. -/
def SetBookmark [DecidableEq K] (bookmark : K) (c : Cursor K) : Res (Cursor K) := do
  let bookmarksIndexes := bookmarkList c bookmark
  let insertionIndex := SearchInts bookmarksIndexes c.index
  if bookmarksIndexes.length = insertionIndex then do
    let l ← slicesInsert bookmarksIndexes insertionIndex c.index
    pure (storeBookmarks c bookmark l)
  else do
    let v ← sliceIndex bookmarksIndexes insertionIndex
    if v ≠ c.index then do
      let l ← slicesInsert bookmarksIndexes insertionIndex c.index
      pure (storeBookmarks c bookmark l)
    else pure (storeBookmarks c bookmark bookmarksIndexes)

/-- The method `ClearBookmark`. -/
def ClearBookmark [DecidableEq K] (bookmark : K) (c : Cursor K) : Res (Cursor K) := do
  let bookmarksIndexes := bookmarkList c bookmark
  let insertionIndex := SearchInts bookmarksIndexes c.index
  let v ← sliceIndex bookmarksIndexes insertionIndex
  if v = c.index then do
    let l ← slicesDelete bookmarksIndexes insertionIndex (insertionIndex + 1)
    pure (storeBookmarks c bookmark l)
  else pure (storeBookmarks c bookmark bookmarksIndexes)

/-- The method `ToFirstBookmark`. -/
def ToFirstBookmark [DecidableEq K] (bookmark : K) (c : Cursor K) : Bool × Cursor K :=
  match mapGet c.document.Bookmarks bookmark with
  | some (v :: _) => (true, { c with index := v })
  | _ => (false, c)

/-- The scan of `ToNextBookmark` over the stored indices. -/
def ToNextBookmark.scan (c : Cursor K) : List Int → Bool × Cursor K
  | [] => (false, c)
  | v :: r => if v > c.index then (true, { c with index := v }) else ToNextBookmark.scan c r

/-- The method `ToNextBookmark`. -/
def ToNextBookmark [DecidableEq K] (bookmark : K) (c : Cursor K) : Bool × Cursor K :=
  match mapGet c.document.Bookmarks bookmark with
  | some ints => ToNextBookmark.scan c ints
  | none => (false, c)

/-! ### Serialization -/

/-- The external encoder of `encoding/xml` behind `Xml`: the state of
`xml.NewEncoder(&sb)` over an empty builder, the effect of `EncodeToken` on
that state (its error result is dropped by the caller), and the text
`sb.String()` read after `Flush`. -/
structure Encoder (σ : Type) where
  NewEncoder : σ
  EncodeToken : σ → XmlToken → σ
  String : σ → String

/-- The loop `ite` of `Xml`, with the local `level` and the encoder state. -/
def Xml.loop {σ : Type} (enc : Encoder σ) : Nat → Cursor K → Int → σ → Res (σ × Cursor K)
  | 0, _, _, _ => Res.fuel
  | n + 1, c, level, e =>
    match ToNextToken c with
    | Res.ok (nt, c) =>
      match nt.Typ with
      | TokenType.None => Res.ok (e, c)
      | TokenType.Start => Xml.loop enc n c (level + 1) (enc.EncodeToken e nt.Tok)
      | TokenType.End =>
        if level - 1 = 0 then Res.ok (enc.EncodeToken e nt.Tok, c)
        else Xml.loop enc n c (level - 1) (enc.EncodeToken e nt.Tok)
      | _ => Xml.loop enc n c level (enc.EncodeToken e nt.Tok)
    | Res.panic => Res.panic
    | Res.fuel => Res.fuel

/-- The method `Xml`. -/
def Xml {σ : Type} (enc : Encoder σ) (fuel : Nat) (c : Cursor K) : Res (String × Cursor K) := do
  let c := Push c
  let t ← CurrentToken c
  let r ← Xml.loop enc fuel c 1 (enc.EncodeToken enc.NewEncoder t.Tok)
  let c ← Pop r.2
  pure (enc.String r.1, c)


/-! ## Specification vocabulary -/

/-- The start token `BeginElement` and `InsertElementWithText` write. -/
def startToken (name : Name) : Token := ⟨XmlToken.StartElement name [], TokenType.Start⟩

/-- The end token `BeginElement` and `InsertElementWithText` write. -/
def endToken (name : Name) : Token := ⟨XmlToken.EndElement name, TokenType.End⟩

/-- The text token `InsertText` and `InsertElementWithText` write. -/
def textToken (text : String) : Token := ⟨XmlToken.CharData text, TokenType.Text⟩

/-- The sequence `ts[0..p) ++ new ++ ts[p..]`. -/
def splice (ts : List Token) (p : Int) (new : List Token) : List Token :=
  ts.take p.toNat ++ new ++ ts.drop p.toNat

/-- Rebasing of one stored index for an insertion of `k` tokens at `p`. -/
def rebase (p k b : Int) : Int := if b ≥ p then b + k else b

/-- Rebasing of every list of a bookmark map. -/
def rebaseAll (p k : Int) (bm : List (K × List Int)) : List (K × List Int) :=
  bm.map fun e => (e.1, e.2.map (rebase p k))

/-- Net change of the nesting depth made by one token. -/
def delta (t : Token) : Int :=
  match t.Typ with
  | TokenType.Start => 1
  | TokenType.End => -1
  | _ => 0

/-- Net change of the nesting depth over a run of tokens. -/
def nesting (l : List Token) : Int := (l.map delta).sum

/-- The nesting invariant: scanning forward the depth is never negative, and
it is back to zero at the end (every start has its end). -/
def WellNested (ts : List Token) : Prop :=
  (∀ k, k ≤ ts.length → 0 ≤ nesting (ts.take k)) ∧ nesting ts = 0

instance (ts : List Token) : Decidable (WellNested ts) := by
  unfold WellNested; infer_instance

/-- The recursive reading of the nesting invariant from depth `d` on: the
depth after every token is non-negative and the last depth is zero. -/
def DepthOK : Int → List Token → Prop
  | d, [] => d = 0
  | d, t :: r => 0 ≤ d + delta t ∧ DepthOK (d + delta t) r

/-- The insertion calls of the cursor. -/
inductive Insertion where
  | BeginElement (name : Name)
  | InsertElement (name : Name)
  | InsertText (text : String)
  | InsertElementWithText (name : Name) (text : String)
deriving DecidableEq, Repr

/-- Runs one insertion call. -/
def Insertion.run (op : Insertion) (c : Cursor K) : Res (Cursor K) :=
  match op with
  | Insertion.BeginElement name => XmlCursor.BeginElement name c
  | Insertion.InsertElement name => XmlCursor.InsertElement name c
  | Insertion.InsertText text => XmlCursor.InsertText text c
  | Insertion.InsertElementWithText name text => XmlCursor.InsertElementWithText name text c

/-- The tokens an insertion call writes. -/
def Insertion.tokens (op : Insertion) : List Token :=
  match op with
  | Insertion.BeginElement name => [startToken name, endToken name]
  | Insertion.InsertElement name => [startToken name, endToken name]
  | Insertion.InsertText text => [textToken text]
  | Insertion.InsertElementWithText name text => [startToken name, textToken text, endToken name]

/-- Runs a finite sequence of insertion calls, one after the other. -/
def runAll : List Insertion → Cursor K → Res (Cursor K)
  | [], c => Res.ok c
  | op :: r, c =>
    match op.run c with
    | Res.ok c1 => runAll r c1
    | Res.panic => Res.panic
    | Res.fuel => Res.fuel

/-- Number of tokens an insertion call writes. -/
def Insertion.count (op : Insertion) : Int :=
  match op with
  | Insertion.BeginElement _ => 2
  | Insertion.InsertElement _ => 2
  | Insertion.InsertText _ => 1
  | Insertion.InsertElementWithText _ _ => 3


/-! ### Fixtures -/

/-- The tokens of `<a><b></b></a>`. -/
def docAB : List Token :=
  [startToken ⟨"", "a"⟩, startToken ⟨"", "b"⟩, endToken ⟨"", "b"⟩, endToken ⟨"", "a"⟩]

/-- A cursor on the end token of `b` in `<a><b></b></a>`, with two bookmarks
stored under one key. -/
def cursorAB : Cursor String := ⟨⟨docAB, [("mark", [1, 2])]⟩, 2, []⟩

/-! ### Nesting vocabulary -/

/-- No token of the sequence carries the type `None`: the sentinel is not a
document element, and `Parse` never builds one. -/
def NoSentinel (ts : List Token) : Prop := ∀ t ∈ ts, t.Typ ≠ TokenType.None

instance (ts : List Token) : Decidable (NoSentinel ts) := by
  unfold NoSentinel; infer_instance

/-- The nesting counter of a scan that starts at 1 on the token at `i` and
has read the tokens `i+1 .. j`: `+1` per start, `-1` per end. -/
def counter (ts : List Token) (i j : Nat) : Int :=
  1 + nesting ((ts.take (j + 1)).drop (i + 1))

/-- Index `j` holds the end matching the start at `i`: it is the least index
after `i` at which the nesting counter reaches zero. -/
def IsMatchingEnd (ts : List Token) (i j : Nat) : Prop :=
  i < j ∧ j < ts.length ∧ counter ts i j = 0 ∧ ∀ k, k < j → i < k → counter ts i k ≠ 0

instance (ts : List Token) (i j : Nat) : Decidable (IsMatchingEnd ts i j) := by
  unfold IsMatchingEnd; infer_instance

/-- A counter started at `level` before the run `s` reaches zero for the
first time on the token at offset `m` of `s`. -/
def ClosesAt (level : Int) (s : List Token) (m : Nat) : Prop :=
  m < s.length ∧ level + nesting (s.take (m + 1)) = 0 ∧
    ∀ n, n < m → level + nesting (s.take (n + 1)) ≠ 0

/-- Names of start and end tags match like brackets: a scan keeping the stack
of open names meets, at every end token, the name on top of the stack, and
ends with the stack it is asked to end with empty. -/
def namesMatch : List Name → List Token → Bool
  | st, [] => st.isEmpty
  | st, t :: r =>
    match t.Typ with
    | TokenType.Start => namesMatch (t.Name :: st) r
    | TokenType.End =>
      match st with
      | n :: st1 => decide (t.Name = n) && namesMatch st1 r
      | [] => false
    | _ => namesMatch st r

/-- A well-formed sequence: tags are nested and every end tag carries the
name of the start tag it closes. -/
def WellFormed (ts : List Token) : Prop := namesMatch [] ts = true

instance (ts : List Token) : Decidable (WellFormed ts) := by
  unfold WellFormed; infer_instance

/-- The cursor `c` moved to index `i`. -/
def Cursor.at (c : Cursor K) (i : Int) : Cursor K := { c with index := i }

/-- The tokens of
`<a>uuu<b>test<c></c>hhh<d></d>qqq<e></e><f></f>ccc</b>ppp</a>`. -/
def docMove : List Token :=
  [startToken ⟨"", "a"⟩, textToken "uuu", startToken ⟨"", "b"⟩, textToken "test",
   startToken ⟨"", "c"⟩, endToken ⟨"", "c"⟩, textToken "hhh",
   startToken ⟨"", "d"⟩, endToken ⟨"", "d"⟩, textToken "qqq",
   startToken ⟨"", "e"⟩, endToken ⟨"", "e"⟩, startToken ⟨"", "f"⟩, endToken ⟨"", "f"⟩,
   textToken "ccc", endToken ⟨"", "b"⟩, textToken "ppp", endToken ⟨"", "a"⟩]

/-- A cursor on the start token of `b` in `docMove`. -/
def cursorMove : Cursor String := ⟨⟨docMove, []⟩, 2, []⟩

/-! ### Element vocabulary -/

/-- A start or an end token: the tokens sibling and child navigation stop at. -/
def isMarker (t : Token) : Bool := t.IsStart || t.IsEnd

/-- The token at index `k`, the sentinel outside the sequence. -/
def tokenAt (ts : List Token) (k : Nat) : Token := ts.getD k noneToken

/-- Index `k` holds the first start-or-end token after index `j`: every token
strictly between them is text, a comment, a processing instruction or a
directive. -/
def IsNextMarker (ts : List Token) (j k : Nat) : Prop :=
  j < k ∧ k < ts.length ∧ isMarker (tokenAt ts k) = true ∧
    ∀ m, m < k → j < m → isMarker (tokenAt ts m) = false

instance (ts : List Token) (j k : Nat) : Decidable (IsNextMarker ts j k) := by
  unfold IsNextMarker; infer_instance

/-- Offset and value of the first start-or-end token of a run. -/
def firstMarker : List Token → Option (Nat × Token)
  | [] => none
  | t :: r =>
    if isMarker t then some (0, t)
    else
      match firstMarker r with
      | some (q, u) => some (q + 1, u)
      | none => none

/-- Indices of the start tokens met at nesting level 1 by a scan of the run
`s`, whose first token has index `k`, entered at `level`; the scan ends with
the end token that brings the level to zero. -/
def childScan : Int → Nat → List Token → List Nat
  | _, _, [] => []
  | level, k, t :: r =>
    match t.Typ with
    | TokenType.Start =>
      if level = 1 then k :: childScan (level + 1) (k + 1) r
      else childScan (level + 1) (k + 1) r
    | TokenType.End =>
      if level - 1 = 0 then [] else childScan (level - 1) (k + 1) r
    | _ => childScan level (k + 1) r

/-- The direct child elements of the element whose start token is at `p`:
the indices, in document order, of the start tokens met at nesting depth
exactly 1 below `p`, before the end token matching `p`. -/
def children (ts : List Token) (p : Nat) : List Nat :=
  childScan 1 (p + 1) (ts.drop (p + 1))

/-- The test of `ToFirstChildByName` and `ToNextSiblingByName` on the token at
index `k`: equal `Local` and equal `Space`. -/
def hasName (ts : List Token) (name : Name) (k : Nat) : Bool :=
  decide ((tokenAt ts k).Name.Local = name.Local ∧ (tokenAt ts k).Name.Space = name.Space)

/-- The tokens `ts[i..j]`, both ends included. -/
def tokenRange (ts : List Token) (i j : Nat) : List Token := (ts.take (j + 1)).drop i

/-- The encoder state after `EncodeToken` on each token of `l`, in order. -/
def encodeAll {σ : Type} (enc : Encoder σ) (e : σ) (l : List Token) : σ :=
  l.foldl (fun acc t => enc.EncodeToken acc t.Tok) e

/-- A plain rendering of tokens, used to read an emitted sequence as text:
`<name>` for a start, `</name>` for an end, character data as it is. -/
def plainEncoder : Encoder String where
  NewEncoder := ""
  EncodeToken := fun sb t =>
    match t with
    | XmlToken.StartElement n _ => sb ++ "<" ++ n.Local ++ ">"
    | XmlToken.EndElement n => sb ++ "</" ++ n.Local ++ ">"
    | XmlToken.CharData s => sb ++ s
    | _ => sb
  String := fun sb => sb

/-- The scenario of `TestParseXmlAndInsert` on the tokens of `<a><b></b></a>`:
three steps forward from a new cursor reach the end token of `b`, then
`BeginElement(c)`, `ToStartDoc` and `Xml`. -/
def scenarioInsert : Res (String × Cursor String) := do
  let c := NewCursor ⟨docAB, []⟩
  let r ← ToNextToken c
  let r ← ToNextToken r.2
  let r ← ToNextToken r.2
  let c ← BeginElement ⟨"", "c"⟩ r.2
  Xml plainEncoder 6 (ToStartDoc c)

/-- The scenario of `TestCursor_MoveAround` on `docMove`: `ToStartDoc`,
`ToFirstChild`, then `ToFirstChildByName(e)`. -/
def scenarioMove : Res (Bool × Cursor String) := do
  let c := ToStartDoc (NewCursor ⟨docMove, []⟩)
  let r ← ToFirstChild 18 c
  ToFirstChildByName 18 ⟨"", "e"⟩ r.2

/-- The registry invariant: the index list of every key is strictly
ascending, hence free of duplicates. -/
def BookmarksSorted (c : Cursor K) : Prop :=
  ∀ e ∈ c.document.Bookmarks, e.2.Pairwise (· < ·)

instance (c : Cursor K) : Decidable (BookmarksSorted c) := by
  unfold BookmarksSorted; infer_instance

/-- Index `k` holds a direct child element of the element whose start token
is at `i`: a start token after `i` met at nesting depth exactly 1 below `i`
(just before `k` the counter of the scan from `i` stands at 1), the scan not
having closed the element before (the counter was never zero before `k`). -/
def IsChild (ts : List Token) (i k : Nat) : Prop :=
  i < k ∧ k < ts.length ∧ (tokenAt ts k).Typ = TokenType.Start ∧
    1 + nesting ((ts.take k).drop (i + 1)) = 1 ∧
    ∀ m, m < k → i < m → counter ts i m ≠ 0

instance (ts : List Token) (i k : Nat) : Decidable (IsChild ts i k) := by
  unfold IsChild; infer_instance

/-- The tokens of `<p><x></x>t<y></y><z></z></p>`: an element with the three
child elements `x`, `y`, `z` at indices 1, 4 and 6. -/
def docThree : List Token :=
  [startToken ⟨"", "p"⟩, startToken ⟨"", "x"⟩, endToken ⟨"", "x"⟩, textToken "t",
   startToken ⟨"", "y"⟩, endToken ⟨"", "y"⟩, startToken ⟨"", "z"⟩, endToken ⟨"", "z"⟩,
   endToken ⟨"", "p"⟩]

/-- A cursor on the start token of `x` in `docThree`. -/
def cursorThree : Cursor String := ⟨⟨docThree, []⟩, 1, []⟩

/-- The tokens of `<a>x</a>`. -/
def docText : List Token := [startToken ⟨"", "a"⟩, textToken "x", endToken ⟨"", "a"⟩]

/-- The reading of `IsChild` on a run: offset `n` of `s` holds a start token met when a
counter started at `L` stands at 1, never zero before. -/
def ChildAt (L : Int) (s : List Token) (n : Nat) : Prop :=
  n < s.length ∧ (s.getD n noneToken).Typ = TokenType.Start ∧ L + nesting (s.take n) = 1 ∧
    ∀ m, m < n → L + nesting (s.take (m + 1)) ≠ 0

/-- The tokens of `<a></a>` followed by a line feed: the decoder of
`encoding/xml` hands out character data met after the root element. -/
def docTrailing : List Token := [startToken ⟨"", "a"⟩, endToken ⟨"", "a"⟩, textToken "\n"]

/-- The statement `c2 := c1.NewCursor()` followed by an insertion made through
`c1`: the pair of `c1` and `c2` as they stand after the call. A cursor holds
its `parser.Document` by value: the field `Bookmarks` is a map, so both copies
refer to the one map and `c2` reads the rebased lists; the field `Tokens` is a
slice header, so `c2` keeps the array and the length it was created with.
`append` writes in place when the capacity of the slice suffices, and then
`c2` reads its first elements from the array `c1` has written; otherwise it
moves to a new array and `c2` reads the old one. The capacity is not part of
this model: `realloc` says which of the two happens. -/
def insertWithSecondCursor (realloc : Bool) (op : Insertion) (c1 : Cursor K) :
    Res (Cursor K × Cursor K) :=
  let c2 := c1.NewCursor
  match op.run c1 with
  | Res.ok c1a =>
    Res.ok (c1a,
      { c2 with document :=
          { Tokens :=
              if realloc then c2.document.Tokens
              else c1a.document.Tokens.take c2.document.Tokens.length,
            Bookmarks := c1a.document.Bookmarks } })
  | Res.panic => Res.panic
  | Res.fuel => Res.fuel

/-- Same document value and same position stack. -/
def SameFrame (c c1 : Cursor K) : Prop := c1.document = c.document ∧ c1.stack = c.stack


/-- A cursor on the start token of `a` in `<a><b></b></a>`, with a bookmark on
the start token of `b`. -/
def cursorShared : Cursor String := ⟨⟨docAB, [("mark", [1])]⟩, 0, []⟩

/-! ## Theorems -/

/-! ### Slices -/

section Slices
variable {α : Type}

theorem sliceRange_tail (ts z : List α) (p : Nat) (n : Int) (hn : n = z.length) (hp : p ≤ ts.length) :
    sliceRange (ts ++ z) (p : Int) (((ts ++ z).length : Int) - n) = Res.ok (ts.drop p) := by
  subst hn
  have h1 : (((ts ++ z).length : Int) - (z.length : Int)) = (ts.length : Int) := by
    simp
  rw [h1]
  unfold sliceRange
  rw [if_pos (by simp; omega)]
  simp

theorem copyInto_tail (ts z : List α) (p : Nat) (n : Int) (hn : n = z.length) (hp : p ≤ ts.length) :
    ∃ y : List α, y.length = z.length ∧
      copyInto (ts ++ z) ((p : Int) + n) (ts.drop p) = Res.ok (ts.take p ++ y ++ ts.drop p) := by
  subst hn
  refine ⟨((ts ++ z).drop p).take z.length, ?_, ?_⟩
  · simp; omega
  · unfold copyInto
    have e : ((p : Int) + (z.length : Int)).toNat = p + z.length := by omega
    rw [if_pos (by simp; omega), e]
    have m : min ((ts ++ z).length - (p + z.length)) (ts.drop p).length = ts.length - p := by
      simp; omega
    simp only [m]
    have d : List.drop (p + z.length + (ts.length - p)) (ts ++ z) = [] := by
      apply List.drop_eq_nil_of_le; simp; omega
    rw [d, List.take_add, List.take_append_of_le_length hp]
    simp

theorem sliceSet_mid (A B : List α) (x v : α) (i : Int) (h : i = A.length) :
    sliceSet (A ++ x :: B) i v = Res.ok (A ++ v :: B) := by
  subst h
  unfold sliceSet
  rw [if_pos (by simp)]
  simp

end Slices

/-! ### Insertions -/

theorem ToNextToken_in (c : Cursor K) (t : Token) (h0 : 0 ≤ c.index + 1)
    (ht : c.document.Tokens[(c.index + 1).toNat]? = some t) :
    ToNextToken c = Res.ok (t, { c with index := c.index + 1 }) := by
  have hl := (List.getElem?_eq_some.1 ht).1
  unfold ToNextToken
  simp only
  rw [if_neg (by omega)]
  unfold sliceIndex
  rw [if_pos (by omega), ht]

theorem BeginElement_eq (name : Name) (c : Cursor K)
    (h0 : 0 ≤ c.index) (h1 : c.index ≤ c.document.Tokens.length) :
    BeginElement name c = Res.ok
      ⟨⟨splice c.document.Tokens c.index [startToken name, endToken name],
        rebaseAll c.index 2 c.document.Bookmarks⟩, c.index + 1, c.stack⟩ := by
  obtain ⟨⟨ts, bm⟩, i, st⟩ := c
  simp only at h0 h1
  obtain ⟨p, rfl⟩ := Int.eq_ofNat_of_zero_le h0
  have hp : p ≤ ts.length := by omega
  obtain ⟨y, hy, hc⟩ := copyInto_tail ts [zeroToken, zeroToken] p 2 rfl hp
  obtain ⟨a, b, rfl⟩ := List.length_eq_two.1 hy
  have hr := sliceRange_tail ts [zeroToken, zeroToken] p 2 rfl hp
  have s1 := sliceSet_mid (ts.take p) (b :: ts.drop p) a (startToken name) p (by simp [hp])
  have s2 := sliceSet_mid (ts.take p ++ [startToken name]) (ts.drop p) b (endToken name) (p + 1)
    (by simp [hp])
  simp only [List.append_assoc, List.cons_append, List.nil_append] at hc s1 s2
  simp only [BeginElement, updateBookmarks, setTokens, bind, Res.bind, pure, hr, hc]
  simp only [startToken, endToken] at s1 s2
  rw [s1]; simp only; rw [s2]; simp only
  have hl : (ts.take p).length = p := by simp [hp]
  rw [ToNextToken_in _ (endToken name) (by simp; omega)
    (by simp only [Int.toNat_ofNat, Int.toNat_ofNat_add_one]
        show (_ : List Token)[((p : Int) + 1).toNat]? = _
        have e : ((p : Int) + 1).toNat = p + 1 := by omega
        rw [e, List.getElem?_append_right (by omega), hl]; simp [endToken])]
  simp [splice, rebaseAll, rebase, startToken, endToken]

theorem InsertText_eq (text : String) (c : Cursor K)
    (h0 : 0 ≤ c.index) (h1 : c.index ≤ c.document.Tokens.length) :
    InsertText text c = Res.ok
      ⟨⟨splice c.document.Tokens c.index [textToken text],
        rebaseAll c.index 1 c.document.Bookmarks⟩,
        if c.index < c.document.Tokens.length then c.index + 1 else c.index, c.stack⟩ := by
  obtain ⟨⟨ts, bm⟩, i, st⟩ := c
  simp only at h0 h1
  obtain ⟨p, rfl⟩ := Int.eq_ofNat_of_zero_le h0
  have hp : p ≤ ts.length := by omega
  obtain ⟨y, hy, hc⟩ := copyInto_tail ts [zeroToken] p 1 rfl hp
  obtain ⟨a, rfl⟩ := List.length_eq_one.1 hy
  have hr := sliceRange_tail ts [zeroToken] p 1 rfl hp
  have s1 := sliceSet_mid (ts.take p) (ts.drop p) a (textToken text) p (by simp [hp])
  simp only [List.append_assoc, List.cons_append, List.nil_append] at hc s1
  simp only [InsertText, updateBookmarks, setTokens, bind, Res.bind, pure, hr, hc]
  simp only [textToken] at s1
  rw [s1]; simp only
  have hl : (ts.take p).length = p := by simp [hp]
  by_cases hlt : p < ts.length
  · have hd : ts.drop p ≠ [] := by
      intro h; have := congrArg List.length h; simp at this; omega
    obtain ⟨d, r, hdr⟩ := List.exists_cons_of_ne_nil hd
    rw [ToNextToken_in _ d (by simp; omega)
      (by show (_ : List Token)[((p : Int) + 1).toNat]? = _
          have e : ((p : Int) + 1).toNat = p + 1 := by omega
          rw [e, List.getElem?_append_right (by omega), hl, hdr]; simp)]
    simp [splice, rebaseAll, rebase, textToken, hlt]
  · have hpe : p = ts.length := by omega
    subst hpe
    simp [ToNextToken, splice, rebaseAll, rebase, textToken]

theorem InsertElementWithText_eq (name : Name) (text : String) (c : Cursor K)
    (h0 : 0 ≤ c.index) (h1 : c.index ≤ c.document.Tokens.length) :
    InsertElementWithText name text c = Res.ok
      ⟨⟨splice c.document.Tokens c.index [startToken name, textToken text, endToken name],
        rebaseAll c.index 3 c.document.Bookmarks⟩, c.index + 3, c.stack⟩ := by
  obtain ⟨⟨ts, bm⟩, i, st⟩ := c
  simp only at h0 h1
  obtain ⟨p, rfl⟩ := Int.eq_ofNat_of_zero_le h0
  have hp : p ≤ ts.length := by omega
  obtain ⟨y, hy, hc⟩ := copyInto_tail ts [zeroToken, zeroToken, zeroToken] p 3 rfl hp
  obtain ⟨a, b, d, rfl⟩ := List.length_eq_three.1 hy
  have hr := sliceRange_tail ts [zeroToken, zeroToken, zeroToken] p 3 rfl hp
  have s1 := sliceSet_mid (ts.take p) (b :: d :: ts.drop p) a (startToken name) p (by simp [hp])
  have s2 := sliceSet_mid (ts.take p ++ [startToken name]) (d :: ts.drop p) b (textToken text) (p + 1)
    (by simp [hp])
  have s3 := sliceSet_mid (ts.take p ++ [startToken name, textToken text]) (ts.drop p) d (endToken name)
    (p + 2) (by simp [hp])
  simp only [List.append_assoc, List.cons_append, List.nil_append] at hc s1 s2 s3
  simp only [InsertElementWithText, updateBookmarks, setTokens, bind, Res.bind, pure, hr, hc]
  simp only [startToken, endToken, textToken] at s1 s2 s3
  rw [s1]; simp only; rw [s2]; simp only; rw [s3]
  simp [splice, rebaseAll, rebase, startToken, endToken, textToken]

theorem Insertion.count_eq (op : Insertion) : op.count = op.tokens.length := by
  cases op <;> rfl

theorem ToNextToken_document (c : Cursor K) (r : Token × Cursor K)
    (h : ToNextToken c = Res.ok r) : r.2.document = c.document ∧ r.2.stack = c.stack ∧
      (r.2.index = c.index ∨ r.2.index = c.index + 1) := by
  unfold ToNextToken at h
  simp only at h
  split at h
  · cases h; simp
  · split at h
    · cases h; simp
    · cases h
    · cases h

theorem InsertElement_eq (name : Name) (c : Cursor K)
    (h0 : 0 ≤ c.index) (h1 : c.index < c.document.Tokens.length) :
    InsertElement name c = Res.ok
      ⟨⟨splice c.document.Tokens c.index [startToken name, endToken name],
        rebaseAll c.index 2 c.document.Bookmarks⟩, c.index + 2, c.stack⟩ := by
  obtain ⟨⟨ts, bm⟩, i, st⟩ := c
  simp only at h0 h1
  obtain ⟨p, rfl⟩ := Int.eq_ofNat_of_zero_le h0
  have hp : p < ts.length := by omega
  have hb := BeginElement_eq name (⟨⟨ts, bm⟩, (p : Int), st⟩ : Cursor K) h0 (le_of_lt h1)
  simp only [InsertElement, bind, Res.bind, hb, pure]
  have hd : ts.drop p ≠ [] := by
    intro h; have := congrArg List.length h; simp at this; omega
  obtain ⟨d, r, hdr⟩ := List.exists_cons_of_ne_nil hd
  have hl : (ts.take p).length = p := by simp [le_of_lt hp]
  rw [ToNextToken_in _ d (by simp; omega)
    (by show (splice ts p _)[((p : Int) + 1 + 1).toNat]? = _
        have e : ((p : Int) + 1 + 1).toNat = p + 2 := by omega
        rw [e]; unfold splice
        simp only [Int.toNat_ofNat, List.append_assoc]
        rw [List.getElem?_append_right (by omega), hl, hdr]; simp)]
  simp only [Res.ok.injEq, Cursor.mk.injEq, true_and, and_true]; omega

/-- Every insertion call run at an index inside the sequence yields the splice
of its tokens, the rebased bookmarks, and a cursor again inside the sequence. -/
theorem Insertion.run_eq (op : Insertion) (c : Cursor K)
    (h0 : 0 ≤ c.index) (h1 : c.index < c.document.Tokens.length) :
    ∃ i : Int, op.run c = Res.ok
      ⟨⟨splice c.document.Tokens c.index op.tokens,
        rebaseAll c.index op.count c.document.Bookmarks⟩, i, c.stack⟩ ∧
      c.index < i ∧ i ≤ c.index + op.count := by
  cases op with
  | BeginElement name =>
    exact ⟨_, BeginElement_eq name c h0 (le_of_lt h1), by omega, by simp [Insertion.count]⟩
  | InsertElement name =>
    exact ⟨_, InsertElement_eq name c h0 h1, by omega, by simp [Insertion.count]⟩
  | InsertText text =>
    refine ⟨_, InsertText_eq text c h0 (le_of_lt h1), ?_, ?_⟩
    · rw [if_pos h1]; omega
    · rw [if_pos h1]; simp [Insertion.count]
  | InsertElementWithText name text =>
    exact ⟨_, InsertElementWithText_eq name text c h0 (le_of_lt h1), by omega,
      by simp [Insertion.count]⟩

theorem splice_length (ts : List Token) (p : Int) (new : List Token) :
    (splice ts p new).length = ts.length + new.length := by
  unfold splice
  simp only [List.length_append, List.length_take, List.length_drop]
  omega

theorem sliceIndex_eq_ok {α : Type} (s : List α) (b : Nat) (t : α) (h : s[b]? = some t) :
    sliceIndex s (b : Int) = Res.ok t := by
  have hl := (List.getElem?_eq_some.1 h).1
  unfold sliceIndex
  rw [if_pos (by omega)]
  simp [h]

/-- A token keeps its content across a splice, at its rebased index. -/
theorem sliceIndex_splice (ts : List Token) (p : Int) (new : List Token) (b : Int)
    (h0 : 0 ≤ p) (hb0 : 0 ≤ b) (hb1 : b < ts.length) :
    ∃ t, sliceIndex ts b = Res.ok t ∧
      sliceIndex (splice ts p new) (rebase p new.length b) = Res.ok t := by
  obtain ⟨q, rfl⟩ := Int.eq_ofNat_of_zero_le h0
  obtain ⟨n, rfl⟩ := Int.eq_ofNat_of_zero_le hb0
  have hn : n < ts.length := by omega
  refine ⟨ts[n], sliceIndex_eq_ok ts n _ (List.getElem?_eq_getElem hn), ?_⟩
  unfold rebase splice
  simp only [Int.toNat_ofNat]
  by_cases hq : (n : Int) ≥ q
  · rw [if_pos hq]
    have e : (n : Int) + (new.length : Int) = ((n + new.length : Nat) : Int) := by omega
    rw [e]
    apply sliceIndex_eq_ok
    have hq2 : q ≤ n := by omega
    have hl : (ts.take q ++ new).length = q + new.length := by
      simp only [List.length_append, List.length_take]; omega
    rw [List.getElem?_append_right (by omega), hl, List.getElem?_drop]
    have e2 : q + (n + new.length - (q + new.length)) = n := by omega
    rw [e2]; exact List.getElem?_eq_getElem hn
  · rw [if_neg hq]
    apply sliceIndex_eq_ok
    have hq2 : n < q := by omega
    rw [List.append_assoc, List.getElem?_append_left (by simp; omega), List.getElem?_take_of_lt hq2]
    exact List.getElem?_eq_getElem hn

theorem mapGet_mem [DecidableEq K] {V : Type} (m : List (K × V)) (k : K) (v : V)
    (h : mapGet m k = some v) : (k, v) ∈ m := by
  induction m with
  | nil => simp [mapGet] at h
  | cons e r ih =>
    unfold mapGet at h
    split at h
    · rename_i hk
      cases h
      simp [← hk]
    · exact List.mem_cons_of_mem _ (ih h)

theorem mapGet_rebaseAll [DecidableEq K] (p k : Int) (bm : List (K × List Int)) (key : K) :
    mapGet (rebaseAll p k bm) key = (mapGet bm key).map (List.map (rebase p k)) := by
  induction bm with
  | nil => rfl
  | cons e r ih =>
    unfold rebaseAll at ih ⊢
    simp only [List.map_cons, mapGet]
    split
    · rfl
    · exact ih

theorem nesting_cons (t : Token) (r : List Token) : nesting (t :: r) = delta t + nesting r := by
  simp [nesting]

theorem nesting_nil : nesting [] = 0 := rfl

theorem depthOK_iff (s : List Token) : ∀ d : Int,
    ((∀ k, k ≤ s.length → 0 ≤ d + nesting (s.take k)) ∧ d + nesting s = 0)
      ↔ (0 ≤ d ∧ DepthOK d s) := by
  induction s with
  | nil =>
    intro d
    simp only [List.length_nil, Nat.le_zero, List.take_nil, nesting_nil, add_zero, DepthOK]
    constructor
    · intro h; exact ⟨h.1 0 rfl, h.2⟩
    · intro h; exact ⟨fun _ _ => h.1, h.2⟩
  | cons t r ih =>
    intro d
    have ih1 := ih (d + delta t)
    constructor
    · rintro ⟨h1, h2⟩
      have hd : 0 ≤ d := by simpa [nesting_nil] using h1 0 (Nat.zero_le _)
      have hr : 0 ≤ d + delta t ∧ DepthOK (d + delta t) r := by
        apply ih1.1
        refine ⟨?_, ?_⟩
        · intro k hk
          have := h1 (k + 1) (by simp only [List.length_cons]; omega)
          simp only [List.take_succ_cons, nesting_cons] at this
          omega
        · rw [nesting_cons] at h2; omega
      exact ⟨hd, hr⟩
    · rintro ⟨h0, h2⟩
      obtain ⟨h3, h4⟩ := ih1.2 h2
      refine ⟨?_, by rw [nesting_cons]; omega⟩
      intro k hk
      cases k with
      | zero => simpa [nesting_nil] using h0
      | succ k =>
        have := h3 k (by simp only [List.length_cons] at hk; omega)
        simp only [List.take_succ_cons, nesting_cons]
        omega

theorem wellNested_iff (ts : List Token) : WellNested ts ↔ DepthOK 0 ts := by
  have h := depthOK_iff ts 0
  simp only [zero_add, le_refl, true_and] at h
  exact h

theorem depthOK_tokens (op : Insertion) (B : List Token) (d : Int) (hd : 0 ≤ d) :
    DepthOK d (op.tokens ++ B) ↔ DepthOK d B := by
  have e1 : ∀ n, delta (startToken n) = 1 := fun _ => rfl
  have e2 : ∀ n, delta (endToken n) = -1 := fun _ => rfl
  have e3 : ∀ n, delta (textToken n) = 0 := fun _ => rfl
  cases op with
  | BeginElement name =>
    show DepthOK d (startToken name :: endToken name :: B) ↔ DepthOK d B
    have e : d + delta (startToken name) + delta (endToken name) = d := by rw [e1, e2]; omega
    constructor
    · intro h; have := h.2.2; rwa [e] at this
    · intro h; exact ⟨by rw [e1]; omega, by rw [e]; exact hd, by rw [e]; exact h⟩
  | InsertElement name =>
    show DepthOK d (startToken name :: endToken name :: B) ↔ DepthOK d B
    have e : d + delta (startToken name) + delta (endToken name) = d := by rw [e1, e2]; omega
    constructor
    · intro h; have := h.2.2; rwa [e] at this
    · intro h; exact ⟨by rw [e1]; omega, by rw [e]; exact hd, by rw [e]; exact h⟩
  | InsertText text =>
    show DepthOK d (textToken text :: B) ↔ DepthOK d B
    have e : d + delta (textToken text) = d := by rw [e3]; omega
    constructor
    · intro h; have := h.2; rwa [e] at this
    · intro h; exact ⟨by rw [e]; exact hd, by rw [e]; exact h⟩
  | InsertElementWithText name text =>
    show DepthOK d (startToken name :: textToken text :: endToken name :: B) ↔ DepthOK d B
    have e : d + delta (startToken name) + delta (textToken text) + delta (endToken name) = d := by
      rw [e1, e2, e3]; omega
    constructor
    · intro h; have := h.2.2.2; rwa [e] at this
    · intro h
      exact ⟨by rw [e1]; omega, by rw [e1, e3]; omega, by rw [e]; exact hd, by rw [e]; exact h⟩

theorem depthOK_insert (op : Insertion) (A B : List Token) : ∀ d : Int, 0 ≤ d →
    (DepthOK d (A ++ op.tokens ++ B) ↔ DepthOK d (A ++ B)) := by
  induction A with
  | nil => intro d hd; simpa using depthOK_tokens op B d hd
  | cons t r ih =>
    intro d _
    simp only [List.cons_append, DepthOK]
    constructor
    · rintro ⟨h1, h2⟩; exact ⟨h1, (ih _ h1).1 h2⟩
    · rintro ⟨h1, h2⟩; exact ⟨h1, (ih _ h1).2 h2⟩

theorem wellNested_splice (op : Insertion) (ts : List Token) (p : Int) (h : WellNested ts) :
    WellNested (splice ts p op.tokens) := by
  rw [wellNested_iff] at h ⊢
  unfold splice
  rw [depthOK_insert op _ _ 0 (le_refl 0), List.take_append_drop]
  exact h

/-- The cursor-inside-a-well-nested-sequence invariant is kept by a sequence of calls. -/
theorem runAll_wellNested (ops : List Insertion) : ∀ c : Cursor K,
    WellNested c.document.Tokens → 0 ≤ c.index → c.index < c.document.Tokens.length →
    ∃ c1, runAll ops c = Res.ok c1 ∧ WellNested c1.document.Tokens := by
  induction ops with
  | nil => intro c hw _ _; exact ⟨c, rfl, hw⟩
  | cons op r ih =>
    intro c hw h0 h1
    obtain ⟨i, hrun, hi0, hi1⟩ := Insertion.run_eq op c h0 h1
    simp only [runAll, hrun]
    apply ih
    · exact wellNested_splice op _ _ hw
    · show 0 ≤ i; omega
    · show i < ((splice c.document.Tokens c.index op.tokens).length : Int)
      have := Insertion.count_eq op
      rw [splice_length]; push_cast; omega

/-! ### Claims on insertion -/

/-- C1: with the cursor at an index `p` inside the token sequence `old`, every
insertion is an exact splice at `p`. -/
theorem insertion_is_exact_splice (c : Cursor K) (name : Name) (text : String)
    (h0 : 0 ≤ c.index) (h1 : c.index < c.document.Tokens.length) :
    (∃ c1, BeginElement name c = Res.ok c1 ∧
      c1.document.Tokens = c.document.Tokens.take c.index.toNat
        ++ [⟨XmlToken.StartElement name [], TokenType.Start⟩,
            ⟨XmlToken.EndElement name, TokenType.End⟩]
        ++ c.document.Tokens.drop c.index.toNat) ∧
    (∃ c1, InsertText text c = Res.ok c1 ∧
      c1.document.Tokens = c.document.Tokens.take c.index.toNat
        ++ [⟨XmlToken.CharData text, TokenType.Text⟩]
        ++ c.document.Tokens.drop c.index.toNat) ∧
    (∃ c1, InsertElementWithText name text c = Res.ok c1 ∧
      c1.document.Tokens = c.document.Tokens.take c.index.toNat
        ++ [⟨XmlToken.StartElement name [], TokenType.Start⟩,
            ⟨XmlToken.CharData text, TokenType.Text⟩,
            ⟨XmlToken.EndElement name, TokenType.End⟩]
        ++ c.document.Tokens.drop c.index.toNat) := by
  refine ⟨⟨_, BeginElement_eq name c h0 (le_of_lt h1), rfl⟩,
    ⟨_, InsertText_eq text c h0 (le_of_lt h1), rfl⟩,
    ⟨_, InsertElementWithText_eq name text c h0 (le_of_lt h1), rfl⟩⟩


theorem insertion_is_exact_splice_witness :
    (0 ≤ cursorAB.index ∧ cursorAB.index < cursorAB.document.Tokens.length) ∧
    ∃ c1, BeginElement ⟨"", "c"⟩ cursorAB = Res.ok c1 ∧
      c1.document.Tokens = [startToken ⟨"", "a"⟩, startToken ⟨"", "b"⟩, startToken ⟨"", "c"⟩,
        endToken ⟨"", "c"⟩, endToken ⟨"", "b"⟩, endToken ⟨"", "a"⟩] :=
  ⟨by decide, (insertion_is_exact_splice cursorAB ⟨"", "c"⟩ "t" (by decide) (by decide)).1⟩

/-- C3: an insertion of `K` tokens at the cursor index `p` turns every stored
bookmark index `b >= p` into `b + K` and leaves every stored `b < p` as it is;
in both cases the stored index still refers to the same token. -/
theorem bookmark_stability_under_insertion [DecidableEq K] (c : Cursor K) (op : Insertion)
    (hb : ∀ e ∈ c.document.Bookmarks, ∀ b ∈ e.2, 0 ≤ b ∧ b < c.document.Tokens.length)
    (h0 : 0 ≤ c.index) (h1 : c.index < c.document.Tokens.length) :
    ∃ c1, op.run c = Res.ok c1 ∧
      ∀ key l, mapGet c.document.Bookmarks key = some l →
        ∃ l1 : List Int, mapGet c1.document.Bookmarks key = some l1 ∧ l1.length = l.length ∧
          ∀ (n : Nat) (b : Int), l[n]? = some b →
            ∃ t, sliceIndex c.document.Tokens b = Res.ok t ∧
              (c.index ≤ b → l1[n]? = some (b + op.count) ∧
                sliceIndex c1.document.Tokens (b + op.count) = Res.ok t) ∧
              (b < c.index → l1[n]? = some b ∧
                sliceIndex c1.document.Tokens b = Res.ok t) := by
  obtain ⟨i, hrun, _, _⟩ := Insertion.run_eq op c h0 h1
  refine ⟨_, hrun, ?_⟩
  intro key l hl
  refine ⟨l.map (rebase c.index op.count), ?_, by simp, ?_⟩
  · simp only [mapGet_rebaseAll, hl, Option.map_some']
  · intro n b hn
    have hmem : b ∈ l := List.mem_iff_getElem?.2 ⟨n, hn⟩
    obtain ⟨hb0, hb1⟩ := hb _ (mapGet_mem _ _ _ hl) b hmem
    obtain ⟨t, ht, hs⟩ := sliceIndex_splice c.document.Tokens c.index op.tokens b h0 hb0 hb1
    rw [← Insertion.count_eq] at hs
    refine ⟨t, ht, ?_, ?_⟩
    · intro hge
      have e : rebase c.index op.count b = b + op.count := by
        unfold rebase; rw [if_pos hge]
      rw [e] at hs
      refine ⟨?_, hs⟩
      rw [List.getElem?_map, hn, Option.map_some', e]
    · intro hlt
      have e : rebase c.index op.count b = b := by
        unfold rebase; rw [if_neg (by omega)]
      rw [e] at hs
      refine ⟨?_, hs⟩
      rw [List.getElem?_map, hn, Option.map_some', e]


theorem bookmark_stability_under_insertion_witness :
    (∀ e ∈ cursorAB.document.Bookmarks, ∀ b ∈ e.2,
        0 ≤ b ∧ b < cursorAB.document.Tokens.length) ∧
    ∃ c1, (Insertion.InsertElementWithText ⟨"", "c"⟩ "t").run cursorAB = Res.ok c1 ∧
      ∀ key l, mapGet cursorAB.document.Bookmarks key = some l →
        ∃ l1 : List Int, mapGet c1.document.Bookmarks key = some l1 ∧ l1.length = l.length ∧
          ∀ (n : Nat) (b : Int), l[n]? = some b →
            ∃ t, sliceIndex cursorAB.document.Tokens b = Res.ok t ∧
              (cursorAB.index ≤ b → l1[n]? = some (b + 3) ∧
                sliceIndex c1.document.Tokens (b + 3) = Res.ok t) ∧
              (b < cursorAB.index → l1[n]? = some b ∧
                sliceIndex c1.document.Tokens b = Res.ok t) :=
  ⟨by decide, bookmark_stability_under_insertion cursorAB
    (Insertion.InsertElementWithText ⟨"", "c"⟩ "t") (by decide) (by decide) (by decide)⟩

/-- C4: an insertion at a cursor index inside a well-nested sequence yields a
well-nested sequence, and so does every finite sequence of insertions. -/
theorem insertion_preserves_balance (c : Cursor K)
    (hw : WellNested c.document.Tokens)
    (h0 : 0 ≤ c.index) (h1 : c.index < c.document.Tokens.length) :
    (∀ op : Insertion, ∃ c1, op.run c = Res.ok c1 ∧ WellNested c1.document.Tokens) ∧
    (∀ ops : List Insertion, ∃ c1, runAll ops c = Res.ok c1 ∧ WellNested c1.document.Tokens) := by
  refine ⟨?_, fun ops => runAll_wellNested ops c hw h0 h1⟩
  intro op
  obtain ⟨i, hrun, _, _⟩ := Insertion.run_eq op c h0 h1
  exact ⟨_, hrun, wellNested_splice op _ _ hw⟩


theorem insertion_preserves_balance_witness :
    WellNested cursorAB.document.Tokens ∧
    ∃ c1, runAll [Insertion.BeginElement ⟨"", "c"⟩, Insertion.InsertText "t",
        Insertion.InsertElementWithText ⟨"", "d"⟩ "u", Insertion.InsertElement ⟨"", "e"⟩] cursorAB
        = Res.ok c1 ∧ WellNested c1.document.Tokens :=
  ⟨by decide, (insertion_preserves_balance cursorAB (by decide) (by decide) (by decide)).2 _⟩

/-! ### Matching end tokens -/

theorem delta_cases (t : Token) :
    (t.Typ = TokenType.Start ∧ delta t = 1) ∨ (t.Typ = TokenType.End ∧ delta t = -1) ∨
    (t.Typ ≠ TokenType.Start ∧ t.Typ ≠ TokenType.End ∧ delta t = 0) := by
  unfold delta
  cases t.Typ <;> simp

theorem closesAt_nil (L : Int) (m : Nat) : ¬ ClosesAt L [] m := by
  intro h; exact absurd h.1 (by simp)

theorem closesAt_zero (L : Int) (t : Token) (r : List Token) :
    ClosesAt L (t :: r) 0 ↔ L + delta t = 0 := by
  unfold ClosesAt
  simp [nesting_cons, nesting_nil]

theorem closesAt_succ (L : Int) (t : Token) (r : List Token) (m : Nat) :
    ClosesAt L (t :: r) (m + 1) ↔ L + delta t ≠ 0 ∧ ClosesAt (L + delta t) r m := by
  unfold ClosesAt
  simp only [List.length_cons, List.take_succ_cons, nesting_cons, ← add_assoc]
  constructor
  · rintro ⟨h1, h2, h3⟩
    refine ⟨?_, by omega, h2, ?_⟩
    · have := h3 0 (by omega)
      simpa [nesting_nil] using this
    · intro n hn
      exact h3 (n + 1) (by omega)
  · rintro ⟨h0, h1, h2, h3⟩
    refine ⟨by omega, h2, ?_⟩
    intro n hn
    cases n with
    | zero => simpa [nesting_nil] using h0
    | succ n => exact h3 n (by omega)

/-- Inside a run whose depth stays non-negative and ends at zero, a counter
started between 1 and the current depth closes, and the rest is again such a run. -/
theorem closesAt_exists (s : List Token) : ∀ (d L : Int), DepthOK d s → 1 ≤ L → L ≤ d →
    ∃ m, ClosesAt L s m ∧ DepthOK (d - L) (s.drop (m + 1)) := by
  induction s with
  | nil =>
    intro d L h h1 h2
    have : d = 0 := h
    omega
  | cons t r ih =>
    intro d L h h1 h2
    obtain ⟨hd, hr⟩ := h
    by_cases hz : L + delta t = 0
    · refine ⟨0, (closesAt_zero L t r).2 hz, ?_⟩
      have e : d - L = d + delta t := by omega
      rw [e]; exact hr
    · have hdl := delta_cases t
      obtain ⟨m, hm, hdr⟩ := ih (d + delta t) (L + delta t) hr (by omega) (by omega)
      refine ⟨m + 1, (closesAt_succ L t r m).2 ⟨hz, hm⟩, ?_⟩
      have e : d + delta t - (L + delta t) = d - L := by omega
      rw [e] at hdr
      exact hdr

theorem closesAt_unique (s : List Token) (L : Int) (m n : Nat)
    (hm : ClosesAt L s m) (hn : ClosesAt L s n) : m = n := by
  rcases Nat.lt_trichotomy m n with h | h | h
  · exact absurd hm.2.1 (hn.2.2 m h)
  · exact h
  · exact absurd hn.2.1 (hm.2.2 n h)

theorem isMatchingEnd_iff (ts : List Token) (i j : Nat) :
    IsMatchingEnd ts i j ↔ ∃ m, j = i + 1 + m ∧ ClosesAt 1 (ts.drop (i + 1)) m := by
  have key : ∀ k, i < k → (ts.take (k + 1)).drop (i + 1) = (ts.drop (i + 1)).take (k - i) := by
    intro k hk
    rw [List.drop_take]
    congr 1
    omega
  unfold IsMatchingEnd ClosesAt counter
  constructor
  · rintro ⟨h1, h2, h3, h4⟩
    refine ⟨j - i - 1, by omega, by simp only [List.length_drop]; omega, ?_, ?_⟩
    · rw [key j h1] at h3
      have e : j - i - 1 + 1 = j - i := by omega
      rw [e]; exact h3
    · intro n hn
      have := h4 (i + 1 + n) (by omega) (by omega)
      rw [key _ (by omega)] at this
      have e : i + 1 + n - i = n + 1 := by omega
      rw [e] at this; exact this
  · rintro ⟨m, rfl, h1, h2, h3⟩
    simp only [List.length_drop] at h1
    refine ⟨by omega, by omega, ?_, ?_⟩
    · rw [key _ (by omega)]
      have e : i + 1 + m - i = m + 1 := by omega
      rw [e]; exact h2
    · intro k hk2 hk1
      rw [key _ hk1]
      have := h3 (k - i - 1) (by omega)
      have e : k - i - 1 + 1 = k - i := by omega
      rw [e] at this; exact this

theorem drop_cons_inv {α : Type} (l : List α) (n : Nat) (t : α) (r : List α)
    (h : l.drop n = t :: r) : l[n]? = some t ∧ l.drop (n + 1) = r := by
  constructor
  · have := List.getElem?_drop (L := l) (i := n) (j := 0)
    rw [h] at this
    simpa using this.symm
  · have : l.drop (n + 1) = (l.drop n).drop 1 := by rw [List.drop_drop]
    rw [this, h]; rfl

theorem ToNextToken_step (c : Cursor K) (t : Token) (r : List Token) (h0 : -1 ≤ c.index)
    (h : c.document.Tokens.drop (c.index + 1).toNat = t :: r) :
    ToNextToken c = Res.ok (t, c.at (c.index + 1)) ∧
      (c.at (c.index + 1)).document.Tokens.drop ((c.at (c.index + 1)).index + 1).toNat = r := by
  obtain ⟨h1, h2⟩ := drop_cons_inv _ _ _ _ h
  refine ⟨ToNextToken_in c t (by omega) h1, ?_⟩
  show c.document.Tokens.drop (c.index + 1 + 1).toNat = r
  have e : (c.index + 1 + 1).toNat = (c.index + 1).toNat + 1 := by omega
  rw [e]; exact h2

theorem at_at (c : Cursor K) (i j : Int) : (c.at i).at j = c.at j := rfl

theorem at_index (c : Cursor K) (i : Int) : (c.at i).index = i := rfl

theorem at_document (c : Cursor K) (i : Int) : (c.at i).document = c.document := rfl

theorem at_stack (c : Cursor K) (i : Int) : (c.at i).stack = c.stack := rfl

theorem noSentinel_cons (t : Token) (r : List Token) :
    NoSentinel (t :: r) ↔ t.Typ ≠ TokenType.None ∧ NoSentinel r := by
  simp [NoSentinel]

/-- The loop of `ToEndToken` run with enough fuel from a counter `L >= 1` stops on the
token at which the counter closes. -/
theorem ToEndToken_loop_eq (s : List Token) : ∀ (m : Nat) (L : Int) (c : Cursor K) (fuel : Nat),
    1 ≤ L → -1 ≤ c.index → c.document.Tokens.drop (c.index + 1).toNat = s →
    NoSentinel s → ClosesAt L s m → m < fuel →
    ∃ t, s[m]? = some t ∧ t.Typ = TokenType.End ∧
      ToEndToken.loop fuel c L = Res.ok (t, c.at (c.index + 1 + m)) := by
  induction s with
  | nil => intro m L c fuel _ _ _ _ h; exact absurd h (closesAt_nil L m)
  | cons t r ih =>
    intro m L c fuel hL hi hs hn hc hf
    obtain ⟨n, rfl⟩ : ∃ n, fuel = n + 1 := ⟨fuel - 1, by omega⟩
    obtain ⟨hnt, hdrop⟩ := ToNextToken_step c t r hi hs
    obtain ⟨hty, hnr⟩ := (noSentinel_cons t r).1 hn
    have hd := delta_cases t
    rw [ToEndToken.loop, hnt]
    simp only
    cases m with
    | zero =>
      have hz := (closesAt_zero L t r).1 hc
      have hE : t.Typ = TokenType.End := by
        rcases hd with ⟨_, h⟩ | ⟨h, _⟩ | ⟨_, _, h⟩
        · omega
        · exact h
        · omega
      have hd1 : delta t = -1 := by
        rcases hd with ⟨h, _⟩ | ⟨_, h⟩ | ⟨_, h, _⟩
        · rw [hE] at h; cases h
        · exact h
        · exact absurd hE h
      refine ⟨t, by simp, hE, ?_⟩
      rw [hE]
      simp only
      rw [if_pos (by omega)]
      simp
    | succ m =>
      obtain ⟨hnz, hc1⟩ := (closesAt_succ L t r m).1 hc
      have hstep : ∀ L1 : Int, L1 = L + delta t →
          ∃ u, (t :: r)[m + 1]? = some u ∧ u.Typ = TokenType.End ∧
            ToEndToken.loop n (c.at (c.index + 1)) L1 = Res.ok (u, c.at (c.index + 1 + (m + 1 : Nat))) := by
        intro L1 hL1
        subst hL1
        obtain ⟨u, hu, hue, hl⟩ := ih m (L + delta t) (c.at (c.index + 1)) n
          (by omega) (by rw [at_index]; omega) hdrop hnr hc1 (by omega)
        refine ⟨u, by simpa using hu, hue, ?_⟩
        have e : c.index + 1 + 1 + (m : Int) = c.index + 1 + ((m + 1 : Nat) : Int) := by
          push_cast; omega
        rw [hl, at_index, at_at, e]
      rcases hd with ⟨h, hd1⟩ | ⟨h, hd1⟩ | ⟨h1, h2, hd1⟩
      · rw [h]; simp only
        exact hstep (L + 1) (by omega)
      · rw [h]; simp only
        rw [if_neg (by omega)]
        exact hstep (L - 1) (by omega)
      · have hs := hstep L (by omega)
        cases hT : t.Typ <;>
          first
          | exact absurd hT h1
          | exact absurd hT h2
          | exact absurd hT hty
          | (simp only; exact hs)

theorem nesting_append (a b : List Token) : nesting (a ++ b) = nesting a + nesting b := by
  simp [nesting]

theorem wellNested_drop (ts : List Token) (i : Nat) (hi : i ≤ ts.length) (h : WellNested ts) :
    0 ≤ nesting (ts.take i) ∧ DepthOK (nesting (ts.take i)) (ts.drop i) := by
  obtain ⟨h1, h2⟩ := h
  refine (depthOK_iff (ts.drop i) (nesting (ts.take i))).1 ⟨?_, ?_⟩
  · intro k hk
    have := h1 (i + k) (by simp only [List.length_drop] at hk; omega)
    rw [List.take_add, nesting_append] at this
    exact this
  · rw [← nesting_append, List.take_append_drop]; exact h2

/-- From a start token of a well-nested sequence the counter started at 1 closes, and
what follows the closing token is a run at the depth held before the start token. -/
theorem start_closes (ts : List Token) (i : Nat) (t : Token) (hw : WellNested ts)
    (ht : ts[i]? = some t) (hs : t.Typ = TokenType.Start) :
    ∃ m, ClosesAt 1 (ts.drop (i + 1)) m ∧ 0 ≤ nesting (ts.take i) ∧
      DepthOK (nesting (ts.take i)) (ts.drop (i + 1 + m + 1)) := by
  have hl := (List.getElem?_eq_some.1 ht).1
  obtain ⟨h0, hd⟩ := wellNested_drop ts i (le_of_lt hl) hw
  have hdrop : ts.drop i = t :: ts.drop (i + 1) := by
    rw [List.drop_eq_getElem_cons hl]
    congr 1
    have := List.getElem?_eq_getElem hl
    rw [ht] at this
    exact (Option.some.inj this).symm
  rw [hdrop] at hd
  obtain ⟨_, hd1⟩ := hd
  have hdt : delta t = 1 := by unfold delta; rw [hs]
  rw [hdt] at hd1
  obtain ⟨m, hm, hr⟩ := closesAt_exists _ _ 1 hd1 (le_refl 1) (by omega)
  refine ⟨m, hm, h0, ?_⟩
  rw [List.drop_drop] at hr
  have e1 : nesting (ts.take i) + 1 - 1 = nesting (ts.take i) := by omega
  rw [e1] at hr
  exact hr

theorem noSentinel_drop (ts : List Token) (n : Nat) (h : NoSentinel ts) :
    NoSentinel (ts.drop n) := fun t ht => h t (List.mem_of_mem_drop ht)

/-- The stack of open names after a run of tokens, when names match. -/
theorem namesMatch_append (a : List Token) : ∀ (st : List Name) (b : List Token),
    namesMatch st (a ++ b) = true → ∃ st1, namesMatch st1 b = true := by
  induction a with
  | nil => intro st b h; exact ⟨st, h⟩
  | cons t r ih =>
    intro st b h
    simp only [List.cons_append, namesMatch] at h
    cases hT : t.Typ <;> rw [hT] at h <;> simp only at h
    all_goals first
      | exact ih _ b h
      | (cases st with
         | nil => simp at h
         | cons n st1 =>
           simp only [Bool.and_eq_true] at h
           exact ih _ b h.2)

/-- The token that closes a counter started at `L` carries the name found at
depth `L` of the stack of open names. -/
theorem namesMatch_closes (s : List Token) : ∀ (st : List Name) (L : Nat) (m : Nat),
    namesMatch st s = true → 1 ≤ L → ClosesAt (L : Int) s m →
    ∃ e n, s[m]? = some e ∧ st[L - 1]? = some n ∧ e.Name = n := by
  induction s with
  | nil => intro st L m _ _ h; exact absurd h (closesAt_nil _ m)
  | cons t r ih =>
    intro st L m h hL hc
    have hd := delta_cases t
    simp only [namesMatch] at h
    cases m with
    | zero =>
      have hz := (closesAt_zero _ t r).1 hc
      rcases hd with ⟨_, hd1⟩ | ⟨hE, hd1⟩ | ⟨_, _, hd1⟩
      · omega
      · rw [hE] at h
        simp only at h
        cases st with
        | nil => simp at h
        | cons n st1 =>
          simp only [Bool.and_eq_true, decide_eq_true_eq] at h
          have hL1 : L = 1 := by omega
          subst hL1
          exact ⟨t, n, by simp, by simp, h.1⟩
      · omega
    | succ m =>
      obtain ⟨hnz, hc1⟩ := (closesAt_succ _ t r m).1 hc
      rcases hd with ⟨hS, hd1⟩ | ⟨hE, hd1⟩ | ⟨h1, h2, hd1⟩
      · rw [hS] at h
        simp only at h
        have e : (L : Int) + delta t = ((L + 1 : Nat) : Int) := by push_cast; omega
        rw [e] at hc1
        obtain ⟨u, n, hu, hn, hun⟩ := ih _ (L + 1) m h (by omega) hc1
        refine ⟨u, n, by simpa using hu, ?_, hun⟩
        have e2 : L + 1 - 1 = (L - 1) + 1 := by omega
        rw [e2] at hn
        simpa using hn
      · rw [hE] at h
        simp only at h
        cases st with
        | nil => simp at h
        | cons n0 st1 =>
          simp only [Bool.and_eq_true, decide_eq_true_eq] at h
          have hL2 : 2 ≤ L := by omega
          have e : (L : Int) + delta t = ((L - 1 : Nat) : Int) := by omega
          rw [e] at hc1
          obtain ⟨u, n, hu, hn, hun⟩ := ih _ (L - 1) m h.2 (by omega) hc1
          refine ⟨u, n, by simpa using hu, ?_, hun⟩
          have e2 : L - 1 = (L - 1 - 1) + 1 := by omega
          rw [e2]
          simpa using hn
      · have hh : namesMatch st r = true := by
          cases hT : t.Typ <;> rw [hT] at h <;> simp only at h <;>
            first
            | exact absurd hT h1
            | exact absurd hT h2
            | exact h
        have e : (L : Int) + delta t = (L : Int) := by omega
        rw [e] at hc1
        obtain ⟨u, n, hu, hn, hun⟩ := ih _ L m hh hL hc1
        exact ⟨u, n, by simpa using hu, hn, hun⟩

theorem sliceIndex_at (c : Cursor K) (i : Nat) (t : Token) (hi : c.index = i)
    (ht : c.document.Tokens[i]? = some t) : sliceIndex c.document.Tokens c.index = Res.ok t := by
  rw [hi]; exact sliceIndex_eq_ok _ _ _ ht

theorem CurrentToken_at (c : Cursor K) (i : Nat) (t : Token) (hi : c.index = i)
    (ht : c.document.Tokens[i]? = some t) : CurrentToken c = Res.ok t := by
  have hl := (List.getElem?_eq_some.1 ht).1
  unfold CurrentToken
  rw [if_neg (by omega)]
  exact sliceIndex_at c i t hi ht

theorem cursor_at_self (c : Cursor K) (i : Int) (h : c.index = i) : c.at i = c := by
  cases c; simp only [Cursor.at] at *; rw [h]

/-- From the cursor on a start token: the offset at which the counter closes is where
`ToEndToken` stops, for every fuel not below the length of the sequence. -/
theorem ToEndToken_eq (c : Cursor K) (i m : Nat) (t : Token)
    (hn : NoSentinel c.document.Tokens) (hi : c.index = i)
    (ht : c.document.Tokens[i]? = some t) (hs : t.Typ = TokenType.Start)
    (hm : ClosesAt 1 (c.document.Tokens.drop (i + 1)) m) (fuel : Nat) (hf : m < fuel) :
    ∃ e, c.document.Tokens[i + 1 + m]? = some e ∧ e.Typ = TokenType.End ∧
      ToEndToken fuel c = Res.ok (e, c.at ((i + 1 + m : Nat) : Int)) := by
  have hidx : (c.index + 1).toNat = i + 1 := by omega
  obtain ⟨e, he, hE, hl⟩ := ToEndToken_loop_eq (c.document.Tokens.drop (i + 1)) m 1 c fuel
    (le_refl 1) (by omega) (by rw [hidx]) (noSentinel_drop _ _ hn) hm hf
  refine ⟨e, by rw [List.getElem?_drop] at he; exact he, hE, ?_⟩
  unfold ToEndToken
  simp only [bind, Res.bind, sliceIndex_at c i t hi ht, Token.IsStart, hs, pure]
  simp only [beq_self_eq_true, Bool.not_true, Bool.false_eq_true, ↓reduceIte]
  rw [hl]
  have e1 : c.index + 1 + (m : Int) = ((i + 1 + m : Nat) : Int) := by push_cast; omega
  rw [e1]

/-- C2: on a start token of a well-nested sequence `ToEndToken` returns, with
the cursor on the matching end token, the least index after the start at
which the nesting counter is zero; the token returned is that end token, and
in a well-formed sequence it carries the name of the start token. -/
theorem ToEndToken_reaches_matching_end (c : Cursor K) (i : Nat) (t : Token)
    (hn : NoSentinel c.document.Tokens) (hw : WellNested c.document.Tokens)
    (hi : c.index = i) (ht : c.document.Tokens[i]? = some t) (hs : t.Typ = TokenType.Start) :
    ∃ j e, IsMatchingEnd c.document.Tokens i j ∧
      c.document.Tokens[j]? = some e ∧ e.Typ = TokenType.End ∧
      (∀ fuel, c.document.Tokens.length ≤ fuel → ToEndToken fuel c = Res.ok (e, c.at j)) ∧
      (WellFormed c.document.Tokens → e.Name = t.Name) := by
  obtain ⟨m, hm, _, _⟩ := start_closes c.document.Tokens i t hw ht hs
  have hml : m < c.document.Tokens.length := by
    have := hm.1
    simp only [List.length_drop] at this
    omega
  obtain ⟨e, he, hE, _⟩ := ToEndToken_eq c i m t hn hi ht hs hm (m + 1) (by omega)
  refine ⟨i + 1 + m, e, (isMatchingEnd_iff _ _ _).2 ⟨m, rfl, hm⟩, he, hE, ?_, ?_⟩
  · intro fuel hf
    obtain ⟨e1, he1, _, h1⟩ := ToEndToken_eq c i m t hn hi ht hs hm fuel (by omega)
    rw [he] at he1
    cases he1
    exact h1
  · intro hwf
    have hl := (List.getElem?_eq_some.1 ht).1
    have hsplit : c.document.Tokens = c.document.Tokens.take i ++
        t :: c.document.Tokens.drop (i + 1) := by
      have hdrop : c.document.Tokens.drop i = t :: c.document.Tokens.drop (i + 1) := by
        rw [List.drop_eq_getElem_cons hl]
        congr 1
        have := List.getElem?_eq_getElem hl
        rw [ht] at this
        exact (Option.some.inj this).symm
      rw [← hdrop, List.take_append_drop]
    unfold WellFormed at hwf
    rw [hsplit] at hwf
    obtain ⟨st1, hst⟩ := namesMatch_append _ _ _ hwf
    simp only [namesMatch, hs] at hst
    obtain ⟨u, n, hu, hnn, hun⟩ := namesMatch_closes _ _ 1 m hst (le_refl 1) (by simpa using hm)
    rw [List.getElem?_drop, he] at hu
    cases hu
    simp only [Nat.sub_self, List.getElem?_cons_zero, Option.some.injEq] at hnn
    rw [hun, hnn]

theorem ToEndToken_reaches_matching_end_witness :
    (NoSentinel cursorMove.document.Tokens ∧ WellNested cursorMove.document.Tokens ∧
      cursorMove.index = (2 : Nat) ∧
      cursorMove.document.Tokens[2]? = some (startToken ⟨"", "b"⟩) ∧
      (startToken ⟨"", "b"⟩).Typ = TokenType.Start) ∧
    ∃ j e, IsMatchingEnd cursorMove.document.Tokens 2 j ∧
      cursorMove.document.Tokens[j]? = some e ∧ e.Typ = TokenType.End ∧
      (∀ fuel, cursorMove.document.Tokens.length ≤ fuel →
        ToEndToken fuel cursorMove = Res.ok (e, cursorMove.at j)) ∧
      (WellFormed cursorMove.document.Tokens → e.Name = (startToken ⟨"", "b"⟩).Name) :=
  ⟨by decide, ToEndToken_reaches_matching_end cursorMove 2 (startToken ⟨"", "b"⟩)
    (by decide) (by decide) (by decide) (by decide) (by decide)⟩

/-! ### Serialization of an element -/

theorem encodeAll_cons {σ : Type} (enc : Encoder σ) (e : σ) (t : Token) (l : List Token) :
    encodeAll enc e (t :: l) = encodeAll enc (enc.EncodeToken e t.Tok) l := rfl

theorem encodeAll_nil {σ : Type} (enc : Encoder σ) (e : σ) : encodeAll enc e [] = e := rfl

/-- The loop of `Xml` run with enough fuel from a counter `L >= 1` encodes every token up
to the one at which the counter closes, that one included, and stops there. -/
theorem Xml_loop_eq {σ : Type} (enc : Encoder σ) (s : List Token) :
    ∀ (m : Nat) (L : Int) (c : Cursor K) (fuel : Nat) (e : σ),
    1 ≤ L → -1 ≤ c.index → c.document.Tokens.drop (c.index + 1).toNat = s →
    NoSentinel s → ClosesAt L s m → m < fuel →
    Xml.loop enc fuel c L e
      = Res.ok (encodeAll enc e (s.take (m + 1)), c.at (c.index + 1 + m)) := by
  induction s with
  | nil => intro m L c fuel e _ _ _ _ h; exact absurd h (closesAt_nil L m)
  | cons t r ih =>
    intro m L c fuel e hL hi hs hn hc hf
    obtain ⟨n, rfl⟩ : ∃ n, fuel = n + 1 := ⟨fuel - 1, by omega⟩
    obtain ⟨hnt, hdrop⟩ := ToNextToken_step c t r hi hs
    obtain ⟨hty, hnr⟩ := (noSentinel_cons t r).1 hn
    have hd := delta_cases t
    rw [Xml.loop, hnt]
    simp only
    cases m with
    | zero =>
      have hz := (closesAt_zero L t r).1 hc
      have hE : t.Typ = TokenType.End := by
        rcases hd with ⟨_, h⟩ | ⟨h, _⟩ | ⟨_, _, h⟩
        · omega
        · exact h
        · omega
      have hd1 : delta t = -1 := by
        rcases hd with ⟨h, _⟩ | ⟨_, h⟩ | ⟨_, h, _⟩
        · rw [hE] at h; cases h
        · exact h
        · exact absurd hE h
      rw [hE]
      simp only
      rw [if_pos (by omega)]
      simp [encodeAll]
    | succ m =>
      obtain ⟨hnz, hc1⟩ := (closesAt_succ L t r m).1 hc
      have hstep : ∀ L1 : Int, L1 = L + delta t →
          Xml.loop enc n (c.at (c.index + 1)) L1 (enc.EncodeToken e t.Tok)
            = Res.ok (encodeAll enc e ((t :: r).take (m + 1 + 1)),
                c.at (c.index + 1 + (m + 1 : Nat))) := by
        intro L1 hL1
        subst hL1
        have hl := ih m (L + delta t) (c.at (c.index + 1)) n (enc.EncodeToken e t.Tok)
          (by omega) (by rw [at_index]; omega) hdrop hnr hc1 (by omega)
        have e1 : c.index + 1 + 1 + (m : Int) = c.index + 1 + ((m + 1 : Nat) : Int) := by
          push_cast; omega
        rw [hl, at_index, at_at, e1, List.take_succ_cons, encodeAll_cons]
      rcases hd with ⟨h, hd1⟩ | ⟨h, hd1⟩ | ⟨h1, h2, hd1⟩
      · rw [h]; simp only
        exact hstep (L + 1) (by omega)
      · rw [h]; simp only
        rw [if_neg (by omega)]
        exact hstep (L - 1) (by omega)
      · have hs := hstep L (by omega)
        cases hT : t.Typ <;>
          first
          | exact absurd hT h1
          | exact absurd hT h2
          | exact absurd hT hty
          | (simp only; exact hs)

theorem Pop_Push (c : Cursor K) (i : Int) : Pop ((Push c).at i) = Res.ok (c.at i) := by
  unfold Pop Push Cursor.at sliceRange
  simp only [List.length_append, List.length_singleton, Nat.cast_add, Nat.cast_one]
  rw [if_pos (by omega)]
  have e : ((c.stack.length : Int) + 1 - 1).toNat = c.stack.length := by omega
  simp [e]

theorem drop_eq_cons_of_getElem? {α : Type} (l : List α) (i : Nat) (t : α)
    (ht : l[i]? = some t) : l.drop i = t :: l.drop (i + 1) := by
  have hl := (List.getElem?_eq_some.1 ht).1
  rw [List.drop_eq_getElem_cons hl]
  congr 1
  have := List.getElem?_eq_getElem hl
  rw [ht] at this
  exact (Option.some.inj this).symm

theorem tokenRange_eq (ts : List Token) (i m : Nat) (t : Token) (ht : ts[i]? = some t) :
    tokenRange ts i (i + 1 + m) = t :: (ts.drop (i + 1)).take (m + 1) := by
  unfold tokenRange
  rw [List.drop_take, drop_eq_cons_of_getElem? ts i t ht]
  have e : i + 1 + m + 1 - i = (m + 1) + 1 := by omega
  rw [e, List.take_succ_cons]

/-- From the cursor on a start token: `Xml` hands the tokens from the start to its
matching end to the encoder, and stops on the matching end. -/
theorem Xml_eq {σ : Type} (enc : Encoder σ) (c : Cursor K) (i m : Nat) (t : Token)
    (hn : NoSentinel c.document.Tokens) (hi : c.index = i)
    (ht : c.document.Tokens[i]? = some t)
    (hm : ClosesAt 1 (c.document.Tokens.drop (i + 1)) m) (fuel : Nat) (hf : m < fuel) :
    Xml enc fuel c = Res.ok
      (enc.String (encodeAll enc enc.NewEncoder (tokenRange c.document.Tokens i (i + 1 + m))),
        c.at ((i + 1 + m : Nat) : Int)) := by
  have hidx : (c.index + 1).toNat = i + 1 := by omega
  have hl := Xml_loop_eq enc (c.document.Tokens.drop (i + 1)) m 1 (Push c) fuel
    (enc.EncodeToken enc.NewEncoder t.Tok)
    (le_refl 1) (by show -1 ≤ c.index; omega) (by show List.drop (c.index + 1).toNat c.document.Tokens = _; rw [hidx])
    (noSentinel_drop _ _ hn) hm hf
  have hcur : CurrentToken (Push c) = Res.ok t := CurrentToken_at (Push c) i t hi ht
  unfold Xml
  simp only [bind, Res.bind, hcur, hl, pure]
  have e1 : (Push c).index + 1 + (m : Int) = ((i + 1 + m : Nat) : Int) := by
    show c.index + 1 + (m : Int) = _
    push_cast; omega
  rw [e1, Pop_Push, tokenRange_eq _ i m t ht, encodeAll_cons]

/-! ### Start and end markers -/

theorem isMarker_iff (t : Token) :
    isMarker t = true ↔ t.Typ = TokenType.Start ∨ t.Typ = TokenType.End := by
  unfold isMarker Token.IsStart Token.IsEnd
  simp

theorem delta_of_not_marker (t : Token) (h : isMarker t = false) : delta t = 0 := by
  have h1 : ¬ (t.Typ = TokenType.Start ∨ t.Typ = TokenType.End) := by
    rw [← isMarker_iff]; simp [h]
  rcases delta_cases t with ⟨h2, _⟩ | ⟨h2, _⟩ | ⟨_, _, h2⟩
  · exact absurd (Or.inl h2) h1
  · exact absurd (Or.inr h2) h1
  · exact h2

theorem firstMarker_cons_marker (t : Token) (r : List Token) (h : isMarker t = true) :
    firstMarker (t :: r) = some (0, t) := by
  simp [firstMarker, h]

theorem firstMarker_cons_skip (t : Token) (r : List Token) (h : isMarker t = false) :
    firstMarker (t :: r) = (firstMarker r).map fun x => (x.1 + 1, x.2) := by
  simp only [firstMarker, h]
  cases firstMarker r <;> simp

/-- What `firstMarker` returns is the first start-or-end token of the run. -/
theorem firstMarker_spec (s : List Token) : ∀ (q : Nat) (u : Token),
    firstMarker s = some (q, u) →
    s[q]? = some u ∧ isMarker u = true ∧ ∀ n, n < q → ∀ v, s[n]? = some v → isMarker v = false := by
  induction s with
  | nil => intro q u h; simp [firstMarker] at h
  | cons t r ih =>
    intro q u h
    by_cases hm : isMarker t = true
    · rw [firstMarker_cons_marker t r hm] at h
      cases h
      exact ⟨by simp, hm, fun n hn => absurd hn (by omega)⟩
    · have hm0 : isMarker t = false := by simpa using hm
      rw [firstMarker_cons_skip t r hm0] at h
      cases hr : firstMarker r with
      | none => rw [hr] at h; simp at h
      | some x =>
        rw [hr] at h
        simp only [Option.map_some', Option.some.injEq, Prod.mk.injEq] at h
        obtain ⟨rfl, rfl⟩ := h
        obtain ⟨h1, h2, h3⟩ := ih x.1 x.2 hr
        refine ⟨by simpa using h1, h2, ?_⟩
        intro n hn v hv
        cases n with
        | zero => simp at hv; rw [← hv]; exact hm0
        | succ n => exact h3 n (by omega) v (by simpa using hv)

/-- A run at depth at least 1 holds a start-or-end token; before it the depth is constant. -/
theorem firstMarker_exists (s : List Token) : ∀ d : Int, DepthOK d s → 1 ≤ d →
    ∃ q u, firstMarker s = some (q, u) ∧ DepthOK d (s.drop q) := by
  induction s with
  | nil => intro d h h1; have : d = 0 := h; omega
  | cons t r ih =>
    intro d h h1
    by_cases hm : isMarker t = true
    · exact ⟨0, t, firstMarker_cons_marker t r hm, h⟩
    · have hm0 : isMarker t = false := by simpa using hm
      have hd := delta_of_not_marker t hm0
      obtain ⟨_, hr⟩ := h
      rw [hd, add_zero] at hr
      obtain ⟨q, u, hq, hdq⟩ := ih d hr h1
      exact ⟨q + 1, u, by rw [firstMarker_cons_skip t r hm0, hq]; rfl, hdq⟩

theorem tokenAt_eq (ts : List Token) (k : Nat) (t : Token) (h : ts[k]? = some t) :
    tokenAt ts k = t := by
  unfold tokenAt
  simp [List.getD, h]

theorem tokenAt_lt (ts : List Token) (k : Nat) (h : k < ts.length) :
    ts[k]? = some (tokenAt ts k) := by
  rw [List.getElem?_eq_getElem h, tokenAt_eq ts k _ (List.getElem?_eq_getElem h)]

/-- The first start-or-end token of the run that follows index `j`, read on indices. -/
theorem isNextMarker_of_firstMarker (ts : List Token) (j q : Nat) (u : Token)
    (h : firstMarker (ts.drop (j + 1)) = some (q, u)) :
    IsNextMarker ts j (j + 1 + q) ∧ ts[j + 1 + q]? = some u := by
  obtain ⟨h1, h2, h3⟩ := firstMarker_spec _ q u h
  rw [List.getElem?_drop] at h1
  have hl := (List.getElem?_eq_some.1 h1).1
  refine ⟨⟨by omega, hl, by rw [tokenAt_eq ts _ u h1]; exact h2, ?_⟩, h1⟩
  intro m hm1 hm2
  have hml : m < ts.length := by omega
  have := h3 (m - (j + 1)) (by omega) (tokenAt ts m)
    (by rw [List.getElem?_drop]
        have e : j + 1 + (m - (j + 1)) = m := by omega
        rw [e]; exact tokenAt_lt ts m hml)
  exact this

theorem isNextMarker_unique (ts : List Token) (j k1 k2 : Nat)
    (h1 : IsNextMarker ts j k1) (h2 : IsNextMarker ts j k2) : k1 = k2 := by
  rcases Nat.lt_trichotomy k1 k2 with h | h | h
  · have := h2.2.2.2 k1 h h1.1
    rw [h1.2.2.1] at this; cases this
  · exact h
  · have := h1.2.2.2 k2 h h2.1
    rw [h2.2.2.1] at this; cases this

theorem marker_flags (u : Token) (h : isMarker u = true) :
    (u.IsStart = true ∧ u.IsEnd = false ∧ u.IsNone = false) ∨
    (u.IsStart = false ∧ u.IsEnd = true ∧ u.IsNone = false) := by
  rcases (isMarker_iff u).1 h with h | h
  · left; simp [Token.IsStart, Token.IsEnd, Token.IsNone, h]
  · right; simp [Token.IsStart, Token.IsEnd, Token.IsNone, h]

theorem not_marker_flags (t : Token) (h : isMarker t = false) :
    t.IsStart = false ∧ t.IsEnd = false := by
  unfold isMarker at h
  simpa using h

theorem CurrentToken_of_drop (c : Cursor K) (t : Token) (r : List Token) (h0 : 0 ≤ c.index)
    (h : c.document.Tokens.drop c.index.toNat = t :: r) : CurrentToken c = Res.ok t := by
  obtain ⟨h1, _⟩ := drop_cons_inv _ _ _ _ h
  exact CurrentToken_at c c.index.toNat t (by omega) h1

theorem ToNextToken_of_drop (c : Cursor K) (t u : Token) (r : List Token) (h0 : 0 ≤ c.index)
    (h : c.document.Tokens.drop c.index.toNat = t :: u :: r) :
    ToNextToken c = Res.ok (u, c.at (c.index + 1)) ∧
      (c.at (c.index + 1)).document.Tokens.drop (c.at (c.index + 1)).index.toNat = u :: r := by
  obtain ⟨_, h2⟩ := drop_cons_inv _ _ _ _ h
  have e : (c.index + 1).toNat = c.index.toNat + 1 := by omega
  obtain ⟨h3, _⟩ := ToNextToken_step c u r (by omega) (by rw [e]; exact h2)
  refine ⟨h3, ?_⟩
  show c.document.Tokens.drop (c.index + 1).toNat = u :: r
  rw [e]; exact h2

/-- The skipping loop of `ToNextSibling` stops on the first start-or-end token. -/
theorem ToNextSibling_loop_eq (s : List Token) : ∀ (q : Nat) (u : Token) (c : Cursor K)
    (fuel : Nat), 0 ≤ c.index → c.document.Tokens.drop c.index.toNat = s →
    firstMarker s = some (q, u) → q < fuel →
    ToNextSibling.loop fuel c = Res.ok (c.at (c.index + q)) := by
  induction s with
  | nil => intro q u c fuel _ _ h; simp [firstMarker] at h
  | cons t r ih =>
    intro q u c fuel h0 hs hq hf
    obtain ⟨n, rfl⟩ : ∃ n, fuel = n + 1 := ⟨fuel - 1, by omega⟩
    rw [ToNextSibling.loop, CurrentToken_of_drop c t r h0 hs]
    simp only
    by_cases hm : isMarker t = true
    · rw [firstMarker_cons_marker t r hm] at hq
      cases hq
      have : (!t.IsStart && !t.IsEnd) = false := by
        rcases marker_flags t hm with ⟨a, b, _⟩ | ⟨a, b, _⟩ <;> simp [a, b]
      rw [this]
      simp only [Bool.false_eq_true, ↓reduceIte, Nat.cast_zero, add_zero]
      rw [cursor_at_self c c.index rfl]
    · have hm0 : isMarker t = false := by simpa using hm
      obtain ⟨a, b⟩ := not_marker_flags t hm0
      rw [firstMarker_cons_skip t r hm0] at hq
      cases hr : firstMarker r with
      | none => rw [hr] at hq; simp at hq
      | some x =>
        rw [hr] at hq
        simp only [Option.map_some', Option.some.injEq, Prod.mk.injEq] at hq
        obtain ⟨rfl, rfl⟩ := hq
        cases r with
        | nil => simp [firstMarker] at hr
        | cons v r2 =>
          obtain ⟨hnt, hdrop⟩ := ToNextToken_of_drop c t v r2 h0 hs
          simp only [a, b, Bool.not_false, Bool.and_self, ↓reduceIte, hnt]
          rw [ih x.1 x.2 (c.at (c.index + 1)) n (by rw [at_index]; omega) hdrop hr (by omega)]
          rw [at_index, at_at]
          congr 2
          push_cast; omega

/-- The skipping loop of `ToFirstChild` stops on the first start-or-end token. -/
theorem ToFirstChild_loop_eq (s : List Token) : ∀ (q : Nat) (u : Token) (c : Cursor K)
    (fuel : Nat), 0 ≤ c.index → c.document.Tokens.drop c.index.toNat = s → NoSentinel s →
    firstMarker s = some (q, u) → q < fuel →
    ToFirstChild.loop fuel c = Res.ok (c.at (c.index + q)) := by
  induction s with
  | nil => intro q u c fuel _ _ _ h; simp [firstMarker] at h
  | cons t r ih =>
    intro q u c fuel h0 hs hn hq hf
    obtain ⟨n, rfl⟩ : ∃ n, fuel = n + 1 := ⟨fuel - 1, by omega⟩
    obtain ⟨hty, hnr⟩ := (noSentinel_cons t r).1 hn
    rw [ToFirstChild.loop, CurrentToken_of_drop c t r h0 hs]
    simp only
    by_cases hm : isMarker t = true
    · rw [firstMarker_cons_marker t r hm] at hq
      cases hq
      have : (!t.IsNone && !t.IsEnd && !t.IsStart) = false := by
        rcases marker_flags t hm with ⟨a, b, _⟩ | ⟨a, b, _⟩ <;> simp [a, b]
      rw [this]
      simp only [Bool.false_eq_true, ↓reduceIte, Nat.cast_zero, add_zero]
      rw [cursor_at_self c c.index rfl]
    · have hm0 : isMarker t = false := by simpa using hm
      obtain ⟨a, b⟩ := not_marker_flags t hm0
      have hnone : t.IsNone = false := by simp [Token.IsNone, hty]
      rw [firstMarker_cons_skip t r hm0] at hq
      cases hr : firstMarker r with
      | none => rw [hr] at hq; simp at hq
      | some x =>
        rw [hr] at hq
        simp only [Option.map_some', Option.some.injEq, Prod.mk.injEq] at hq
        obtain ⟨rfl, rfl⟩ := hq
        cases r with
        | nil => simp [firstMarker] at hr
        | cons v r2 =>
          obtain ⟨hnt, hdrop⟩ := ToNextToken_of_drop c t v r2 h0 hs
          simp only [a, b, hnone, Bool.not_false, Bool.and_self, ↓reduceIte, hnt]
          rw [ih x.1 x.2 (c.at (c.index + 1)) n (by rw [at_index]; omega) hdrop hnr hr (by omega)]
          rw [at_index, at_at]
          congr 2
          push_cast; omega

theorem firstMarker_ne_nil (s : List Token) (q : Nat) (u : Token)
    (h : firstMarker s = some (q, u)) : ∃ t r, s = t :: r := by
  cases s with
  | nil => simp [firstMarker] at h
  | cons t r => exact ⟨t, r, rfl⟩

/-- From the cursor on a start token whose counter closes at offset `m`: `ToNextSibling`
is decided by the first start-or-end token after the matching end. -/
theorem ToNextSibling_eq (c : Cursor K) (i m q : Nat) (t u : Token)
    (hn : NoSentinel c.document.Tokens) (hi : c.index = i)
    (ht : c.document.Tokens[i]? = some t) (hs : t.Typ = TokenType.Start)
    (hm : ClosesAt 1 (c.document.Tokens.drop (i + 1)) m)
    (hq : firstMarker (c.document.Tokens.drop (i + 1 + m + 1)) = some (q, u))
    (fuel : Nat) (hf : c.document.Tokens.length ≤ fuel) :
    ToNextSibling fuel c = Res.ok
      (if u.IsStart then (true, c.at ((i + 1 + m + 1 + q : Nat) : Int)) else (false, c)) := by
  have hml : i + 1 + m < c.document.Tokens.length := by
    have := hm.1
    simp only [List.length_drop] at this
    omega
  obtain ⟨e, he, hE, hend⟩ := ToEndToken_eq c i m t hn hi ht hs hm fuel (by omega)
  obtain ⟨v, r, hvr⟩ := firstMarker_ne_nil _ q u hq
  obtain ⟨hu1, hu2, _⟩ := firstMarker_spec _ q u hq
  rw [List.getElem?_drop] at hu1
  have hql : i + 1 + m + 1 + q < c.document.Tokens.length := (List.getElem?_eq_some.1 hu1).1
  -- the step after the matching end
  have hdropj : (c.at ((i + 1 + m : Nat) : Int)).document.Tokens.drop
      ((c.at ((i + 1 + m : Nat) : Int)).index + 1).toNat = v :: r := by
    show c.document.Tokens.drop (((i + 1 + m : Nat) : Int) + 1).toNat = v :: r
    have e1 : (((i + 1 + m : Nat) : Int) + 1).toNat = i + 1 + m + 1 := by omega
    rw [e1]; exact hvr
  obtain ⟨hnt, hdrop⟩ := ToNextToken_step (c.at ((i + 1 + m : Nat) : Int)) v r
    (by rw [at_index]; omega) hdropj
  rw [at_index, at_at] at hnt
  -- the skipping loop
  have hloop := ToNextSibling_loop_eq (c.document.Tokens.drop (i + 1 + m + 1)) q u
    (c.at (((i + 1 + m : Nat) : Int) + 1)) fuel (by rw [at_index]; omega)
    (by show c.document.Tokens.drop (((i + 1 + m : Nat) : Int) + 1).toNat = _
        have e1 : (((i + 1 + m : Nat) : Int) + 1).toNat = i + 1 + m + 1 := by omega
        rw [e1])
    hq (by omega)
  rw [at_index, at_at] at hloop
  have e2 : ((i + 1 + m : Nat) : Int) + 1 + (q : Int) = ((i + 1 + m + 1 + q : Nat) : Int) := by
    push_cast; omega
  rw [e2] at hloop
  have hcur : CurrentToken (c.at ((i + 1 + m + 1 + q : Nat) : Int)) = Res.ok u :=
    CurrentToken_at _ (i + 1 + m + 1 + q) u rfl hu1
  have hst : t.IsStart = true := by simp [Token.IsStart, hs]
  unfold ToNextSibling
  simp only [bind, Res.bind, CurrentToken_at c i t hi ht, hst, Bool.not_true,
    Bool.false_eq_true, ↓reduceIte, hend, hnt, hloop, hcur, pure]
  rcases marker_flags u hu2 with ⟨a, b, d⟩ | ⟨a, b, d⟩
  · simp [a, b, d]
  · simp only [a, b, d, Bool.or_true, ↓reduceIte, Bool.false_eq_true]
    rfl

/-- From a cursor just before the run `ts[k..]`: `ToFirstChild` is decided by the first
start-or-end token of that run. -/
theorem ToFirstChild_eq (c : Cursor K) (k q : Nat) (u : Token)
    (hn : NoSentinel c.document.Tokens) (hk : c.index + 1 = k)
    (hq : firstMarker (c.document.Tokens.drop k) = some (q, u))
    (fuel : Nat) (hf : q < fuel) :
    ToFirstChild fuel c = Res.ok
      (if u.IsStart then (true, c.at ((k + q : Nat) : Int)) else (false, c)) := by
  obtain ⟨v, r, hvr⟩ := firstMarker_ne_nil _ q u hq
  obtain ⟨hu1, hu2, _⟩ := firstMarker_spec _ q u hq
  rw [List.getElem?_drop] at hu1
  have hidx : (c.index + 1).toNat = k := by omega
  obtain ⟨hnt, _⟩ := ToNextToken_step c v r (by omega) (by rw [hidx]; exact hvr)
  have hloop := ToFirstChild_loop_eq (c.document.Tokens.drop k) q u
    (c.at (c.index + 1)) fuel (by rw [at_index]; omega)
    (by show c.document.Tokens.drop (c.index + 1).toNat = _; rw [hidx])
    (noSentinel_drop _ _ hn) hq hf
  rw [at_index, at_at] at hloop
  have e2 : c.index + 1 + (q : Int) = ((k + q : Nat) : Int) := by push_cast; omega
  rw [e2] at hloop
  have hcur : CurrentToken (c.at ((k + q : Nat) : Int)) = Res.ok u :=
    CurrentToken_at _ (k + q) u rfl hu1
  unfold ToFirstChild
  simp only [bind, Res.bind, hnt, hloop, hcur, pure]
  rcases marker_flags u hu2 with ⟨a, b, d⟩ | ⟨a, b, d⟩
  · simp [a]
  · simp only [a, Bool.not_false, ↓reduceIte, Bool.false_eq_true]
    rfl

/-! ### Children and siblings -/

theorem childScan_cons_other (L : Int) (k : Nat) (t : Token) (r : List Token)
    (h : isMarker t = false) : childScan L k (t :: r) = childScan L (k + 1) r := by
  have h1 : ¬ (t.Typ = TokenType.Start ∨ t.Typ = TokenType.End) := by
    rw [← isMarker_iff]; simp [h]
  rw [childScan]
  cases hT : t.Typ <;> simp_all

theorem childScan_cons_start (L : Int) (k : Nat) (t : Token) (r : List Token)
    (h : t.Typ = TokenType.Start) :
    childScan L k (t :: r) =
      if L = 1 then k :: childScan (L + 1) (k + 1) r else childScan (L + 1) (k + 1) r := by
  rw [childScan, h]

theorem childScan_cons_end (L : Int) (k : Nat) (t : Token) (r : List Token)
    (h : t.Typ = TokenType.End) :
    childScan L k (t :: r) = if L - 1 = 0 then [] else childScan (L - 1) (k + 1) r := by
  rw [childScan, h]

/-- At level 1 the scan for children is decided by the first start-or-end token. -/
theorem childScan_first (s : List Token) : ∀ (k : Nat),
    childScan 1 k s =
      match firstMarker s with
      | some (q, u) =>
        if u.IsStart then (k + q) :: childScan 2 (k + q + 1) (s.drop (q + 1)) else []
      | none => [] := by
  induction s with
  | nil => intro k; rfl
  | cons t r ih =>
    intro k
    by_cases hm : isMarker t = true
    · rw [firstMarker_cons_marker t r hm]
      simp only
      rcases (isMarker_iff t).1 hm with h | h
      · rw [childScan_cons_start 1 k t r h]
        simp [Token.IsStart, h]
      · rw [childScan_cons_end 1 k t r h]
        simp [Token.IsStart, h]
    · have hm0 : isMarker t = false := by simpa using hm
      rw [childScan_cons_other 1 k t r hm0, firstMarker_cons_skip t r hm0, ih (k + 1)]
      cases hr : firstMarker r with
      | none => rfl
      | some x =>
        simp only [Option.map_some', List.drop_succ_cons]
        have e1 : k + 1 + x.1 = k + (x.1 + 1) := by omega
        rw [e1]

/-- Above level 1 the scan for children emits nothing until its counter is back to 1. -/
theorem childScan_skip (r : List Token) : ∀ (L : Int) (k m : Nat), 1 ≤ L → ClosesAt L r m →
    childScan (L + 1) k r = childScan 1 (k + m + 1) (r.drop (m + 1)) := by
  induction r with
  | nil => intro L k m _ h; exact absurd h (closesAt_nil L m)
  | cons t r ih =>
    intro L k m hL hc
    have hd := delta_cases t
    cases m with
    | zero =>
      have hz := (closesAt_zero L t r).1 hc
      rcases hd with ⟨_, hd1⟩ | ⟨hE, hd1⟩ | ⟨_, _, hd1⟩
      · omega
      · have hL1 : L = 1 := by omega
        subst hL1
        rw [childScan_cons_end _ k t r hE, if_neg (by omega)]
        rfl
      · omega
    | succ m =>
      obtain ⟨hnz, hc1⟩ := (closesAt_succ L t r m).1 hc
      have e1 : k + 1 + m + 1 = k + (m + 1) + 1 := by omega
      rcases hd with ⟨hS, hd1⟩ | ⟨hE, hd1⟩ | ⟨h1, h2, hd1⟩
      · rw [childScan_cons_start _ k t r hS, if_neg (by omega)]
        rw [hd1] at hc1
        rw [ih (L + 1) (k + 1) m (by omega) hc1, e1]
        rfl
      · rw [childScan_cons_end _ k t r hE, if_neg (by omega)]
        have e2 : L + delta t = L - 1 := by omega
        rw [e2] at hc1
        have := ih (L - 1) (k + 1) m (by omega) hc1
        have e3 : L - 1 + 1 = L + 1 - 1 := by omega
        rw [e3] at this
        rw [this, e1]
        rfl
      · have hm0 : isMarker t = false := by
          cases hmk : isMarker t with
          | false => rfl
          | true =>
            rcases (isMarker_iff t).1 hmk with h | h
            · exact absurd h h1
            · exact absurd h h2
        rw [childScan_cons_other _ k t r hm0]
        rw [hd1, add_zero] at hc1
        rw [ih L (k + 1) m hL hc1, e1]
        rfl

theorem childScan_length_le (s : List Token) : ∀ (L : Int) (k : Nat),
    (childScan L k s).length ≤ s.length := by
  induction s with
  | nil => intro L k; simp [childScan]
  | cons t r ih =>
    intro L k
    rw [childScan]
    cases t.Typ <;> simp only
    · split
      · simp only [List.length_cons]; have := ih (L + 1) (k + 1); omega
      · simp only [List.length_cons]; have := ih (L + 1) (k + 1); omega
    · split
      · simp
      · simp only [List.length_cons]; have := ih (L - 1) (k + 1); omega
    all_goals (simp only [List.length_cons]; have := ih L (k + 1); omega)

theorem isStart_iff (u : Token) : u.IsStart = true ↔ u.Typ = TokenType.Start := by
  simp [Token.IsStart]

/-- One step along the children of an element: the scan for children that meets `a`
first resumes after the end matching `a`, and `ToNextSibling` from `a` lands on the
child met next, or fails when there is none. -/
theorem sibling_step (c : Cursor K) (k : Nat) (d : Int) (a : Nat) (rest : List Nat)
    (hn : NoSentinel c.document.Tokens) (hd : DepthOK d (c.document.Tokens.drop k))
    (h1 : 1 ≤ d) (hc : childScan 1 k (c.document.Tokens.drop k) = a :: rest) :
    ∃ k2 t, k ≤ a ∧ a < k2 ∧ c.document.Tokens[a]? = some t ∧ t.Typ = TokenType.Start ∧
      DepthOK d (c.document.Tokens.drop k2) ∧
      childScan 1 k2 (c.document.Tokens.drop k2) = rest ∧
      ∀ fuel, c.document.Tokens.length ≤ fuel →
        ToNextSibling fuel (c.at a) = Res.ok
          (match rest.head? with
           | some b => (true, c.at b)
           | none => (false, c.at a)) := by
  obtain ⟨q, u, hq, hdq⟩ := firstMarker_exists _ d hd h1
  obtain ⟨hu1, hu2, _⟩ := firstMarker_spec _ q u hq
  rw [List.getElem?_drop] at hu1
  rw [childScan_first, hq] at hc
  simp only at hc
  cases hus : u.IsStart with
  | false => rw [hus] at hc; simp at hc
  | true =>
    rw [hus] at hc
    simp only [↓reduceIte, List.cons.injEq] at hc
    obtain ⟨ha, hrest⟩ := hc
    have hS := (isStart_iff u).1 hus
    rw [List.drop_drop] at hdq hrest
    have ea1 : k + (q + 1) = a + 1 := by omega
    rw [ha] at hdq
    rw [ea1, ha] at hrest
    rw [ha] at hu1
    rw [drop_eq_cons_of_getElem? _ a u hu1] at hdq
    obtain ⟨_, hd1⟩ := hdq
    have hdu : delta u = 1 := by unfold delta; rw [hS]
    rw [hdu] at hd1
    obtain ⟨m, hm, hr⟩ := closesAt_exists _ _ 1 hd1 (le_refl 1) (by omega)
    rw [List.drop_drop] at hr
    have e1 : d + 1 - 1 = d := by omega
    have e2 : a + 1 + (m + 1) = a + 1 + m + 1 := by omega
    rw [e1, e2] at hr
    have hskip := childScan_skip _ 1 (a + 1) m (le_refl 1) hm
    rw [List.drop_drop, e2] at hskip
    have e3 : (1 : Int) + 1 = 2 := by norm_num
    rw [e3] at hskip
    rw [hskip] at hrest
    refine ⟨a + 1 + m + 1, u, by omega, by omega, hu1, hS, hr, hrest, ?_⟩
    intro fuel hf
    obtain ⟨q2, u2, hq2, _⟩ := firstMarker_exists _ d hr h1
    have hsib := ToNextSibling_eq (c.at a) a m q2 u u2 hn rfl hu1 hS hm hq2 fuel hf
    rw [hsib, ← hrest, childScan_first, hq2]
    simp only
    cases u2.IsStart <;> simp [at_at]

/-- The loop of `ToNextSiblingByName` run from a child `a` walks the children met after `a`
and stops on the first one that carries the name; when there is none the saved index is
put back. -/
theorem ToNextSiblingByName_loop_eq (c : Cursor K) (name : Name) (idx : Int) (d : Int)
    (hn : NoSentinel c.document.Tokens) (h1 : 1 ≤ d)
    (inner : Nat) (hin : c.document.Tokens.length ≤ inner) :
    ∀ (rest : List Nat) (k a n : Nat), DepthOK d (c.document.Tokens.drop k) →
      childScan 1 k (c.document.Tokens.drop k) = a :: rest → rest.length < n →
      ToNextSiblingByName.loop inner name idx n (c.at a) = Res.ok
        (match rest.find? (hasName c.document.Tokens name) with
         | some b => (true, c.at b)
         | none => (false, c.at idx)) := by
  intro rest
  induction rest with
  | nil =>
    intro k a n hd hc hl
    obtain ⟨m, rfl⟩ : ∃ m, n = m + 1 := ⟨n - 1, by simp at hl; omega⟩
    obtain ⟨k2, t, _, _, _, _, _, _, hsib⟩ := sibling_step c k d a [] hn hd h1 hc
    rw [ToNextSiblingByName.loop, hsib inner hin]
    rfl
  | cons b rest ih =>
    intro k a n hd hc hl
    obtain ⟨m, rfl⟩ : ∃ m, n = m + 1 := ⟨n - 1, by simp at hl; omega⟩
    obtain ⟨k2, t, _, _, _, _, hd2, hc2, hsib⟩ := sibling_step c k d a (b :: rest) hn hd h1 hc
    obtain ⟨_, tb, _, _, htb, _, _, _, _⟩ := sibling_step c k2 d b rest hn hd2 h1 hc2
    rw [ToNextSiblingByName.loop, hsib inner hin]
    simp only [List.head?_cons, Bool.not_true, Bool.false_eq_true, ↓reduceIte]
    rw [CurrentToken_at (c.at b) b tb rfl htb]
    simp only
    have hname : hasName c.document.Tokens name b
        = decide (tb.Name.Local = name.Local ∧ tb.Name.Space = name.Space) := by
      unfold hasName; rw [tokenAt_eq _ b tb htb]
    by_cases hh : tb.Name.Local = name.Local ∧ tb.Name.Space = name.Space
    · rw [if_pos hh, List.find?_cons_of_pos _ (by rw [hname]; simpa using hh)]
    · rw [if_neg hh, List.find?_cons_of_neg _ (by rw [hname]; simpa using hh)]
      exact ih k2 b m hd2 hc2 (by simp at hl; omega)

/-- The run after a start token of a well-nested sequence is at depth at least 1. -/
theorem start_inside (ts : List Token) (i : Nat) (t : Token) (hw : WellNested ts)
    (ht : ts[i]? = some t) (hs : t.Typ = TokenType.Start) :
    0 ≤ nesting (ts.take i) ∧ DepthOK (nesting (ts.take i) + 1) (ts.drop (i + 1)) := by
  have hl := (List.getElem?_eq_some.1 ht).1
  obtain ⟨h0, hd⟩ := wellNested_drop ts i (le_of_lt hl) hw
  rw [drop_eq_cons_of_getElem? ts i t ht] at hd
  obtain ⟨_, hd1⟩ := hd
  have hdt : delta t = 1 := by unfold delta; rw [hs]
  rw [hdt] at hd1
  exact ⟨h0, hd1⟩

/-- From the cursor on a start token of a well-nested sequence: `ToFirstChildByName` lands on
the first child that carries the name; when there is none it reports false, with the cursor
on the first child if the element has one. -/
theorem ToFirstChildByName_eq (c : Cursor K) (i : Nat) (t : Token) (name : Name)
    (hn : NoSentinel c.document.Tokens) (hw : WellNested c.document.Tokens)
    (hi : c.index = i) (ht : c.document.Tokens[i]? = some t) (hs : t.Typ = TokenType.Start)
    (fuel : Nat) (hf : c.document.Tokens.length ≤ fuel) :
    ToFirstChildByName fuel name c = Res.ok
      (match (children c.document.Tokens i).find? (hasName c.document.Tokens name) with
       | some b => (true, c.at b)
       | none =>
         (false, match (children c.document.Tokens i).head? with
                 | some a => c.at a
                 | none => c)) := by
  obtain ⟨h0, hd⟩ := start_inside _ i t hw ht hs
  obtain ⟨q, u, hq, _⟩ := firstMarker_exists _ _ hd (by omega)
  obtain ⟨hu1, _, _⟩ := firstMarker_spec _ q u hq
  rw [List.getElem?_drop] at hu1
  have hql := (List.getElem?_eq_some.1 hu1).1
  have hfc := ToFirstChild_eq c (i + 1) q u hn (by omega) hq fuel (by omega)
  have hch : children c.document.Tokens i =
      if u.IsStart then (i + 1 + q) :: childScan 2 (i + 1 + q + 1)
        ((c.document.Tokens.drop (i + 1)).drop (q + 1)) else [] := by
    unfold children
    rw [childScan_first, hq]
  unfold ToFirstChildByName
  simp only [bind, Res.bind, hfc, pure]
  cases hus : u.IsStart with
  | false =>
    rw [hus] at hch
    simp only [Bool.false_eq_true, ↓reduceIte] at hch
    rw [hch]
    simp
  | true =>
    rw [hus] at hch
    simp only [↓reduceIte] at hch
    simp only [↓reduceIte, Bool.not_true, Bool.false_eq_true]
    rw [CurrentToken_at (c.at ((i + 1 + q : Nat) : Int)) (i + 1 + q) u rfl hu1]
    simp only
    have hname : hasName c.document.Tokens name (i + 1 + q)
        = decide (u.Name.Local = name.Local ∧ u.Name.Space = name.Space) := by
      unfold hasName; rw [tokenAt_eq _ _ u hu1]
    rw [hch]
    by_cases hh : u.Name.Local = name.Local ∧ u.Name.Space = name.Space
    · rw [if_pos hh, List.find?_cons_of_pos _ (by rw [hname]; simpa using hh)]
    · rw [if_neg hh, List.find?_cons_of_neg _ (by rw [hname]; simpa using hh)]
      have hlen : (childScan 2 (i + 1 + q + 1)
          ((c.document.Tokens.drop (i + 1)).drop (q + 1))).length < fuel := by
        have := childScan_length_le ((c.document.Tokens.drop (i + 1)).drop (q + 1)) 2
          (i + 1 + q + 1)
        simp only [List.length_drop] at this
        omega
      have hloop := ToNextSiblingByName_loop_eq c name ((i + 1 + q : Nat) : Int)
        (nesting (c.document.Tokens.take i) + 1) hn (by omega) fuel hf _ (i + 1)
        (i + 1 + q) fuel hd (by unfold children at hch; exact hch) hlen
      unfold ToNextSiblingByName
      rw [at_index, hloop]
      simp only [List.head?_cons]
      cases List.find? (hasName c.document.Tokens name)
        (childScan 2 (i + 1 + q + 1) ((c.document.Tokens.drop (i + 1)).drop (q + 1))) <;> simp

theorem childAt_zero (L : Int) (t : Token) (r : List Token) :
    ChildAt L (t :: r) 0 ↔ t.Typ = TokenType.Start ∧ L = 1 := by
  unfold ChildAt
  simp [nesting_nil]

theorem childAt_succ (L : Int) (t : Token) (r : List Token) (n : Nat) :
    ChildAt L (t :: r) (n + 1) ↔ L + delta t ≠ 0 ∧ ChildAt (L + delta t) r n := by
  unfold ChildAt
  simp only [List.length_cons, List.take_succ_cons, nesting_cons, ← add_assoc,
    List.getD_cons_succ]
  constructor
  · rintro ⟨h1, h2, h3, h4⟩
    refine ⟨?_, by omega, h2, h3, ?_⟩
    · have := h4 0 (by omega)
      simpa [nesting_nil] using this
    · intro m hm
      exact h4 (m + 1) (by omega)
  · rintro ⟨h0, h1, h2, h3, h4⟩
    refine ⟨by omega, h2, h3, ?_⟩
    intro m hm
    cases m with
    | zero => simpa [nesting_nil] using h0
    | succ m => exact h4 m (by omega)

theorem exists_childAt_cons (L : Int) (k0 x : Nat) (t : Token) (r : List Token) :
    (∃ n, x = k0 + n ∧ ChildAt L (t :: r) n) ↔
      (x = k0 ∧ t.Typ = TokenType.Start ∧ L = 1) ∨
      (L + delta t ≠ 0 ∧ ∃ n, x = k0 + 1 + n ∧ ChildAt (L + delta t) r n) := by
  constructor
  · rintro ⟨n, hx, hn⟩
    cases n with
    | zero => exact Or.inl ⟨by omega, (childAt_zero L t r).1 hn⟩
    | succ n =>
      obtain ⟨h1, h2⟩ := (childAt_succ L t r n).1 hn
      exact Or.inr ⟨h1, n, by omega, h2⟩
  · rintro (⟨hx, h⟩ | ⟨h1, n, hx, h2⟩)
    · exact ⟨0, by omega, (childAt_zero L t r).2 h⟩
    · exact ⟨n + 1, by omega, (childAt_succ L t r n).2 ⟨h1, h2⟩⟩

/-- What the scan for children collects: the start tokens met when its counter stands
at 1, before the counter reaches zero. -/
theorem mem_childScan (s : List Token) : ∀ (L : Int) (k0 x : Nat), 1 ≤ L →
    (x ∈ childScan L k0 s ↔ ∃ n, x = k0 + n ∧ ChildAt L s n) := by
  induction s with
  | nil =>
    intro L k0 x _
    simp [childScan, ChildAt]
  | cons t r ih =>
    intro L k0 x hL
    rw [exists_childAt_cons]
    rcases delta_cases t with ⟨hS, hd⟩ | ⟨hE, hd⟩ | ⟨h1, h2, hd⟩
    · rw [childScan_cons_start L k0 t r hS, hd, ← ih (L + 1) (k0 + 1) x (by omega)]
      by_cases hL1 : L = 1
      · rw [if_pos hL1]
        rw [List.mem_cons]
        constructor
        · rintro (h | h)
          · exact Or.inl ⟨h, hS, hL1⟩
          · exact Or.inr ⟨by omega, h⟩
        · rintro (⟨h, _⟩ | ⟨_, h⟩)
          · exact Or.inl h
          · exact Or.inr h
      · rw [if_neg hL1]
        constructor
        · intro h; exact Or.inr ⟨by omega, h⟩
        · rintro (⟨_, _, h⟩ | ⟨_, h⟩)
          · exact absurd h hL1
          · exact h
    · rw [childScan_cons_end L k0 t r hE, hd]
      by_cases hL1 : L - 1 = 0
      · rw [if_pos hL1]
        simp only [List.not_mem_nil, false_iff]
        rintro (⟨_, h, _⟩ | ⟨h, _⟩)
        · rw [hE] at h; cases h
        · omega
      · rw [if_neg hL1]
        have e : L + -1 = L - 1 := by omega
        rw [e, ← ih (L - 1) (k0 + 1) x (by omega)]
        constructor
        · intro h; exact Or.inr ⟨hL1, h⟩
        · rintro (⟨_, h, _⟩ | ⟨_, h⟩)
          · rw [hE] at h; cases h
          · exact h
    · have hm0 : isMarker t = false := by
        cases hmk : isMarker t with
        | false => rfl
        | true =>
          rcases (isMarker_iff t).1 hmk with h | h
          · exact absurd h h1
          · exact absurd h h2
      rw [childScan_cons_other L k0 t r hm0, hd, add_zero, ← ih L (k0 + 1) x hL]
      constructor
      · intro h; exact Or.inr ⟨by omega, h⟩
      · rintro (⟨_, h, _⟩ | ⟨_, h⟩)
        · exact absurd h h1
        · exact h

/-- The scan for children lists indices in ascending order, none below its first index. -/
theorem childScan_sorted (s : List Token) : ∀ (L : Int) (k0 : Nat),
    (childScan L k0 s).Pairwise (· < ·) ∧ ∀ x ∈ childScan L k0 s, k0 ≤ x := by
  induction s with
  | nil => intro L k0; simp [childScan]
  | cons t r ih =>
    intro L k0
    rw [childScan]
    have hge : ∀ (L1 : Int), ∀ x ∈ childScan L1 (k0 + 1) r, k0 ≤ x := by
      intro L1 x hx
      have := (ih L1 (k0 + 1)).2 x hx
      omega
    cases t.Typ <;> simp only
    · split
      · refine ⟨List.pairwise_cons.2 ⟨?_, (ih _ _).1⟩, ?_⟩
        · intro x hx
          have := (ih _ (k0 + 1)).2 x hx
          omega
        · intro x hx
          rcases List.mem_cons.1 hx with h | h
          · omega
          · exact hge _ x h
      · exact ⟨(ih _ _).1, hge _⟩
    · split
      · simp
      · exact ⟨(ih _ _).1, hge _⟩
    all_goals exact ⟨(ih _ _).1, hge _⟩

theorem mem_children_iff (ts : List Token) (i k : Nat) :
    k ∈ children ts i ↔ IsChild ts i k := by
  have key : ∀ m, i < m → (ts.take (m + 1)).drop (i + 1) = (ts.drop (i + 1)).take (m - i) := by
    intro m hm
    rw [List.drop_take]
    congr 1
    omega
  have key2 : ∀ m, i < m → (ts.take m).drop (i + 1) = (ts.drop (i + 1)).take (m - (i + 1)) := by
    intro m hm
    rw [List.drop_take]
  unfold children
  rw [mem_childScan _ 1 (i + 1) k (le_refl 1)]
  unfold ChildAt IsChild counter tokenAt
  constructor
  · rintro ⟨n, rfl, h1, h2, h3, h4⟩
    simp only [List.length_drop] at h1
    refine ⟨by omega, by omega, ?_, ?_, ?_⟩
    · rw [List.getD_eq_getElem?_getD, List.getElem?_drop] at h2
      rw [List.getD_eq_getElem?_getD]
      exact h2
    · rw [key2 _ (by omega)]
      have e : i + 1 + n - (i + 1) = n := by omega
      rw [e]; exact h3
    · intro m hm1 hm2
      rw [key m hm2]
      have := h4 (m - (i + 1)) (by omega)
      have e : m - (i + 1) + 1 = m - i := by omega
      rw [e] at this
      exact this
  · rintro ⟨h0, h1, h2, h3, h4⟩
    refine ⟨k - (i + 1), by omega, by simp only [List.length_drop]; omega, ?_, ?_, ?_⟩
    · rw [List.getD_eq_getElem?_getD, List.getElem?_drop]
      have e : i + 1 + (k - (i + 1)) = k := by omega
      rw [e, ← List.getD_eq_getElem?_getD]
      exact h2
    · rw [key2 k h0] at h3
      exact h3
    · intro m hm
      have := h4 (i + 1 + m) (by omega) (by omega)
      rw [key _ (by omega)] at this
      have e : i + 1 + m - i = m + 1 := by omega
      rw [e] at this
      exact this

theorem children_sorted (ts : List Token) (i : Nat) : (children ts i).Pairwise (· < ·) :=
  (childScan_sorted _ 1 (i + 1)).1

/-- In an ascending list the search for the first element with a property returns the
least element that has it. -/
theorem find?_least (p : Nat → Bool) (l : List Nat) (h : l.Pairwise (· < ·)) (x : Nat)
    (hx : x ∈ l) (hp : p x = true) (hmin : ∀ y ∈ l, y < x → p y = false) :
    l.find? p = some x := by
  induction l with
  | nil => cases hx
  | cons a r ih =>
    obtain ⟨ha, hr⟩ := List.pairwise_cons.1 h
    rcases List.mem_cons.1 hx with rfl | hxr
    · exact List.find?_cons_of_pos _ hp
    · have hax := ha x hxr
      rw [List.find?_cons_of_neg _ (by rw [hmin a (List.mem_cons_self _ _) hax]; simp)]
      exact ih hr hxr (fun y hy hyx => hmin y (List.mem_cons_of_mem _ hy) hyx)

/-! ### Bookmark registry -/

/-- The binary search of `sort.Search` on a predicate that, once true, stays true up to `n`:
the result is the least index at which the predicate holds, `n` when there is none. -/
theorem Search_loop_spec (f : Nat → Bool) (n : Nat)
    (hmono : ∀ a b, a ≤ b → b < n → f a = true → f b = true) :
    ∀ (fuel i j : Nat), i ≤ j → j ≤ n → j - i ≤ fuel →
      (∀ k, k < i → f k = false) → (∀ k, j ≤ k → k < n → f k = true) →
      i ≤ Search.loop f fuel i j ∧ Search.loop f fuel i j ≤ j ∧
        (∀ k, k < Search.loop f fuel i j → f k = false) ∧
        (∀ k, Search.loop f fuel i j ≤ k → k < n → f k = true) := by
  intro fuel
  induction fuel with
  | zero =>
    intro i j hij hjn hf h1 h2
    have : i = j := by omega
    subst this
    exact ⟨le_refl _, le_refl _, h1, h2⟩
  | succ fuel ih =>
    intro i j hij hjn hf h1 h2
    rw [Search.loop]
    by_cases hlt : i < j
    · rw [if_pos hlt]
      simp only
      have hh1 : i ≤ (i + j) / 2 := by omega
      have hh2 : (i + j) / 2 < j := by omega
      cases hfh : f ((i + j) / 2) with
      | false =>
        simp only [Bool.not_false, ↓reduceIte]
        have := ih ((i + j) / 2 + 1) j (by omega) hjn (by omega)
          (by
            intro k hk
            cases hfk : f k with
            | false => rfl
            | true =>
              have := hmono k ((i + j) / 2) (by omega) (by omega) hfk
              rw [hfh] at this; cases this)
          h2
        exact ⟨by omega, this.2.1, this.2.2⟩
      | true =>
        simp only [Bool.not_true, Bool.false_eq_true, ↓reduceIte]
        have := ih i ((i + j) / 2) hh1 (by omega) (by omega) h1
          (by intro k hk1 hk2; exact hmono _ k hk1 hk2 hfh)
        exact ⟨this.1, by omega, this.2.2⟩
    · rw [if_neg hlt]
      have : i = j := by omega
      subst this
      exact ⟨le_refl _, le_refl _, h1, h2⟩

theorem sorted_getD_le (a : List Int) (h : a.Pairwise (· < ·)) (i j : Nat) (hij : i ≤ j)
    (hj : j < a.length) : a.getD i 0 ≤ a.getD j 0 := by
  rcases Nat.eq_or_lt_of_le hij with rfl | hlt
  · exact le_refl _
  · have hi : i < a.length := by omega
    have := List.pairwise_iff_getElem.1 h i j hi hj hlt
    rw [List.getD_eq_getElem _ _ hi, List.getD_eq_getElem _ _ hj]
    exact le_of_lt this

/-- On a strictly ascending list `SearchInts` returns the least index holding a
value `>= x`, the length when every value is below `x`. -/
theorem SearchInts_spec (a : List Int) (x : Int) (h : a.Pairwise (· < ·)) :
    SearchInts a x ≤ a.length ∧
      (∀ k, k < SearchInts a x → a.getD k 0 < x) ∧
      (∀ k, SearchInts a x ≤ k → k < a.length → x ≤ a.getD k 0) := by
  have := Search_loop_spec (fun i => decide (a.getD i 0 ≥ x)) a.length
    (by
      intro p q hpq hq hp
      simp only [ge_iff_le, decide_eq_true_eq] at hp ⊢
      exact le_trans hp (sorted_getD_le a h p q hpq hq))
    a.length 0 a.length (Nat.zero_le _) (le_refl _) (by omega)
    (by intro k hk; omega) (by intro k hk1 hk2; omega)
  unfold SearchInts Search
  refine ⟨this.2.1, ?_, ?_⟩
  · intro k hk
    have := this.2.2.1 k hk
    simpa using this
  · intro k hk1 hk2
    have := this.2.2.2 k hk1 hk2
    simpa using this

theorem mem_mapSet [DecidableEq K] {V : Type} (m : List (K × V)) (k : K) (v : V) (e : K × V)
    (h : e ∈ mapSet m k v) : e ∈ m ∨ e = (k, v) := by
  induction m with
  | nil => simp [mapSet] at h; exact Or.inr h
  | cons a r ih =>
    unfold mapSet at h
    split at h
    · rcases List.mem_cons.1 h with h | h
      · exact Or.inr h
      · exact Or.inl (List.mem_cons_of_mem _ h)
    · rcases List.mem_cons.1 h with h | h
      · exact Or.inl (by rw [h]; exact List.mem_cons_self _ _)
      · rcases ih h with h | h
        · exact Or.inl (List.mem_cons_of_mem _ h)
        · exact Or.inr h

theorem mapGet_mapSet_self [DecidableEq K] {V : Type} (m : List (K × V)) (k : K) (v : V) :
    mapGet (mapSet m k v) k = some v := by
  induction m with
  | nil => simp [mapSet, mapGet]
  | cons a r ih =>
    unfold mapSet
    split
    · simp [mapGet]
    · rename_i hne
      simp [mapGet, hne, ih]

theorem mapSet_mapSet [DecidableEq K] {V : Type} (m : List (K × V)) (k : K) (v : V) :
    mapSet (mapSet m k v) k v = mapSet m k v := by
  induction m with
  | nil => simp [mapSet]
  | cons a r ih =>
    by_cases h : a.1 = k
    · simp [mapSet, h]
    · simp [mapSet, h, ih]

theorem bookmarkList_sorted [DecidableEq K] (c : Cursor K) (key : K) (hs : BookmarksSorted c) :
    (bookmarkList c key).Pairwise (· < ·) := by
  unfold bookmarkList
  cases h : mapGet c.document.Bookmarks key with
  | none => exact List.Pairwise.nil
  | some l => exact hs _ (mapGet_mem _ _ _ h)

theorem storeBookmarks_sorted [DecidableEq K] (c : Cursor K) (key : K) (l : List Int)
    (hs : BookmarksSorted c) (hl : l.Pairwise (· < ·)) :
    BookmarksSorted (storeBookmarks c key l) := by
  intro e he
  rcases mem_mapSet _ _ _ _ he with h | h
  · exact hs e h
  · rw [h]; exact hl

theorem bookmarkList_store [DecidableEq K] (c : Cursor K) (key : K) (l : List Int) :
    bookmarkList (storeBookmarks c key l) key = l := by
  unfold bookmarkList storeBookmarks
  simp only [mapGet_mapSet_self]

theorem storeBookmarks_twice [DecidableEq K] (c : Cursor K) (key : K) (l : List Int) :
    storeBookmarks (storeBookmarks c key l) key l = storeBookmarks c key l := by
  unfold storeBookmarks
  simp only [mapSet_mapSet]

theorem mem_take_getD (a : List Int) (r : Nat) (y : Int) (h : y ∈ a.take r) :
    ∃ k, k < r ∧ k < a.length ∧ a.getD k 0 = y := by
  obtain ⟨n, hn, rfl⟩ := List.mem_iff_getElem.1 h
  simp only [List.length_take] at hn
  refine ⟨n, by omega, by omega, ?_⟩
  rw [List.getD_eq_getElem _ _ (by omega), List.getElem_take]

theorem mem_drop_getD (a : List Int) (r : Nat) (y : Int) (h : y ∈ a.drop r) :
    ∃ k, r ≤ k ∧ k < a.length ∧ a.getD k 0 = y := by
  obtain ⟨n, hn, rfl⟩ := List.mem_iff_getElem.1 h
  simp only [List.length_drop] at hn
  refine ⟨r + n, by omega, by omega, ?_⟩
  rw [List.getD_eq_getElem _ _ (by omega), List.getElem_drop]

/-- Inserting `x` between the values below it and the values above it keeps a strictly
ascending list strictly ascending, with `x` in it once. -/
theorem insert_sorted (a : List Int) (x : Int) (r : Nat) (h : a.Pairwise (· < ·))
    (h1 : ∀ k, k < r → k < a.length → a.getD k 0 < x)
    (h2 : ∀ k, r ≤ k → k < a.length → x < a.getD k 0) :
    (a.take r ++ [x] ++ a.drop r).Pairwise (· < ·) ∧ (a.take r ++ [x] ++ a.drop r).count x = 1 := by
  have ht : ∀ y ∈ a.take r, y < x := by
    intro y hy
    obtain ⟨k, hk1, hk2, rfl⟩ := mem_take_getD a r y hy
    exact h1 k hk1 hk2
  have hd : ∀ y ∈ a.drop r, x < y := by
    intro y hy
    obtain ⟨k, hk1, hk2, rfl⟩ := mem_drop_getD a r y hy
    exact h2 k hk1 hk2
  constructor
  · rw [List.append_assoc, List.pairwise_append]
    refine ⟨h.sublist (List.take_sublist _ _), ?_, ?_⟩
    · rw [List.singleton_append, List.pairwise_cons]
      exact ⟨hd, h.sublist (List.drop_sublist _ _)⟩
    · intro y hy z hz
      rcases List.mem_append.1 hz with hz | hz
      · rw [List.mem_singleton.1 hz]; exact ht y hy
      · exact lt_trans (ht y hy) (hd z hz)
  · rw [List.count_append, List.count_append, List.count_singleton_self,
      List.count_eq_zero_of_not_mem (fun hm => absurd (ht x hm) (lt_irrefl x)),
      List.count_eq_zero_of_not_mem (fun hm => absurd (hd x hm) (lt_irrefl x))]

theorem sliceIndex_nat (a : List Int) (r : Nat) (h : r < a.length) :
    sliceIndex a (r : Int) = Res.ok (a.getD r 0) := by
  apply sliceIndex_eq_ok
  rw [List.getElem?_eq_getElem h, List.getD_eq_getElem _ _ h]

theorem sliceIndex_panic (a : List Int) (r : Nat) (h : a.length ≤ r) :
    sliceIndex a (r : Int) = Res.panic := by
  unfold sliceIndex
  rw [if_neg (by omega)]

/-- The effect of `SetBookmark` on the list of its key. -/
theorem SetBookmark_eq [DecidableEq K] (c : Cursor K) (key : K) (hs : BookmarksSorted c) :
    ∃ l : List Int, SetBookmark key c = Res.ok (storeBookmarks c key l) ∧
      l.Pairwise (· < ·) ∧ l.count c.index = 1 ∧
      (c.index ∈ bookmarkList c key → l = bookmarkList c key) := by
  have hl := bookmarkList_sorted c key hs
  obtain ⟨s1, s2, s3⟩ := SearchInts_spec (bookmarkList c key) c.index hl
  unfold SetBookmark
  simp only [bind, Res.bind, pure]
  by_cases hr : (bookmarkList c key).length = SearchInts (bookmarkList c key) c.index
  · rw [if_pos hr]
    unfold slicesInsert
    rw [if_pos s1]
    obtain ⟨i1, i2⟩ := insert_sorted (bookmarkList c key) c.index
      (SearchInts (bookmarkList c key) c.index) hl (fun k hk _ => s2 k hk)
      (fun k hk1 hk2 => by omega)
    refine ⟨_, rfl, i1, i2, ?_⟩
    intro hm
    obtain ⟨n, hn, hx⟩ := List.mem_iff_getElem.1 hm
    have := s2 n (by omega)
    rw [List.getD_eq_getElem _ _ hn, hx] at this
    exact absurd this (lt_irrefl _)
  · rw [if_neg hr]
    have hlt : SearchInts (bookmarkList c key) c.index < (bookmarkList c key).length := by omega
    rw [sliceIndex_nat _ _ hlt]
    simp only
    have hge := s3 _ (le_refl _) hlt
    by_cases hv : (bookmarkList c key).getD (SearchInts (bookmarkList c key) c.index) 0 = c.index
    · rw [if_neg (by simpa using hv)]
      have hmem : c.index ∈ bookmarkList c key := by
        rw [← hv, List.getD_eq_getElem _ _ hlt]
        exact List.getElem_mem _
      exact ⟨_, rfl, hl, List.count_eq_one_of_mem (hl.imp (fun h => ne_of_lt h)) hmem,
        fun _ => rfl⟩
    · rw [if_pos (by simpa using hv)]
      unfold slicesInsert
      rw [if_pos s1]
      obtain ⟨i1, i2⟩ := insert_sorted (bookmarkList c key) c.index
        (SearchInts (bookmarkList c key) c.index) hl (fun k hk _ => s2 k hk)
        (fun k hk1 hk2 => by
          have h5 := sorted_getD_le _ hl _ k hk1 hk2
          have h6 : c.index ≠ (bookmarkList c key).getD
              (SearchInts (bookmarkList c key) c.index) 0 := fun h => hv h.symm
          omega)
      refine ⟨_, rfl, i1, i2, ?_⟩
      intro hm
      obtain ⟨n, hn, hx⟩ := List.mem_iff_getElem.1 hm
      by_cases hnr : n < SearchInts (bookmarkList c key) c.index
      · have := s2 n hnr
        rw [List.getD_eq_getElem _ _ hn, hx] at this
        exact absurd this (lt_irrefl _)
      · have h5 := sorted_getD_le _ hl (SearchInts (bookmarkList c key) c.index) n (by omega) hn
        rw [List.getD_eq_getElem _ _ hn, hx] at h5
        exact absurd (le_antisymm h5 hge) hv

/-- The effect of `ClearBookmark`: it returns exactly when some stored index of the key is not
below the cursor index, and then the registry is still strictly ascending. -/
theorem ClearBookmark_eq [DecidableEq K] (c : Cursor K) (key : K) (hs : BookmarksSorted c) :
    (∀ c1, ClearBookmark key c = Res.ok c1 → BookmarksSorted c1) ∧
    ((∃ b ∈ bookmarkList c key, c.index ≤ b) → ∃ c1, ClearBookmark key c = Res.ok c1) := by
  have hl := bookmarkList_sorted c key hs
  obtain ⟨s1, s2, s3⟩ := SearchInts_spec (bookmarkList c key) c.index hl
  unfold ClearBookmark
  simp only [bind, Res.bind, pure]
  by_cases hlt : SearchInts (bookmarkList c key) c.index < (bookmarkList c key).length
  · rw [sliceIndex_nat _ _ hlt]
    simp only
    by_cases hv : (bookmarkList c key).getD (SearchInts (bookmarkList c key) c.index) 0 = c.index
    · rw [if_pos hv]
      unfold slicesDelete
      rw [if_pos ⟨by omega, by omega⟩]
      simp only
      refine ⟨?_, fun _ => ⟨_, rfl⟩⟩
      intro c1 h1
      cases h1
      apply storeBookmarks_sorted c key _ hs
      rw [← List.eraseIdx_eq_take_drop_succ]
      exact hl.sublist (List.eraseIdx_sublist _ _)
    · rw [if_neg hv]
      refine ⟨?_, fun _ => ⟨_, rfl⟩⟩
      intro c1 h1
      cases h1
      exact storeBookmarks_sorted c key _ hs hl
  · rw [sliceIndex_panic _ _ (by omega)]
    simp only
    constructor
    · intro c1 h1; cases h1
    · rintro ⟨b, hb, hbx⟩
      obtain ⟨n, hn, hx⟩ := List.mem_iff_getElem.1 hb
      have := s2 n (by omega)
      rw [List.getD_eq_getElem _ _ hn, hx] at this
      omega

theorem updateBookmarks_sorted (c : Cursor K) (p off : Int) (ho : 0 < off)
    (hs : BookmarksSorted c) : BookmarksSorted (updateBookmarks c p off) := by
  intro e he
  simp only [updateBookmarks, List.mem_map] at he
  obtain ⟨e0, he0, rfl⟩ := he
  simp only
  refine List.Pairwise.map _ ?_ (hs e0 he0)
  intro a b hab
  simp only [ge_iff_le]
  split <;> split <;> omega

/-! ### Claims on bookmarks, navigation and serialization -/

theorem rebaseAll_eq_update (c : Cursor K) (p off : Int) :
    rebaseAll p off c.document.Bookmarks = (updateBookmarks c p off).document.Bookmarks := rfl

/-- C5: when every index list of the registry is strictly ascending, it is
so again after `SetBookmark`, after `ClearBookmark` and after the rebasing of
an insertion; after `SetBookmark` the list of the key holds the cursor index
exactly once, and a second `SetBookmark` at the same position changes nothing. -/
theorem bookmark_registry_invariant [DecidableEq K] (c : Cursor K) (key : K)
    (hs : BookmarksSorted c) :
    (∃ c1, SetBookmark key c = Res.ok c1 ∧ BookmarksSorted c1 ∧
      (bookmarkList c1 key).count c.index = 1 ∧ SetBookmark key c1 = Res.ok c1) ∧
    (∀ c1, ClearBookmark key c = Res.ok c1 → BookmarksSorted c1) ∧
    ((∃ b ∈ bookmarkList c key, c.index ≤ b) → ∃ c1, ClearBookmark key c = Res.ok c1) ∧
    (∀ p off : Int, 0 < off → BookmarksSorted (updateBookmarks c p off)) ∧
    (∀ op : Insertion, 0 ≤ c.index → c.index < c.document.Tokens.length →
      ∃ c1, op.run c = Res.ok c1 ∧ BookmarksSorted c1) := by
  refine ⟨?_, (ClearBookmark_eq c key hs).1, (ClearBookmark_eq c key hs).2,
    fun p off ho => updateBookmarks_sorted c p off ho hs, ?_⟩
  · obtain ⟨l, h1, h2, h3, _⟩ := SetBookmark_eq c key hs
    have hs1 := storeBookmarks_sorted c key l hs h2
    refine ⟨_, h1, hs1, by rw [bookmarkList_store]; exact h3, ?_⟩
    obtain ⟨l2, g1, _, _, g4⟩ := SetBookmark_eq (storeBookmarks c key l) key hs1
    have hmem : (storeBookmarks c key l).index ∈ bookmarkList (storeBookmarks c key l) key := by
      rw [bookmarkList_store]
      show c.index ∈ l
      exact List.count_pos_iff.1 (by omega)
    rw [g1, g4 hmem, bookmarkList_store, storeBookmarks_twice]
  · intro op h0 h1
    obtain ⟨i, hrun, _, _⟩ := Insertion.run_eq op c h0 h1
    refine ⟨_, hrun, ?_⟩
    have hc : 0 < op.count := by cases op <;> simp [Insertion.count]
    exact updateBookmarks_sorted c c.index op.count hc hs

theorem bookmark_registry_invariant_witness :
    BookmarksSorted cursorAB ∧
    ∃ c1, SetBookmark "mark" cursorAB = Res.ok c1 ∧ BookmarksSorted c1 ∧
      (bookmarkList c1 "mark").count cursorAB.index = 1 ∧ SetBookmark "mark" c1 = Res.ok c1 :=
  ⟨by decide, (bookmark_registry_invariant cursorAB "mark" (by decide)).1⟩

/-- C6: on a start token at `i` that lies inside a parent element (the depth
before `i` is positive), with its matching end at `j`, a first start-or-end
token after `j` exists, at some `k`; `ToNextSibling` returns true with the
cursor on `k` when that token is a start, and false with the cursor left at
`i` when it is an end. So from the first of three children two calls reach the
third, and a third call returns false and stays there. -/
theorem ToNextSibling_traversal (c : Cursor K)
    (hn : NoSentinel c.document.Tokens) (hw : WellNested c.document.Tokens) :
    (∀ (i j : Nat) (t : Token), c.index = i → c.document.Tokens[i]? = some t →
      t.Typ = TokenType.Start → 0 < nesting (c.document.Tokens.take i) →
      IsMatchingEnd c.document.Tokens i j →
      ∃ k u, IsNextMarker c.document.Tokens j k ∧ c.document.Tokens[k]? = some u ∧
        ∀ fuel, c.document.Tokens.length ≤ fuel →
          ToNextSibling fuel c = Res.ok (if u.IsStart then (true, c.at k) else (false, c))) ∧
    (∀ (p c1 c2 c3 : Nat) (t : Token), c.document.Tokens[p]? = some t →
      t.Typ = TokenType.Start → children c.document.Tokens p = [c1, c2, c3] →
      ∀ fuel, c.document.Tokens.length ≤ fuel →
        ToNextSibling fuel (c.at c1) = Res.ok (true, c.at c2) ∧
        ToNextSibling fuel (c.at c2) = Res.ok (true, c.at c3) ∧
        ToNextSibling fuel (c.at c3) = Res.ok (false, c.at c3)) := by
  constructor
  · intro i j t hi ht hs hpar hj
    obtain ⟨m, rfl, hm⟩ := (isMatchingEnd_iff _ _ _).1 hj
    obtain ⟨m1, hm1, _, hd⟩ := start_closes _ i t hw ht hs
    have := closesAt_unique _ _ _ _ hm hm1
    subst this
    obtain ⟨q, u, hq, _⟩ := firstMarker_exists _ _ hd (by omega)
    obtain ⟨hk, hu⟩ := isNextMarker_of_firstMarker _ (i + 1 + m) q u hq
    refine ⟨i + 1 + m + 1 + q, u, hk, hu, ?_⟩
    intro fuel hf
    exact ToNextSibling_eq c i m q t u hn hi ht hs hm hq fuel hf
  · intro p c1 c2 c3 t ht hs hch fuel hf
    obtain ⟨h0, hd⟩ := start_inside _ p t hw ht hs
    have h1 : (1 : Int) ≤ nesting (c.document.Tokens.take p) + 1 := by omega
    unfold children at hch
    obtain ⟨k2, _, _, _, _, _, hd2, hc2, s1⟩ := sibling_step c (p + 1) _ c1 [c2, c3] hn hd h1 hch
    obtain ⟨k3, _, _, _, _, _, hd3, hc3, s2⟩ := sibling_step c k2 _ c2 [c3] hn hd2 h1 hc2
    obtain ⟨_, _, _, _, _, _, _, _, s3⟩ := sibling_step c k3 _ c3 [] hn hd3 h1 hc3
    exact ⟨s1 fuel hf, s2 fuel hf, s3 fuel hf⟩

theorem ToNextSibling_traversal_witness :
    (NoSentinel cursorThree.document.Tokens ∧ WellNested cursorThree.document.Tokens ∧
      children cursorThree.document.Tokens 0 = [1, 4, 6]) ∧
    (ToNextSibling 9 (cursorThree.at (1 : Nat)) = Res.ok (true, cursorThree.at (4 : Nat)) ∧
      ToNextSibling 9 (cursorThree.at (4 : Nat)) = Res.ok (true, cursorThree.at (6 : Nat)) ∧
      ToNextSibling 9 (cursorThree.at (6 : Nat)) = Res.ok (false, cursorThree.at (6 : Nat))) :=
  ⟨by decide, (ToNextSibling_traversal cursorThree (by decide) (by decide)).2 0 1 4 6
    (startToken ⟨"", "p"⟩) (by decide) (by decide) (by decide) 9 (by decide)⟩

/-- C7: on a start token at `i` of a well-nested sequence
`ToFirstChildByName(n)` returns true with the cursor on the first direct child
element named `n` when there is one, and false when no direct child element
carries the name; in the document of `TestCursor_MoveAround`, `ToFirstChild`
from `a` lands on `b` and `ToFirstChildByName(e)` then lands on the start
token of `e`. -/
theorem ToFirstChildByName_first_named_child (c : Cursor K) (i : Nat) (t : Token) (name : Name)
    (hn : NoSentinel c.document.Tokens) (hw : WellNested c.document.Tokens)
    (hi : c.index = i) (ht : c.document.Tokens[i]? = some t) (hs : t.Typ = TokenType.Start)
    (fuel : Nat) (hf : c.document.Tokens.length ≤ fuel) :
    (∀ k, IsChild c.document.Tokens i k → hasName c.document.Tokens name k = true →
      (∀ k1, k1 < k → IsChild c.document.Tokens i k1 →
        hasName c.document.Tokens name k1 = false) →
      ToFirstChildByName fuel name c = Res.ok (true, c.at k)) ∧
    ((∀ k, IsChild c.document.Tokens i k → hasName c.document.Tokens name k = false) →
      ∃ c1, ToFirstChildByName fuel name c = Res.ok (false, c1)) ∧
    (ToFirstChild 18 (ToStartDoc (NewCursor (⟨docMove, []⟩ : Document String)))
        = Res.ok (true, ⟨⟨docMove, []⟩, 2, []⟩) ∧
      tokenAt docMove 2 = startToken ⟨"", "b"⟩ ∧
      ToFirstChildByName 18 ⟨"", "e"⟩ (⟨⟨docMove, []⟩, 2, []⟩ : Cursor String)
        = Res.ok (true, ⟨⟨docMove, []⟩, 10, []⟩) ∧
      tokenAt docMove 10 = startToken ⟨"", "e"⟩ ∧
      scenarioMove = Res.ok (true, ⟨⟨docMove, []⟩, 10, []⟩)) := by
  have heq := ToFirstChildByName_eq c i t name hn hw hi ht hs fuel hf
  refine ⟨?_, ?_, by decide⟩
  · intro k hk hname hmin
    have hfind := find?_least (hasName c.document.Tokens name) _
      (children_sorted c.document.Tokens i) k ((mem_children_iff _ _ _).2 hk) hname
      (fun y hy hyk => hmin y hyk ((mem_children_iff _ _ _).1 hy))
    rw [heq, hfind]
  · intro hnone
    have hfind : (children c.document.Tokens i).find? (hasName c.document.Tokens name) = none := by
      rw [List.find?_eq_none]
      intro x hx
      rw [hnone x ((mem_children_iff _ _ _).1 hx)]
      simp
    rw [heq, hfind]
    exact ⟨_, rfl⟩

theorem ToFirstChildByName_first_named_child_witness :
    (NoSentinel cursorMove.document.Tokens ∧ WellNested cursorMove.document.Tokens ∧
      IsChild cursorMove.document.Tokens 2 10 ∧
      hasName cursorMove.document.Tokens ⟨"", "e"⟩ 10 = true ∧
      ∀ k1, k1 < 10 → IsChild cursorMove.document.Tokens 2 k1 →
        hasName cursorMove.document.Tokens ⟨"", "e"⟩ k1 = false) ∧
    ToFirstChildByName 18 ⟨"", "e"⟩ cursorMove = Res.ok (true, cursorMove.at (10 : Nat)) :=
  ⟨by decide, (ToFirstChildByName_first_named_child cursorMove 2 (startToken ⟨"", "b"⟩)
    ⟨"", "e"⟩ (by decide) (by decide) (by decide) (by decide) (by decide) 18 (by decide)).1 10
    (by decide) (by decide) (by decide)⟩

/-- C8: on a start token at `i` of a well-nested sequence, with its matching
end at `j` (the index `ToEndToken` reaches), `Xml` hands to the encoder the
tokens at `i, i+1, ..., j`, each once and in order, and nothing after `j`; in
the scenario of `TestParseXmlAndInsert` the text is `<a><b><c></c></b></a>`. -/
theorem Xml_encodes_element (c : Cursor K) (i : Nat) (t : Token)
    (hn : NoSentinel c.document.Tokens) (hw : WellNested c.document.Tokens)
    (hi : c.index = i) (ht : c.document.Tokens[i]? = some t) (hs : t.Typ = TokenType.Start) :
    (∃ j, IsMatchingEnd c.document.Tokens i j ∧
      ∀ fuel, c.document.Tokens.length ≤ fuel →
        (∃ e, ToEndToken fuel c = Res.ok (e, c.at j)) ∧
        ∀ (σ : Type) (enc : Encoder σ), ∃ c1, Xml enc fuel c = Res.ok
          (enc.String (encodeAll enc enc.NewEncoder (tokenRange c.document.Tokens i j)), c1)) ∧
    scenarioInsert = Res.ok ("<a><b><c></c></b></a>",
      ⟨⟨[startToken ⟨"", "a"⟩, startToken ⟨"", "b"⟩, startToken ⟨"", "c"⟩,
         endToken ⟨"", "c"⟩, endToken ⟨"", "b"⟩, endToken ⟨"", "a"⟩], []⟩, 5, []⟩) := by
  refine ⟨?_, by decide⟩
  obtain ⟨m, hm, _, _⟩ := start_closes _ i t hw ht hs
  have hml : m < c.document.Tokens.length := by
    have := hm.1
    simp only [List.length_drop] at this
    omega
  refine ⟨i + 1 + m, (isMatchingEnd_iff _ _ _).2 ⟨m, rfl, hm⟩, ?_⟩
  intro fuel hf
  obtain ⟨e, _, _, he⟩ := ToEndToken_eq c i m t hn hi ht hs hm fuel (by omega)
  exact ⟨⟨e, he⟩, fun σ enc => ⟨_, Xml_eq enc c i m t hn hi ht hm fuel (by omega)⟩⟩

theorem Xml_encodes_element_witness :
    (NoSentinel cursorMove.document.Tokens ∧ WellNested cursorMove.document.Tokens) ∧
    ∃ j, IsMatchingEnd cursorMove.document.Tokens 2 j ∧
      ∀ fuel, cursorMove.document.Tokens.length ≤ fuel →
        (∃ e, ToEndToken fuel cursorMove = Res.ok (e, cursorMove.at j)) ∧
        ∀ (σ : Type) (enc : Encoder σ), ∃ c1, Xml enc fuel cursorMove = Res.ok
          (enc.String (encodeAll enc enc.NewEncoder
            (tokenRange cursorMove.document.Tokens 2 j)), c1) :=
  ⟨by decide, (Xml_encodes_element cursorMove 2 (startToken ⟨"", "b"⟩)
    (by decide) (by decide) (by decide) (by decide) (by decide)).1⟩

/-- C9, the code at the failing input: in `<a><b></b></a>`, from the start
token of `a`, `ToFirstChildByName(z)` returns false and leaves the cursor on
the start token of `b`, not on the index it was called at. -/
theorem ToFirstChildByName_miss_moves_cursor :
    ToFirstChildByName 4 ⟨"", "z"⟩ (⟨⟨docAB, []⟩, 0, []⟩ : Cursor String)
      = Res.ok (false, ⟨⟨docAB, []⟩, 1, []⟩) := by
  decide

/-- C10, the code at the failing input: in `<a>x</a>`, from the text token
at index 1, `ToStartToken` returns the start token of `a` with the position
stack as before, and leaves the cursor at index 0, not at index 1. -/
theorem ToStartToken_moves_cursor :
    ToStartToken 2 (⟨⟨docText, []⟩, 1, [7]⟩ : Cursor String)
      = Res.ok (startToken ⟨"", "a"⟩, ⟨⟨docText, []⟩, 0, [7]⟩) := by
  decide

/-! ### Claims on frame effects, failures and termination -/

/-- C11, the code at the failing input: in `<a><b></b></a>`, from the start
token of `a` at index 0, `Xml` returns the text of the element and leaves the
cursor at index 3, on the matching end token, not at index 0. -/
theorem Xml_moves_cursor :
    Xml plainEncoder 4 (⟨⟨docAB, []⟩, 0, []⟩ : Cursor String)
      = Res.ok ("<a><b></b></a>", ⟨⟨docAB, []⟩, 3, []⟩) := by
  decide

/-- C13, the code at the failing input: on an empty document `ToStartDoc`
sets the index to 0, which is `len(tokens)`, and `CurrentToken` then panics;
so it does after `InsertElementWithText` from there, at index 3 of 3 tokens. -/
theorem CurrentToken_panics_at_length :
    CurrentToken (ToStartDoc (NewCursor (⟨[], []⟩ : Document String))) = Res.panic ∧
    (InsertElementWithText ⟨"", "c"⟩ "t" (ToStartDoc (NewCursor (⟨[], []⟩ : Document String)))
        = Res.ok ⟨⟨[startToken ⟨"", "c"⟩, textToken "t", endToken ⟨"", "c"⟩], []⟩, 3, []⟩ ∧
      CurrentToken (⟨⟨[startToken ⟨"", "c"⟩, textToken "t", endToken ⟨"", "c"⟩], []⟩, 3, []⟩ :
        Cursor String) = Res.panic) := by
  decide

/-- C14, the code at the failing input: `ClearBookmark` panics for a key
that has no list, and for a list whose indices are all below the cursor
index. -/
theorem ClearBookmark_panics :
    ClearBookmark "k" (⟨⟨docAB, []⟩, 1, []⟩ : Cursor String) = Res.panic ∧
    ClearBookmark "mark" (⟨⟨docAB, [("mark", [1, 2])]⟩, 3, []⟩ : Cursor String) = Res.panic := by
  decide

/-- C16, the code at the failing input: on a new cursor, whose index is
-1, `ToEndToken` panics, whatever the fuel. -/
theorem ToEndToken_panics_on_new_cursor :
    ∀ fuel : Nat, ToEndToken fuel (NewCursor (⟨docAB, []⟩ : Document String)) = Res.panic := by
  intro fuel
  rfl

/-- C12 as stated fails: in `<a><b></b></a>` with the cursor at index 2,
`BeginElement(c)` returns with the cursor at index 3, where `CurrentToken` is
the new end token; the index is not 2 and the current token is not the new
start token. -/
theorem BeginElement_not_on_start :
    ¬ ∃ c1, BeginElement ⟨"", "c"⟩ cursorAB = Res.ok c1 ∧ c1.index = cursorAB.index ∧
      CurrentToken c1 = Res.ok (startToken ⟨"", "c"⟩) := by
  rintro ⟨c1, h, hi, _⟩
  have he : BeginElement ⟨"", "c"⟩ cursorAB = Res.ok
      ⟨⟨[startToken ⟨"", "a"⟩, startToken ⟨"", "b"⟩, startToken ⟨"", "c"⟩,
         endToken ⟨"", "c"⟩, endToken ⟨"", "b"⟩, endToken ⟨"", "a"⟩], [("mark", [1, 4])]⟩,
        3, []⟩ := by decide
  rw [he] at h
  cases h
  revert hi
  decide

theorem splice_getElem_new (ts : List Token) (p k : Nat) (new : List Token) (t : Token)
    (hp : p ≤ ts.length) (hk : new[k]? = some t) :
    (splice ts (p : Int) new)[p + k]? = some t := by
  unfold splice
  simp only [Int.toNat_ofNat, List.append_assoc]
  have hl : (ts.take p).length = p := by simp [hp]
  have hkl := (List.getElem?_eq_some.1 hk).1
  rw [List.getElem?_append_right (by omega), hl, List.getElem?_append_left (by omega)]
  have e : p + k - p = k := by omega
  rw [e]; exact hk

/-- C12 as amended: with the cursor at an index `p` inside the sequence,
`BeginElement(name)` writes the new start token at `p` and leaves the cursor
on the new end token: its index is `p + 1` and `CurrentToken` is the end token
named `name`, so that a following insertion lands between the two. -/
theorem BeginElement_cursor_on_new_end (c : Cursor K) (name : Name)
    (h0 : 0 ≤ c.index) (h1 : c.index < c.document.Tokens.length) :
    ∃ c1, BeginElement name c = Res.ok c1 ∧ c1.index = c.index + 1 ∧
      sliceIndex c1.document.Tokens c.index
        = Res.ok ⟨XmlToken.StartElement name [], TokenType.Start⟩ ∧
      CurrentToken c1 = Res.ok ⟨XmlToken.EndElement name, TokenType.End⟩ := by
  refine ⟨_, BeginElement_eq name c h0 (le_of_lt h1), rfl, ?_, ?_⟩
  · obtain ⟨p, hp⟩ := Int.eq_ofNat_of_zero_le h0
    simp only
    rw [hp]
    apply sliceIndex_eq_ok
    have := splice_getElem_new c.document.Tokens p 0 [startToken name, endToken name]
      (startToken name) (by omega) rfl
    simpa using this
  · obtain ⟨p, hp⟩ := Int.eq_ofNat_of_zero_le h0
    apply CurrentToken_at _ (p + 1) _ (by simp only; rw [hp]; push_cast; rfl)
    simp only
    rw [hp]
    exact splice_getElem_new c.document.Tokens p 1 [startToken name, endToken name]
      (endToken name) (by omega) rfl

theorem BeginElement_cursor_on_new_end_witness :
    (0 ≤ cursorAB.index ∧ cursorAB.index < cursorAB.document.Tokens.length) ∧
    ∃ c1, BeginElement ⟨"", "c"⟩ cursorAB = Res.ok c1 ∧ c1.index = cursorAB.index + 1 ∧
      sliceIndex c1.document.Tokens cursorAB.index
        = Res.ok ⟨XmlToken.StartElement ⟨"", "c"⟩ [], TokenType.Start⟩ ∧
      CurrentToken c1 = Res.ok ⟨XmlToken.EndElement ⟨"", "c"⟩, TokenType.End⟩ :=
  ⟨by decide, BeginElement_cursor_on_new_end cursorAB ⟨"", "c"⟩ (by decide) (by decide)⟩

/-- C19: with the index in `[-1, len - 1]`, `ToNextToken` moves to
`index + 1` and returns the token there when `index + 1 < len`, and otherwise
returns the sentinel with the cursor as it was; `ToPreviousToken` moves to
`index - 1` and returns the token there when `index - 1 >= 0`, and otherwise
returns the sentinel with the cursor as it was. Either way the index stays in
`[-1, len - 1]` and the document is the same. -/
theorem token_steps (c : Cursor K)
    (h0 : -1 ≤ c.index) (h1 : c.index ≤ (c.document.Tokens.length : Int) - 1) :
    (c.index + 1 < c.document.Tokens.length →
      ∃ t, c.document.Tokens[(c.index + 1).toNat]? = some t ∧
        ToNextToken c = Res.ok (t, c.at (c.index + 1))) ∧
    (¬ c.index + 1 < c.document.Tokens.length → ToNextToken c = Res.ok (noneToken, c)) ∧
    (0 ≤ c.index - 1 →
      ∃ t, c.document.Tokens[(c.index - 1).toNat]? = some t ∧
        ToPreviousToken c = Res.ok (t, c.at (c.index - 1))) ∧
    (¬ 0 ≤ c.index - 1 → ToPreviousToken c = Res.ok (noneToken, c)) ∧
    (∀ r, ToNextToken c = Res.ok r ∨ ToPreviousToken c = Res.ok r →
      -1 ≤ r.2.index ∧ r.2.index ≤ (r.2.document.Tokens.length : Int) - 1 ∧
        r.2.document = c.document) := by
  have hnext : c.index + 1 < c.document.Tokens.length →
      ∃ t, c.document.Tokens[(c.index + 1).toNat]? = some t ∧
        ToNextToken c = Res.ok (t, c.at (c.index + 1)) := by
    intro h
    have hl : (c.index + 1).toNat < c.document.Tokens.length := by omega
    exact ⟨_, List.getElem?_eq_getElem hl,
      ToNextToken_in c _ (by omega) (List.getElem?_eq_getElem hl)⟩
  have hnext2 : ¬ c.index + 1 < c.document.Tokens.length →
      ToNextToken c = Res.ok (noneToken, c) := by
    intro h
    unfold ToNextToken
    simp only
    rw [if_pos (by omega)]
    have e : c.index + 1 - 1 = c.index := by omega
    rw [e]
  have hprev : 0 ≤ c.index - 1 →
      ∃ t, c.document.Tokens[(c.index - 1).toNat]? = some t ∧
        ToPreviousToken c = Res.ok (t, c.at (c.index - 1)) := by
    intro h
    have hl : (c.index - 1).toNat < c.document.Tokens.length := by omega
    refine ⟨_, List.getElem?_eq_getElem hl, ?_⟩
    unfold ToPreviousToken
    simp only
    rw [if_neg (by omega)]
    unfold sliceIndex
    rw [if_pos (by omega), List.getElem?_eq_getElem hl]
    rfl
  have hprev2 : ¬ 0 ≤ c.index - 1 → ToPreviousToken c = Res.ok (noneToken, c) := by
    intro h
    unfold ToPreviousToken
    simp only
    rw [if_pos (by omega)]
    have e : c.index - 1 + 1 = c.index := by omega
    rw [e]
  refine ⟨hnext, hnext2, hprev, hprev2, ?_⟩
  rintro r (hr | hr)
  · by_cases h : c.index + 1 < c.document.Tokens.length
    · obtain ⟨t, _, ht⟩ := hnext h
      rw [ht] at hr; cases hr
      exact ⟨by show -1 ≤ c.index + 1; omega,
        by show c.index + 1 ≤ (c.document.Tokens.length : Int) - 1; omega, rfl⟩
    · rw [hnext2 h] at hr; cases hr
      exact ⟨h0, h1, rfl⟩
  · by_cases h : 0 ≤ c.index - 1
    · obtain ⟨t, _, ht⟩ := hprev h
      rw [ht] at hr; cases hr
      exact ⟨by show -1 ≤ c.index - 1; omega,
        by show c.index - 1 ≤ (c.document.Tokens.length : Int) - 1; omega, rfl⟩
    · rw [hprev2 h] at hr; cases hr
      exact ⟨h0, h1, rfl⟩

theorem token_steps_witness :
    (-1 ≤ cursorAB.index ∧ cursorAB.index ≤ (cursorAB.document.Tokens.length : Int) - 1) ∧
    (∃ t, cursorAB.document.Tokens[(cursorAB.index + 1).toNat]? = some t ∧
      ToNextToken cursorAB = Res.ok (t, cursorAB.at (cursorAB.index + 1))) :=
  ⟨by decide, (token_steps cursorAB (by decide) (by decide)).1 (by decide)⟩

theorem ToNextBookmark_scan_found (c : Cursor K) (l : List Int) (m : Int)
    (hs : l.Pairwise (· ≤ ·)) (hm : m ∈ l) (hgt : c.index < m)
    (hmin : ∀ b ∈ l, c.index < b → m ≤ b) :
    ToNextBookmark.scan c l = (true, c.at m) := by
  induction l with
  | nil => cases hm
  | cons v r ih =>
    obtain ⟨hv, hr⟩ := List.pairwise_cons.1 hs
    rw [ToNextBookmark.scan]
    by_cases hvi : v > c.index
    · rw [if_pos hvi]
      have h1 : m ≤ v := hmin v (List.mem_cons_self _ _) hvi
      have h2 : v ≤ m := by
        rcases List.mem_cons.1 hm with h | h
        · rw [h]
        · exact hv m h
      have : v = m := le_antisymm h2 h1
      rw [this]; rfl
    · rw [if_neg hvi]
      have hmr : m ∈ r := by
        rcases List.mem_cons.1 hm with h | h
        · rw [h] at hgt; exact absurd hgt hvi
        · exact h
      exact ih hr hmr (fun b hb => hmin b (List.mem_cons_of_mem _ hb))

theorem ToNextBookmark_scan_none (c : Cursor K) (l : List Int)
    (h : ∀ b ∈ l, b ≤ c.index) : ToNextBookmark.scan c l = (false, c) := by
  induction l with
  | nil => rfl
  | cons v r ih =>
    rw [ToNextBookmark.scan, if_neg (by have := h v (List.mem_cons_self _ _); omega)]
    exact ih (fun b hb => h b (List.mem_cons_of_mem _ hb))

/-- C18: for a key whose index list is ascending, `ToFirstBookmark` moves
to the least stored index and returns true, and returns false without moving
when the key has no list or an empty one; `ToNextBookmark` moves to the least
stored index above the cursor index and returns true, and returns false
without moving when no stored index is above it. -/
theorem bookmark_navigation [DecidableEq K] (c : Cursor K) (key : K)
    (hsorted : (bookmarkList c key).Pairwise (· ≤ ·)) :
    (∀ l, mapGet c.document.Bookmarks key = some l → l ≠ [] →
      ∃ m, m ∈ l ∧ (∀ b ∈ l, m ≤ b) ∧ ToFirstBookmark key c = (true, c.at m)) ∧
    ((mapGet c.document.Bookmarks key = none ∨ mapGet c.document.Bookmarks key = some []) →
      ToFirstBookmark key c = (false, c)) ∧
    (∀ l m, mapGet c.document.Bookmarks key = some l → m ∈ l → c.index < m →
      (∀ b ∈ l, c.index < b → m ≤ b) → ToNextBookmark key c = (true, c.at m)) ∧
    ((∀ l, mapGet c.document.Bookmarks key = some l → ∀ b ∈ l, b ≤ c.index) →
      ToNextBookmark key c = (false, c)) := by
  have hs : ∀ l, mapGet c.document.Bookmarks key = some l → l.Pairwise (· ≤ ·) := by
    intro l hl
    unfold bookmarkList at hsorted
    rw [hl] at hsorted
    exact hsorted
  refine ⟨?_, ?_, ?_, ?_⟩
  · intro l hl hne
    cases l with
    | nil => exact absurd rfl hne
    | cons v r =>
      obtain ⟨hv, _⟩ := List.pairwise_cons.1 (hs _ hl)
      refine ⟨v, List.mem_cons_self _ _, ?_, ?_⟩
      · intro b hb
        rcases List.mem_cons.1 hb with h | h
        · rw [h]
        · exact hv b h
      · unfold ToFirstBookmark
        rw [hl]
        rfl
  · rintro (h | h) <;> (unfold ToFirstBookmark; rw [h])
  · intro l m hl hm hgt hmin
    unfold ToNextBookmark
    rw [hl]
    exact ToNextBookmark_scan_found c l m (hs _ hl) hm hgt hmin
  · intro h
    unfold ToNextBookmark
    cases hl : mapGet c.document.Bookmarks key with
    | none => rfl
    | some l => exact ToNextBookmark_scan_none c l (h l hl)

theorem bookmark_navigation_witness :
    (bookmarkList cursorAB "mark").Pairwise (· ≤ ·) ∧
    (∃ m, m ∈ [(1 : Int), 2] ∧ (∀ b ∈ [(1 : Int), 2], m ≤ b) ∧
      ToFirstBookmark "mark" cursorAB = (true, cursorAB.at m)) :=
  ⟨by decide,
   (bookmark_navigation cursorAB "mark" (by decide)).1 [1, 2] rfl (by decide)⟩

theorem SameFrame.refl (c : Cursor K) : SameFrame c c := ⟨rfl, rfl⟩

theorem SameFrame.trans {a b c : Cursor K} (h1 : SameFrame a b) (h2 : SameFrame b c) :
    SameFrame a c := ⟨h2.1.trans h1.1, h2.2.trans h1.2⟩

theorem SameFrame.at_eq {c c1 : Cursor K} (h : SameFrame c c1) :
    ({ c1 with index := c.index } : Cursor K) = c := by
  obtain ⟨h1, h2⟩ := h
  cases c; cases c1
  simp only at h1 h2
  subst h1 h2
  rfl

theorem ToNextToken_frame (c : Cursor K) (r : Token × Cursor K)
    (h : ToNextToken c = Res.ok r) : SameFrame c r.2 := by
  obtain ⟨h1, h2, _⟩ := ToNextToken_document c r h
  exact ⟨h1, h2⟩

theorem ToEndToken_loop_frame : ∀ (fuel : Nat) (c : Cursor K) (L : Int) (r : Token × Cursor K),
    ToEndToken.loop fuel c L = Res.ok r → SameFrame c r.2 := by
  intro fuel
  induction fuel with
  | zero => intro c L r h; simp [ToEndToken.loop] at h
  | succ n ih =>
    intro c L r h
    rw [ToEndToken.loop] at h
    cases hn : ToNextToken c with
    | panic => rw [hn] at h; cases h
    | fuel => rw [hn] at h; cases h
    | ok x =>
      obtain ⟨nt, c2⟩ := x
      have hf := ToNextToken_frame c _ hn
      rw [hn] at h
      simp only at h
      cases hT : nt.Typ <;> rw [hT] at h <;> simp only at h
      · exact hf.trans (ih _ _ _ h)
      · split at h
        · cases h; exact hf
        · exact hf.trans (ih _ _ _ h)
      · exact hf.trans (ih _ _ _ h)
      · exact hf.trans (ih _ _ _ h)
      · exact hf.trans (ih _ _ _ h)
      · exact hf.trans (ih _ _ _ h)
      · cases h; exact hf

theorem ToEndToken_frame (fuel : Nat) (c : Cursor K) (r : Token × Cursor K)
    (h : ToEndToken fuel c = Res.ok r) : SameFrame c r.2 := by
  unfold ToEndToken at h
  simp only [bind, Res.bind, pure] at h
  cases hs : sliceIndex c.document.Tokens c.index with
  | panic => rw [hs] at h; cases h
  | fuel => rw [hs] at h; cases h
  | ok t =>
    rw [hs] at h
    simp only at h
    split at h
    · cases h; exact SameFrame.refl c
    · exact ToEndToken_loop_frame _ _ _ _ h

theorem ToNextSibling_loop_frame : ∀ (fuel : Nat) (c c1 : Cursor K),
    ToNextSibling.loop fuel c = Res.ok c1 →
    SameFrame c c1 ∧ ∃ t, CurrentToken c1 = Res.ok t ∧ (t.IsStart = true ∨ t.IsEnd = true) := by
  intro fuel
  induction fuel with
  | zero => intro c c1 h; simp [ToNextSibling.loop] at h
  | succ n ih =>
    intro c c1 h
    rw [ToNextSibling.loop] at h
    cases hc : CurrentToken c with
    | panic => rw [hc] at h; cases h
    | fuel => rw [hc] at h; cases h
    | ok t =>
      rw [hc] at h
      simp only at h
      split at h
      · cases hn : ToNextToken c with
        | panic => rw [hn] at h; cases h
        | fuel => rw [hn] at h; cases h
        | ok x =>
          rw [hn] at h
          simp only at h
          obtain ⟨h1, h2⟩ := ih _ _ h
          exact ⟨(ToNextToken_frame c _ hn).trans h1, h2⟩
      · rename_i hcond
        cases h
        refine ⟨SameFrame.refl c, t, hc, ?_⟩
        cases hs : t.IsStart <;> cases he : t.IsEnd <;> simp_all

theorem ToFirstChild_loop_frame : ∀ (fuel : Nat) (c c1 : Cursor K),
    ToFirstChild.loop fuel c = Res.ok c1 → SameFrame c c1 := by
  intro fuel
  induction fuel with
  | zero => intro c c1 h; simp [ToFirstChild.loop] at h
  | succ n ih =>
    intro c c1 h
    rw [ToFirstChild.loop] at h
    cases hc : CurrentToken c with
    | panic => rw [hc] at h; cases h
    | fuel => rw [hc] at h; cases h
    | ok t =>
      rw [hc] at h
      simp only at h
      split at h
      · cases hn : ToNextToken c with
        | panic => rw [hn] at h; cases h
        | fuel => rw [hn] at h; cases h
        | ok x =>
          rw [hn] at h
          simp only at h
          exact (ToNextToken_frame c _ hn).trans (ih _ _ h)
      · cases h
        exact SameFrame.refl c

/-- What a returning `ToNextSibling` leaves: the cursor as it was on false, a start token
under the cursor on true. -/
theorem ToNextSibling_result (fuel : Nat) (c : Cursor K) (b : Bool) (c1 : Cursor K)
    (h : ToNextSibling fuel c = Res.ok (b, c1)) :
    SameFrame c c1 ∧ (b = false → c1 = c) ∧
      (b = true → ∃ t, CurrentToken c1 = Res.ok t ∧ t.Typ = TokenType.Start) := by
  unfold ToNextSibling at h
  simp only [bind, Res.bind, pure] at h
  cases hc : CurrentToken c with
  | panic => rw [hc] at h; cases h
  | fuel => rw [hc] at h; cases h
  | ok t =>
    rw [hc] at h
    simp only at h
    split at h
    · cases h
      exact ⟨SameFrame.refl c, fun _ => rfl, fun hb => absurd hb (by decide)⟩
    · cases he : ToEndToken fuel c with
      | panic => rw [he] at h; cases h
      | fuel => rw [he] at h; cases h
      | ok r1 =>
        rw [he] at h
        simp only at h
        cases hn : ToNextToken r1.2 with
        | panic => rw [hn] at h; cases h
        | fuel => rw [hn] at h; cases h
        | ok r2 =>
          rw [hn] at h
          simp only at h
          cases hl : ToNextSibling.loop fuel r2.2 with
          | panic => rw [hl] at h; cases h
          | fuel => rw [hl] at h; cases h
          | ok c3 =>
            rw [hl] at h
            simp only at h
            obtain ⟨hf3, u, hu, hse⟩ := ToNextSibling_loop_frame _ _ _ hl
            have hf : SameFrame c c3 :=
              ((ToEndToken_frame _ _ _ he).trans (ToNextToken_frame _ _ hn)).trans hf3
            rw [hu] at h
            simp only at h
            split at h
            · cases h
              have := hf.at_eq
              exact ⟨⟨hf.1, hf.2⟩, fun _ => this, fun hb => absurd hb (by decide)⟩
            · rename_i hcond
              cases h
              refine ⟨hf, fun hb => absurd hb (by decide), fun _ => ⟨u, hu, ?_⟩⟩
              rcases hse with hs | hs
              · simpa [Token.IsStart] using hs
              · simp [hs] at hcond

theorem ToNextSiblingByName_loop_result (inner : Nat) (name : Name) (idx : Int) :
    ∀ (n : Nat) (c : Cursor K) (b : Bool) (c1 : Cursor K),
    ToNextSiblingByName.loop inner name idx n c = Res.ok (b, c1) →
    SameFrame c c1 ∧ (b = false → c1.index = idx) ∧
      (b = true → ∃ t, CurrentToken c1 = Res.ok t ∧ t.Typ = TokenType.Start) := by
  intro n
  induction n with
  | zero => intro c b c1 h; simp [ToNextSiblingByName.loop] at h
  | succ n ih =>
    intro c b c1 h
    rw [ToNextSiblingByName.loop] at h
    cases hs : ToNextSibling inner c with
    | panic => rw [hs] at h; cases h
    | fuel => rw [hs] at h; cases h
    | ok r =>
      obtain ⟨b2, c2⟩ := r
      obtain ⟨hf2, _, ht2⟩ := ToNextSibling_result inner c b2 c2 hs
      rw [hs] at h
      simp only at h
      split at h
      · cases h
        exact ⟨⟨hf2.1, hf2.2⟩, fun _ => rfl, fun hb => absurd hb (by decide)⟩
      · rename_i hb2
        have hb2t : b2 = true := by simpa using hb2
        cases hc : CurrentToken c2 with
        | panic => rw [hc] at h; cases h
        | fuel => rw [hc] at h; cases h
        | ok t =>
          rw [hc] at h
          simp only at h
          split at h
          · cases h
            exact ⟨hf2, fun hb => absurd hb (by decide), fun _ => ht2 hb2t⟩
          · obtain ⟨h1, h2, h3⟩ := ih _ _ _ h
            exact ⟨hf2.trans h1, h2, h3⟩

theorem cursor_eq_of_frame (c c1 : Cursor K) (hf : SameFrame c c1) (hi : c1.index = c.index) :
    c1 = c := by
  obtain ⟨h1, h2⟩ := hf
  cases c; cases c1
  simp only at h1 h2 hi
  subst h1 h2 hi
  rfl

theorem ToFirstChild_result (fuel : Nat) (c : Cursor K) (b : Bool) (c1 : Cursor K)
    (h : ToFirstChild fuel c = Res.ok (b, c1)) :
    SameFrame c c1 ∧ (b = false → c1 = c) ∧
      (b = true → ∃ t, CurrentToken c1 = Res.ok t ∧ t.Typ = TokenType.Start) := by
  unfold ToFirstChild at h
  simp only [bind, Res.bind, pure] at h
  cases hn : ToNextToken c with
  | panic => rw [hn] at h; cases h
  | fuel => rw [hn] at h; cases h
  | ok r =>
    rw [hn] at h
    simp only at h
    cases hl : ToFirstChild.loop fuel r.2 with
    | panic => rw [hl] at h; cases h
    | fuel => rw [hl] at h; cases h
    | ok c3 =>
      rw [hl] at h
      simp only at h
      have hf : SameFrame c c3 := (ToNextToken_frame _ _ hn).trans (ToFirstChild_loop_frame _ _ _ hl)
      cases hc : CurrentToken c3 with
      | panic => rw [hc] at h; cases h
      | fuel => rw [hc] at h; cases h
      | ok u =>
        rw [hc] at h
        simp only at h
        split at h
        · cases h
          exact ⟨⟨hf.1, hf.2⟩, fun _ => hf.at_eq, fun hb => absurd hb (by decide)⟩
        · rename_i hcond
          cases h
          exact ⟨hf, fun hb => absurd hb (by decide),
            fun _ => ⟨u, hc, by simpa [Token.IsStart] using hcond⟩⟩

/-- C17: whenever `ToNextSibling`, `ToNextSiblingByName` or `ToFirstChild`
returns false the cursor is as before the call (same index, same tokens, same
bookmarks); whenever one of them returns true the document is the same and
the cursor is on a start token. -/
theorem navigation_miss_restores (c : Cursor K) (fuel : Nat) (name : Name) (b : Bool)
    (c1 : Cursor K)
    (h : ToNextSibling fuel c = Res.ok (b, c1) ∨
      ToNextSiblingByName fuel name c = Res.ok (b, c1) ∨
      ToFirstChild fuel c = Res.ok (b, c1)) :
    (b = false → c1 = c) ∧
    (b = true → c1.document = c.document ∧
      ∃ t, CurrentToken c1 = Res.ok t ∧ t.Typ = TokenType.Start) := by
  rcases h with h | h | h
  · obtain ⟨hf, h1, h2⟩ := ToNextSibling_result fuel c b c1 h
    exact ⟨h1, fun hb => ⟨hf.1, h2 hb⟩⟩
  · obtain ⟨hf, h1, h2⟩ := ToNextSiblingByName_loop_result fuel name c.index fuel c b c1 h
    exact ⟨fun hb => cursor_eq_of_frame c c1 hf (h1 hb), fun hb => ⟨hf.1, h2 hb⟩⟩
  · obtain ⟨hf, h1, h2⟩ := ToFirstChild_result fuel c b c1 h
    exact ⟨h1, fun hb => ⟨hf.1, h2 hb⟩⟩

theorem navigation_miss_restores_witness :
    (ToNextSibling 9 (cursorThree.at 6) = Res.ok (false, cursorThree.at 6)) ∧
    ((false = false → cursorThree.at 6 = cursorThree.at 6) ∧
      (false = true → (cursorThree.at 6).document = (cursorThree.at 6).document ∧
        ∃ t, CurrentToken (cursorThree.at 6) = Res.ok t ∧ t.Typ = TokenType.Start)) :=
  ⟨by decide, navigation_miss_restores (cursorThree.at 6) 9 ⟨"", "y"⟩ false (cursorThree.at 6)
    (Or.inl (by decide))⟩

theorem ToNextSibling_loop_trailing :
    ∀ n : Nat, ToNextSibling.loop n (⟨⟨docTrailing, []⟩, 2, []⟩ : Cursor String) = Res.fuel := by
  intro n
  induction n with
  | zero => rfl
  | succ n ih =>
    have hc : CurrentToken (⟨⟨docTrailing, []⟩, 2, []⟩ : Cursor String)
        = Res.ok (textToken "\n") := by decide
    have hn : ToNextToken (⟨⟨docTrailing, []⟩, 2, []⟩ : Cursor String)
        = Res.ok (noneToken, ⟨⟨docTrailing, []⟩, 2, []⟩) := by decide
    have hb : (!(textToken "\n").IsStart && !(textToken "\n").IsEnd) = true := by decide
    rw [ToNextSibling.loop, hc]
    simp only [hb, ↓reduceIte, hn]
    exact ih

theorem ToFirstChild_loop_trailing :
    ∀ n : Nat, ToFirstChild.loop n (⟨⟨docTrailing, []⟩, 2, []⟩ : Cursor String) = Res.fuel := by
  intro n
  induction n with
  | zero => rfl
  | succ n ih =>
    have hc : CurrentToken (⟨⟨docTrailing, []⟩, 2, []⟩ : Cursor String)
        = Res.ok (textToken "\n") := by decide
    have hn : ToNextToken (⟨⟨docTrailing, []⟩, 2, []⟩ : Cursor String)
        = Res.ok (noneToken, ⟨⟨docTrailing, []⟩, 2, []⟩) := by decide
    have hb : (!(textToken "\n").IsNone && !(textToken "\n").IsEnd
        && !(textToken "\n").IsStart) = true := by decide
    rw [ToFirstChild.loop, hc]
    simp only [hb, ↓reduceIte, hn]
    exact ih

/-- C15, the code at the failing input: in `<a></a>` followed by a line
feed, `ToNextSibling` and `ToNextSiblingByName` called on the start token of
`a`, and `ToFirstChild` and `ToFirstChildByName` called on its end token, use
up every amount of fuel: once on the trailing text token the skipping loop
steps with `ToNextToken`, which stays there, and sees the same token again. -/
theorem sibling_and_child_scans_do_not_return :
    (∀ fuel : Nat, ToNextSibling fuel (⟨⟨docTrailing, []⟩, 0, []⟩ : Cursor String) = Res.fuel) ∧
    (∀ fuel : Nat, ToNextSiblingByName fuel ⟨"", "b"⟩
      (⟨⟨docTrailing, []⟩, 0, []⟩ : Cursor String) = Res.fuel) ∧
    (∀ fuel : Nat, ToFirstChild fuel (⟨⟨docTrailing, []⟩, 1, []⟩ : Cursor String) = Res.fuel) ∧
    (∀ fuel : Nat, ToFirstChildByName fuel ⟨"", "b"⟩
      (⟨⟨docTrailing, []⟩, 1, []⟩ : Cursor String) = Res.fuel) := by
  have hsib : ∀ fuel : Nat,
      ToNextSibling fuel (⟨⟨docTrailing, []⟩, 0, []⟩ : Cursor String) = Res.fuel := by
    intro fuel
    cases fuel with
    | zero => rfl
    | succ n =>
      have hc : CurrentToken (⟨⟨docTrailing, []⟩, 0, []⟩ : Cursor String)
          = Res.ok (startToken ⟨"", "a"⟩) := by decide
      have he : ToEndToken (n + 1) (⟨⟨docTrailing, []⟩, 0, []⟩ : Cursor String)
          = Res.ok (endToken ⟨"", "a"⟩, ⟨⟨docTrailing, []⟩, 1, []⟩) := rfl
      have hn : ToNextToken (⟨⟨docTrailing, []⟩, 1, []⟩ : Cursor String)
          = Res.ok (textToken "\n", ⟨⟨docTrailing, []⟩, 2, []⟩) := by decide
      have hb : (!(startToken ⟨"", "a"⟩).IsStart) = false := by decide
      unfold ToNextSibling
      simp only [bind, Res.bind, hc, hb, Bool.false_eq_true, ↓reduceIte, he, hn,
        ToNextSibling_loop_trailing]
  have hchild : ∀ fuel : Nat,
      ToFirstChild fuel (⟨⟨docTrailing, []⟩, 1, []⟩ : Cursor String) = Res.fuel := by
    intro fuel
    have hn : ToNextToken (⟨⟨docTrailing, []⟩, 1, []⟩ : Cursor String)
        = Res.ok (textToken "\n", ⟨⟨docTrailing, []⟩, 2, []⟩) := by decide
    unfold ToFirstChild
    simp only [bind, Res.bind, hn, ToFirstChild_loop_trailing]
  refine ⟨hsib, ?_, hchild, ?_⟩
  · intro fuel
    cases fuel with
    | zero => rfl
    | succ n =>
      unfold ToNextSiblingByName
      rw [ToNextSiblingByName.loop, hsib]
  · intro fuel
    unfold ToFirstChildByName
    simp only [bind, Res.bind, hchild]

/-- C20, the code at the failing input: `c2 := c1.NewCursor()` in
`<a><b></b></a>` with a bookmark on the start token of `b`, then
`c1.InsertText("t")` at index 0. `c1` has five tokens; `c2` still has four,
whether `append` moved the array or not, while the bookmark list it reads is
the rebased one; when the array has moved the bookmark resolved through `c2`
is the end token of `b`. -/
theorem second_cursor_keeps_old_tokens :
    (insertWithSecondCursor true (Insertion.InsertText "t") cursorShared = Res.ok
      (⟨⟨textToken "t" :: docAB, [("mark", [2])]⟩, 1, []⟩,
       ⟨⟨docAB, [("mark", [2])]⟩, 0, []⟩)) ∧
    (insertWithSecondCursor false (Insertion.InsertText "t") cursorShared = Res.ok
      (⟨⟨textToken "t" :: docAB, [("mark", [2])]⟩, 1, []⟩,
       ⟨⟨[textToken "t", startToken ⟨"", "a"⟩, startToken ⟨"", "b"⟩, endToken ⟨"", "b"⟩],
         [("mark", [2])]⟩, 0, []⟩)) ∧
    CurrentToken (ToFirstBookmark "mark" cursorShared).2 = Res.ok (startToken ⟨"", "b"⟩) ∧
    CurrentToken (ToFirstBookmark "mark"
      (⟨⟨textToken "t" :: docAB, [("mark", [2])]⟩, 1, []⟩ : Cursor String)).2
        = Res.ok (startToken ⟨"", "b"⟩) ∧
    CurrentToken (ToFirstBookmark "mark"
      (⟨⟨docAB, [("mark", [2])]⟩, 0, []⟩ : Cursor String)).2
        = Res.ok (endToken ⟨"", "b"⟩) := by
  decide

theorem ToNextToken_ok (c : Cursor K) (h0 : -1 ≤ c.index) :
    (c.document.Tokens.length ≤ c.index + 1 ∧ ToNextToken c = Res.ok (noneToken, c)) ∨
    (c.index + 1 < c.document.Tokens.length ∧
      ∃ t, ToNextToken c = Res.ok (t, c.at (c.index + 1))) := by
  by_cases h : c.index + 1 < c.document.Tokens.length
  · right
    have hl : (c.index + 1).toNat < c.document.Tokens.length := by omega
    exact ⟨h, _, ToNextToken_in c _ (by omega) (List.getElem?_eq_getElem hl)⟩
  · left
    refine ⟨by omega, ?_⟩
    unfold ToNextToken
    simp only
    rw [if_pos (by omega)]
    have e : c.index + 1 - 1 = c.index := by omega
    rw [e]

theorem ToEndToken_loop_returns : ∀ (fuel : Nat) (c : Cursor K) (L : Int), -1 ≤ c.index →
    c.index < c.document.Tokens.length →
    (c.document.Tokens.length : Int) - (c.index + 1) < fuel →
    ∃ r, ToEndToken.loop fuel c L = Res.ok r := by
  intro fuel
  induction fuel with
  | zero => intro c L h0 h1 h; exact absurd h (by push_cast; omega)
  | succ n ih =>
    intro c L h0 h1 h
    rw [ToEndToken.loop]
    rcases ToNextToken_ok c h0 with ⟨_, hn⟩ | ⟨hlt, t, hn⟩
    · rw [hn]; exact ⟨_, rfl⟩
    · rw [hn]
      simp only
      have hrec : ∀ L1, ∃ r, ToEndToken.loop n (c.at (c.index + 1)) L1 = Res.ok r :=
        fun L1 => ih _ L1 (by show -1 ≤ c.index + 1; omega) hlt
          (by show (c.document.Tokens.length : Int) - (c.index + 1 + 1) < n
              push_cast at h; omega)
      cases t.Typ <;> simp only
      · exact hrec _
      · split
        · exact ⟨_, rfl⟩
        · exact hrec _
      · exact hrec _
      · exact hrec _
      · exact hrec _
      · exact hrec _
      · exact ⟨_, rfl⟩

theorem Xml_loop_returns {σ : Type} (enc : Encoder σ) : ∀ (fuel : Nat) (c : Cursor K) (L : Int)
    (e : σ), -1 ≤ c.index → c.index < c.document.Tokens.length →
    (c.document.Tokens.length : Int) - (c.index + 1) < fuel →
    ∃ e1 i, Xml.loop enc fuel c L e = Res.ok (e1, c.at i) := by
  intro fuel
  induction fuel with
  | zero => intro c L e h0 h1 h; exact absurd h (by push_cast; omega)
  | succ n ih =>
    intro c L e h0 h1 h
    rw [Xml.loop]
    rcases ToNextToken_ok c h0 with ⟨_, hn⟩ | ⟨hlt, t, hn⟩
    · rw [hn]; exact ⟨e, c.index, by rw [cursor_at_self c c.index rfl]; rfl⟩
    · rw [hn]
      simp only
      have hrec : ∀ L1 e1, ∃ e2 i, Xml.loop enc n (c.at (c.index + 1)) L1 e1
          = Res.ok (e2, c.at i) := by
        intro L1 e1
        obtain ⟨e2, i, hi⟩ := ih (c.at (c.index + 1)) L1 e1
          (by show -1 ≤ c.index + 1; omega) hlt
          (by show (c.document.Tokens.length : Int) - (c.index + 1 + 1) < n
              push_cast at h; omega)
        exact ⟨e2, i, by rw [hi, at_at]⟩
      cases t.Typ <;> simp only
      · exact hrec _ _
      · split
        · exact ⟨_, _, rfl⟩
        · exact hrec _ _
      · exact hrec _ _
      · exact hrec _ _
      · exact hrec _ _
      · exact hrec _ _
      · exact ⟨_, _, rfl⟩

theorem ToStartToken_loop_returns : ∀ (fuel : Nat) (c : Cursor K), -1 ≤ c.index →
    c.index < c.document.Tokens.length → c.index + 1 < fuel →
    ∃ t i, ToStartToken.loop fuel c = Res.ok (t, c.at i) := by
  intro fuel
  induction fuel with
  | zero => intro c hm _ h; exact absurd h (by push_cast; omega)
  | succ n ih =>
    intro c hm h1 h
    rw [ToStartToken.loop]
    by_cases h0 : c.index ≥ 0
    · rw [if_pos h0]
      have hl : c.index.toNat < c.document.Tokens.length := by omega
      rw [sliceIndex_at c c.index.toNat _ (by omega) (List.getElem?_eq_getElem hl)]
      simp only
      split
      · exact ⟨_, c.index, by rw [cursor_at_self c c.index rfl]⟩
      · obtain ⟨t, i, hi⟩ := ih (c.at (c.index - 1)) (by show -1 ≤ c.index - 1; omega)
          (by show c.index - 1 < (c.document.Tokens.length : Int); omega)
          (by show c.index - 1 + 1 < (n : Int); push_cast at h; omega)
        exact ⟨t, i, by rw [← at_at c (c.index - 1) i, ← hi]; rfl⟩
    · rw [if_neg h0]
      exact ⟨_, c.index, by rw [cursor_at_self c c.index rfl]⟩

/-- The scans of `ToEndToken`, `ToStartToken` and `Xml` return for every cursor index in
`[0, len)` and every fuel above the length of the sequence. -/
theorem bounded_scans_return {σ : Type} (enc : Encoder σ) (c : Cursor K) (fuel : Nat)
    (h0 : 0 ≤ c.index) (h1 : c.index < c.document.Tokens.length)
    (hf : c.document.Tokens.length < fuel) :
    (∃ r, ToEndToken fuel c = Res.ok r) ∧ (∃ r, ToStartToken fuel c = Res.ok r) ∧
      (∃ r, Xml enc fuel c = Res.ok r) := by
  have hl : c.index.toNat < c.document.Tokens.length := by omega
  refine ⟨?_, ?_, ?_⟩
  · unfold ToEndToken
    simp only [bind, Res.bind, pure]
    rw [sliceIndex_at c c.index.toNat _ (by omega) (List.getElem?_eq_getElem hl)]
    simp only
    split
    · exact ⟨_, rfl⟩
    · exact ToEndToken_loop_returns fuel c 1 (by omega) h1 (by omega)
  · obtain ⟨t, i, hr⟩ := ToStartToken_loop_returns fuel (Push c) (by show -1 ≤ c.index; omega)
      h1 (by show c.index + 1 < (fuel : Int); omega)
    unfold ToStartToken
    simp only [bind, Res.bind, pure, hr, Pop_Push]
    exact ⟨_, rfl⟩
  · obtain ⟨e1, i, hr⟩ := Xml_loop_returns enc fuel (Push c) 1
      (enc.EncodeToken enc.NewEncoder (c.document.Tokens[c.index.toNat]).Tok)
      (by show -1 ≤ c.index; omega) h1 (by show (c.document.Tokens.length : Int) - (c.index + 1) < fuel; omega)
    have hcur : CurrentToken (Push c) = Res.ok (c.document.Tokens[c.index.toNat]) :=
      CurrentToken_at (Push c) c.index.toNat _ (by show c.index = _; omega)
        (List.getElem?_eq_getElem hl)
    unfold Xml
    simp only [bind, Res.bind, pure, hcur, hr, Pop_Push]
    exact ⟨_, rfl⟩

/-! ### Supporting facts for the failing claims -/

/-- What `CurrentToken` does at every index: the token inside the sequence, the sentinel
below 0 and above the length, a panic at the length itself. -/
theorem CurrentToken_cases (c : Cursor K) :
    (0 ≤ c.index → c.index < c.document.Tokens.length →
      ∃ t, c.document.Tokens[c.index.toNat]? = some t ∧ CurrentToken c = Res.ok t) ∧
    (c.index < 0 ∨ (c.document.Tokens.length : Int) < c.index →
      CurrentToken c = Res.ok noneToken) ∧
    (c.index = c.document.Tokens.length → CurrentToken c = Res.panic) := by
  refine ⟨?_, ?_, ?_⟩
  · intro h0 h1
    have hl : c.index.toNat < c.document.Tokens.length := by omega
    exact ⟨_, List.getElem?_eq_getElem hl,
      CurrentToken_at c c.index.toNat _ (by omega) (List.getElem?_eq_getElem hl)⟩
  · intro h
    unfold CurrentToken
    rw [if_pos (by omega)]
  · intro h
    unfold CurrentToken sliceIndex
    rw [if_neg (by omega), if_neg (by omega)]

/-- On a token of the sequence that is not a start token `ToEndToken` returns the sentinel
and leaves the cursor as it is. -/
theorem ToEndToken_off_start (c : Cursor K) (fuel : Nat) (i : Nat) (t : Token)
    (hi : c.index = i) (ht : c.document.Tokens[i]? = some t) (hs : t.Typ ≠ TokenType.Start) :
    ToEndToken fuel c = Res.ok (noneToken, c) := by
  unfold ToEndToken
  simp only [bind, Res.bind, pure, sliceIndex_at c i t hi ht]
  have : t.IsStart = false := by simp [Token.IsStart, hs]
  simp [this]

/-- On a start token whose matching end is missing `ToEndToken` returns the sentinel with
the cursor on the last token: the sequence `<a><b></b>` from its first token. -/
theorem ToEndToken_truncated :
    ToEndToken 3 (⟨⟨[startToken ⟨"", "a"⟩, startToken ⟨"", "b"⟩, endToken ⟨"", "b"⟩], []⟩,
        0, []⟩ : Cursor String)
      = Res.ok (noneToken,
          ⟨⟨[startToken ⟨"", "a"⟩, startToken ⟨"", "b"⟩, endToken ⟨"", "b"⟩], []⟩, 2, []⟩) := by
  decide

/-- When `ClearBookmark` returns: a stored cursor index is removed from the list of the key,
and the list is kept as it is when the cursor index is not stored. -/
theorem ClearBookmark_effect [DecidableEq K] (c : Cursor K) (key : K) (hs : BookmarksSorted c) :
    (c.index ∈ bookmarkList c key →
      ∃ r, (bookmarkList c key)[r]? = some c.index ∧
        ClearBookmark key c = Res.ok (storeBookmarks c key ((bookmarkList c key).eraseIdx r))) ∧
    (c.index ∉ bookmarkList c key → (∃ b ∈ bookmarkList c key, c.index ≤ b) →
      ClearBookmark key c = Res.ok (storeBookmarks c key (bookmarkList c key))) := by
  have hl := bookmarkList_sorted c key hs
  obtain ⟨s1, s2, s3⟩ := SearchInts_spec (bookmarkList c key) c.index hl
  have hlt : (∃ b ∈ bookmarkList c key, c.index ≤ b) →
      SearchInts (bookmarkList c key) c.index < (bookmarkList c key).length := by
    rintro ⟨b, hb, hbx⟩
    obtain ⟨n, hn, hx⟩ := List.mem_iff_getElem.1 hb
    by_contra hge
    have := s2 n (by omega)
    rw [List.getD_eq_getElem _ _ hn, hx] at this
    omega
  constructor
  · intro hm
    have hr := hlt ⟨c.index, hm, le_refl _⟩
    obtain ⟨n, hn, hx⟩ := List.mem_iff_getElem.1 hm
    have hrn : SearchInts (bookmarkList c key) c.index ≤ n := by
      by_contra hgt
      have := s2 n (by omega)
      rw [List.getD_eq_getElem _ _ hn, hx] at this
      omega
    have h5 := sorted_getD_le _ hl (SearchInts (bookmarkList c key) c.index) n hrn hn
    rw [List.getD_eq_getElem _ _ hn, hx] at h5
    have hv : (bookmarkList c key).getD (SearchInts (bookmarkList c key) c.index) 0 = c.index :=
      le_antisymm h5 (s3 _ (le_refl _) hr)
    refine ⟨SearchInts (bookmarkList c key) c.index, ?_, ?_⟩
    · rw [List.getElem?_eq_getElem hr]
      rw [List.getD_eq_getElem _ _ hr] at hv
      rw [hv]
    · unfold ClearBookmark
      simp only [bind, Res.bind, pure]
      rw [sliceIndex_nat _ _ hr]
      simp only
      rw [if_pos hv]
      unfold slicesDelete
      rw [if_pos ⟨by omega, by omega⟩]
      simp only
      rw [← List.eraseIdx_eq_take_drop_succ]
  · intro hnm hex
    have hr := hlt hex
    have hv : ¬ (bookmarkList c key).getD (SearchInts (bookmarkList c key) c.index) 0 = c.index := by
      intro h
      apply hnm
      rw [← h, List.getD_eq_getElem _ _ hr]
      exact List.getElem_mem _
    unfold ClearBookmark
    simp only [bind, Res.bind, pure]
    rw [sliceIndex_nat _ _ hr]
    simp only
    rw [if_neg hv]

end XmlCursor
